import Mathlib

/-!
Verification development for the liveness / register-pressure analysis
in `src/src/amd/compiler/aco_live_var_analysis.cpp`.

The C++ source is shallowly embedded below: pure helper functions become
Lean functions, the backward per-block scan becomes structural recursion
over the instruction list, and the worklist fixpoint becomes a
fuel-bounded loop whose fuel is the bound claimed by the specification.
Machine integers are modelled as `Nat`/`Int`; the two `uint16_t`
subtractions that can wrap are modelled with an explicit `% 65536`.
-/

set_option maxHeartbeats 1000000

namespace Aco

/-- Register banks of a register class (`RegType` in the source IR). -/
inductive RegType
  | sgpr
  | vgpr
deriving DecidableEq, Repr

/-- Modelled from the spec: a register class carries the bank, the size in
allocation units and whether it lives in the control-flow-only "linear"
bank (`RegClass` lives in `aco_ir.h`, which is outside `src/`). -/
structure RegClass where
  type : RegType
  size : Nat
  is_linear : Bool
deriving DecidableEq, Repr

/-- A virtual register: an id plus its register class (`Temp`). -/
structure Temp where
  id : Nat
  rc : RegClass
deriving DecidableEq, Repr

def Temp.size (t : Temp) : Nat := t.rc.size

def Temp.type (t : Temp) : RegType := t.rc.type

/-- The additive vgpr/sgpr demand pair (`RegisterDemand`).  The source
stores `int16_t` components; deltas can be negative, so we use `Int`. -/
structure RegisterDemand where
  vgpr : Int := 0
  sgpr : Int := 0
deriving DecidableEq, Repr

/-- `RegisterDemand::operator+=(Temp)`: charge a temp to its bank. -/
def RegisterDemand.addTemp (d : RegisterDemand) (t : Temp) : RegisterDemand :=
  { vgpr := d.vgpr + (if t.type = RegType.vgpr then (t.size : Int) else 0),
    sgpr := d.sgpr + (if t.type = RegType.vgpr then 0 else (t.size : Int)) }

/-- `RegisterDemand::operator-=(Temp)`. -/
def RegisterDemand.subTemp (d : RegisterDemand) (t : Temp) : RegisterDemand :=
  { vgpr := d.vgpr - (if t.type = RegType.vgpr then (t.size : Int) else 0),
    sgpr := d.sgpr - (if t.type = RegType.vgpr then 0 else (t.size : Int)) }

/-- `RegisterDemand::update`: pointwise maximum. -/
def RegisterDemand.update (d e : RegisterDemand) : RegisterDemand :=
  { vgpr := max d.vgpr e.vgpr, sgpr := max d.sgpr e.sgpr }

instance : Add RegisterDemand :=
  ⟨fun d e => { vgpr := d.vgpr + e.vgpr, sgpr := d.sgpr + e.sgpr }⟩

instance : Sub RegisterDemand :=
  ⟨fun d e => { vgpr := d.vgpr - e.vgpr, sgpr := d.sgpr - e.sgpr }⟩

/-- The condition-code register index (`vcc`; value from the hardware
register file, only ever used for equality tests here). -/
def vcc : Nat := 106

/-- Modelled from the spec: an operand (a read reference), with the
mutable `isKill`/`isFirstKill` flags and the immutable fixed/hint and
late-kill information (`Operand` lives in `aco_ir.h`, outside `src/`). -/
structure Operand where
  temp : Option Temp
  fixed : Bool := false
  physReg : Nat := 0
  lateKill : Bool := false
  kill : Bool := false
  firstKill : Bool := false
deriving DecidableEq, Repr

def Operand.isTemp (o : Operand) : Bool := o.temp.isSome

/-- The operand's temp id, when it is a temp (`tempId()`). -/
def Operand.tid (o : Operand) : Option Nat := o.temp.map Temp.id

def Operand.isFixed (o : Operand) : Bool := o.fixed

def Operand.isLateKill (o : Operand) : Bool := o.lateKill

def Operand.isKill (o : Operand) : Bool := o.kill

def Operand.isFirstKill (o : Operand) : Bool := o.firstKill

/-- Modelled from the spec: a first-kill is in particular a kill, so
clearing the kill flag also clears first-kill (setter coupling from
`aco_ir.h`, outside `src/`). -/
def Operand.setKill (o : Operand) (flag : Bool) : Operand :=
  if flag then { o with kill := true }
  else { o with kill := false, firstKill := false }

/-- Modelled from the spec: setting first-kill marks the occurrence as a
kill as well (setter coupling from `aco_ir.h`, outside `src/`). -/
def Operand.setFirstKill (o : Operand) (flag : Bool) : Operand :=
  if flag then { o with firstKill := true, kill := true }
  else { o with firstKill := false }

/-- Modelled from the spec: a definition (a write reference) with its
mutable dead-on-write `isKill` flag (`Definition` lives in `aco_ir.h`,
outside `src/`). -/
structure Definition where
  temp : Option Temp
  fixed : Bool := false
  hint : Bool := false
  physReg : Nat := 0
  kill : Bool := false
deriving DecidableEq, Repr

def Definition.isTemp (d : Definition) : Bool := d.temp.isSome

def Definition.isFixed (d : Definition) : Bool := d.fixed

def Definition.hasHint (d : Definition) : Bool := d.hint

def Definition.isKill (d : Definition) : Bool := d.kill

def Definition.setKill (d : Definition) (flag : Bool) : Definition :=
  { d with kill := flag }

/-- The opcodes this analysis distinguishes: the two phi kinds, the
end-of-logical-region marker, and everything else. -/
inductive Opcode
  | p_phi
  | p_linear_phi
  | p_logical_end
  | other
deriving DecidableEq, Repr

structure Instruction where
  opcode : Opcode
  operands : List Operand
  definitions : List Definition
deriving DecidableEq, Repr

/-- `is_phi`. -/
def is_phi (i : Instruction) : Bool :=
  i.opcode = Opcode.p_phi || i.opcode = Opcode.p_linear_phi

structure Block where
  index : Nat
  instructions : List Instruction
  logical_preds : List Nat
  linear_preds : List Nat
  register_demand : RegisterDemand := {}
deriving DecidableEq, Repr

/-- Device descriptor fields read by this file. -/
structure DeviceInfo where
  physical_sgprs : Nat
  physical_vgprs : Nat
  sgpr_alloc_granule : Nat
  vgpr_alloc_granule : Nat
  sgpr_limit : Nat
  vgpr_limit : Nat
  max_wave64_per_simd : Nat
  simd_per_cu : Nat
  lds_limit : Nat
  lds_encoding_granule : Nat
  lds_alloc_granule : Nat
  xnack_enabled : Bool
deriving DecidableEq, Repr

/-- The shader-config fields read by this file. -/
structure ConfigInfo where
  num_shared_vgprs : Nat
  lds_size : Nat
deriving DecidableEq, Repr

/-- The program: blocks, per-temp register classes, device descriptor and
the program-wide fields this analysis reads and writes.
`progress_before_ra` models `progress < CompilationProgress::after_ra`. -/
structure Program where
  blocks : List Block
  temp_rc : Nat → RegClass
  dev : DeviceInfo
  config : ConfigInfo
  chip_class : Nat
  wave_size : Nat
  workgroup_size : Nat
  wgp_mode : Bool
  needs_flat_scr : Bool
  needs_vcc : Bool := false
  min_waves : Nat := 0
  max_waves : Nat := 0
  num_waves : Nat := 0
  max_reg_demand : RegisterDemand := {}
  progress_before_ra : Bool := true

/-- Liveness result (`struct live`): per block a live-out id set and the
per-instruction demand snapshots. -/
structure live where
  live_out : List (Finset Nat)
  register_demand : List (List RegisterDemand)
deriving DecidableEq

/- ## Incremental demand utilities (`get_live_changes` etc.) -/

/-- `get_live_changes`: net demand change of crossing an instruction
forward, computed from the kill flags. -/
def get_live_changes (instr : Instruction) : RegisterDemand :=
  let afterDefs := instr.definitions.foldl
    (fun changes d =>
      match d.temp with
      | none => changes
      | some t => if d.isKill then changes else changes.addTemp t)
    ({} : RegisterDemand)
  instr.operands.foldl
    (fun changes o =>
      match o.temp with
      | none => changes
      | some t => if o.isFirstKill then changes.subTemp t else changes)
    afterDefs

/-- `get_temp_registers`: transient demand of an instruction (dead
definitions, and late-kill operands at their first kill). -/
def get_temp_registers (instr : Instruction) : RegisterDemand :=
  let fromDefs := instr.definitions.foldl
    (fun acc d =>
      match d.temp with
      | none => acc
      | some t => if d.isKill then acc.addTemp t else acc)
    ({} : RegisterDemand)
  instr.operands.foldl
    (fun acc o =>
      match o.temp with
      | none => acc
      | some t => if o.isLateKill && o.isFirstKill then acc.addTemp t else acc)
    fromDefs

/-- `get_demand_before`. -/
def get_demand_before (demand : RegisterDemand) (instr : Instruction)
    (instr_before : Option Instruction) : RegisterDemand :=
  let d := demand - get_live_changes instr - get_temp_registers instr
  match instr_before with
  | none => d
  | some pre => d + get_temp_registers pre

/- ## The per-block backward scan (`process_live_temps_per_block`) -/

/-- Lines 91-93: the running demand of a live id set (`for t : live,
new_demand += Temp(t, rc)`; iteration order is irrelevant since the sum
commutes). -/
def demandOfSet (rcOf : Nat → RegClass) (S : Finset Nat) : RegisterDemand :=
  { vgpr := S.sum (fun t => if (rcOf t).type = RegType.vgpr then ((rcOf t).size : Int) else 0),
    sgpr := S.sum (fun t => if (rcOf t).type = RegType.vgpr then 0 else ((rcOf t).size : Int)) }

/-- State after the KILL phase of one instruction. -/
structure KillRes where
  defs : List Definition
  live : Finset Nat
  demand : RegisterDemand
  snapAdd : RegisterDemand
  needsVcc : Bool
deriving DecidableEq

/-- The KILL loop (lines 105-122): erase each defined register from the
live set; a present register is a live write (clear kill, subtract its
size from the running demand), an absent one is dead-on-write (set kill
and charge the size to this instruction's snapshot only). -/
def killDefs : List Definition → Finset Nat → RegisterDemand → KillRes
  | [], lv, dem => ⟨[], lv, dem, {}, false⟩
  | d :: rest, lv, dem =>
    match d.temp with
    | none =>
      let r := killDefs rest lv dem
      ⟨d :: r.defs, r.live, r.demand, r.snapAdd, r.needsVcc⟩
    | some t =>
      let vc := (d.isFixed || d.hasHint) && d.physReg == vcc
      if t.id ∈ lv then
        let r := killDefs rest (lv.erase t.id) (dem.subTemp t)
        ⟨d.setKill false :: r.defs, r.live, r.demand, r.snapAdd, vc || r.needsVcc⟩
      else
        let r := killDefs rest lv dem
        ⟨d.setKill true :: r.defs, r.live, r.demand, r.snapAdd.addTemp t, vc || r.needsVcc⟩

/-- State after the GEN phase of one instruction. -/
structure GenRes where
  ops : List Operand
  live : Finset Nat
  demand : RegisterDemand
  snapAdd : RegisterDemand
  needsVcc : Bool
deriving DecidableEq

/-- The fix-up loop of lines 145-150: once an operand is recognised as
the first kill, every later same-register operand is marked kill but not
first-kill. -/
def markLaterKills (u : Nat) (ops : List Operand) : List Operand :=
  ops.map fun o => if o.tid = some u then (o.setFirstKill false).setKill true else o

/-- The GEN loop (lines 134-155): insert each read register into the
live set; a new insertion is the first kill (mark it, fix later
same-register operands, charge late-kill transients, grow the running
demand). -/
def genOps : List Operand → Finset Nat → RegisterDemand → GenRes
  | [], lv, dem => ⟨[], lv, dem, {}, false⟩
  | o :: rest, lv, dem =>
    match o.temp with
    | none =>
      let r := genOps rest lv dem
      ⟨o :: r.ops, r.live, r.demand, r.snapAdd, r.needsVcc⟩
    | some t =>
      let vc := o.isFixed && o.physReg == vcc
      if t.id ∈ lv then
        let r := genOps rest lv dem
        ⟨o :: r.ops, r.live, r.demand, r.snapAdd, vc || r.needsVcc⟩
      else
        let r := genOps (markLaterKills t.id rest) (insert t.id lv) (dem.addTemp t)
        ⟨o.setFirstKill true :: r.ops, r.live, r.demand,
         (if o.isLateKill then r.snapAdd.addTemp t else r.snapAdd), vc || r.needsVcc⟩
termination_by ops _ _ => ops.length
decreasing_by all_goals (simp [markLaterKills]; try omega)

/-- Fuel-indexed structural twin of `genOps`.  With fuel at least the
operand count it computes the same result (`genOpsF_eq` below); being
structurally recursive it also evaluates inside the kernel, so the
executable scan below uses it. -/
def genOpsF : Nat → List Operand → Finset Nat → RegisterDemand → GenRes
  | 0, ops, lv, dem => ⟨ops, lv, dem, {}, false⟩
  | _ + 1, [], lv, dem => ⟨[], lv, dem, {}, false⟩
  | fuel + 1, o :: rest, lv, dem =>
    match o.temp with
    | none =>
      let r := genOpsF fuel rest lv dem
      ⟨o :: r.ops, r.live, r.demand, r.snapAdd, r.needsVcc⟩
    | some t =>
      let vc := o.isFixed && o.physReg == vcc
      if t.id ∈ lv then
        let r := genOpsF fuel rest lv dem
        ⟨o :: r.ops, r.live, r.demand, r.snapAdd, vc || r.needsVcc⟩
      else
        let r := genOpsF fuel (markLaterKills t.id rest) (insert t.id lv) (dem.addTemp t)
        ⟨o.setFirstKill true :: r.ops, r.live, r.demand,
         (if o.isLateKill then r.snapAdd.addTemp t else r.snapAdd), vc || r.needsVcc⟩

/-- Sufficient fuel makes the structural GEN loop agree with `genOps`. -/
theorem genOpsF_eq (ops : List Operand) (lv : Finset Nat) (dem : RegisterDemand) :
    ∀ fuel, ops.length ≤ fuel → genOpsF fuel ops lv dem = genOps ops lv dem := by
  induction ops, lv, dem using genOps.induct with
  | case1 lv dem =>
    intro fuel _
    cases fuel <;> simp [genOpsF, genOps]
  | case2 o0 rest lv dem ho0 ih =>
    intro fuel hf
    cases fuel with
    | zero => simp at hf
    | succ f =>
      have hr : rest.length ≤ f := by simp at hf; omega
      simp only [genOpsF, ho0, genOps, ih f hr]
  | case3 o0 rest lv dem t0 ho0 hmem ih =>
    intro fuel hf
    cases fuel with
    | zero => simp at hf
    | succ f =>
      have hr : rest.length ≤ f := by simp at hf; omega
      simp only [genOpsF, ho0, genOps, if_pos hmem, ih f hr]
  | case4 o0 rest lv dem t0 ho0 hmem ih =>
    intro fuel hf
    cases fuel with
    | zero => simp at hf
    | succ f =>
      have hr : (markLaterKills t0.id rest).length ≤ f := by
        simp [markLaterKills] at hf ⊢; omega
      simp only [genOpsF, ho0, genOps, if_neg hmem, ih f hr]

/-- The fuel chosen by the scan (the operand count) is sufficient. -/
theorem genOpsF_len (ops : List Operand) (lv : Finset Nat) (dem : RegisterDemand) :
    genOpsF ops.length ops lv dem = genOps ops lv dem :=
  genOpsF_eq ops lv dem _ (Nat.le_refl _)

/-- Result of one non-phi instruction of the backward scan. -/
structure InstrRes where
  insn : Instruction
  snap : RegisterDemand
  live : Finset Nat
  demand : RegisterDemand
  needsVcc : Bool
deriving DecidableEq

/-- One non-phi instruction of the backward scan (lines 102-158): snapshot
the running demand, run KILL over the definitions, then either the
`p_logical_end` special case (re-add the block's logical-phi sgpr count
`phiC`) or clear all operand kill flags and run GEN. -/
def stepInstr (phiC : Nat) (insn : Instruction) (lv : Finset Nat)
    (dem : RegisterDemand) : InstrRes :=
  let k := killDefs insn.definitions lv dem
  if insn.opcode = Opcode.p_logical_end then
    { insn := { insn with definitions := k.defs },
      snap := dem + k.snapAdd,
      live := k.live,
      demand := { k.demand with sgpr := k.demand.sgpr + (phiC : Int) },
      needsVcc := k.needsVcc }
  else
    let cleared := insn.operands.map (fun o => o.setKill false)
    let g := genOpsF cleared.length cleared k.live k.demand
    { insn := { insn with operands := g.ops, definitions := k.defs },
      snap := dem + k.snapAdd + g.snapAdd,
      live := g.live,
      demand := g.demand,
      needsVcc := k.needsVcc || g.needsVcc }

/-- Result of the backward scan over the non-phi tail of a block. -/
structure ScanRes where
  insns : List Instruction
  snaps : List RegisterDemand
  live : Finset Nat
  demand : RegisterDemand
  blockMax : RegisterDemand
  needsVcc : Bool
deriving DecidableEq

/-- The backward loop of lines 97-159 over the non-phi tail: the last
instruction is processed first, so the recursion processes `rest`
(the later instructions) before the head. -/
def scanRev (phiC : Nat) : List Instruction → Finset Nat → RegisterDemand → ScanRes
  | [], lv, dem => ⟨[], [], lv, dem, {}, false⟩
  | insn :: rest, lv, dem =>
    let r := scanRev phiC rest lv dem
    let s := stepInstr phiC insn r.live r.demand
    ⟨s.insn :: r.insns, s.snap :: r.snaps, s.live, s.demand,
     r.blockMax.update s.snap, r.needsVcc || s.needsVcc⟩

/-- The instructions after the last phi — exactly the region the backward
loop visits before its `is_phi` break. -/
def scanRegion (l : List Instruction) : List Instruction :=
  (l.reverse.takeWhile (fun i => !is_phi i)).reverse

/-- The instructions up to and including the last phi (walked by the two
phi loops at lines 167-190 and 210-236). -/
def phiRegion (l : List Instruction) : List Instruction :=
  l.take (l.length - (scanRegion l).length)

/-- Result of the phi-definition pass. -/
structure PhiDefRes where
  insns : List Instruction
  live : Finset Nat
  needsVcc : Bool
deriving DecidableEq

/-- Phi-definition handling (lines 167-190), walking `phi_idx` downward
(so the recursion processes `rest` first).  An instruction that does not
have exactly one definition, or whose definition is not a temp, violates
a debug assert in the source and is left untouched here. -/
def phiDefs : List Instruction → Finset Nat → PhiDefRes
  | [], lv => ⟨[], lv, false⟩
  | insn :: rest, lv =>
    let r := phiDefs rest lv
    match insn.definitions with
    | [d] =>
      match d.temp with
      | none => ⟨insn :: r.insns, r.live, r.needsVcc⟩
      | some t =>
        let vc := (d.isFixed || d.hasHint) && d.physReg == vcc
        if t.id ∈ r.live then
          ⟨{ insn with definitions := [d.setKill false] } :: r.insns,
           r.live.erase t.id, vc || r.needsVcc⟩
        else
          ⟨{ insn with definitions := [d.setKill true] } :: r.insns,
           r.live, vc || r.needsVcc⟩
    | _ => ⟨insn :: r.insns, r.live, r.needsVcc⟩

/-- Insert a temp id into a stored live-out set and enqueue the owner
when the insertion is new (lines 202-206 and 225-227).  An out-of-range
predecessor index is undefined behaviour in the source; it is modelled
as a no-op. -/
def pushLive (lvo : List (Finset Nat)) (wl : Finset Nat) (pred t : Nat) :
    List (Finset Nat) × Finset Nat × Bool :=
  if pred < lvo.length then
    let S := lvo.getD pred ∅
    if t ∈ S then (lvo, wl, false)
    else (lvo.set pred (insert t S), insert pred wl, true)
  else (lvo, wl, false)

/-- The predecessor list chosen for a residual live id (line 195). -/
def predsFor (rcOf : Nat → RegClass) (blk : Block) (t : Nat) : List Nat :=
  if (rcOf t).is_linear then blk.linear_preds else blk.logical_preds

/-- The elements of a finite id set in increasing order (an `IDSet`
iterates ids ascending).  Stated via insertion sort so that the list
also evaluates inside the kernel. -/
def sortFin (s : Finset Nat) : List Nat :=
  Quot.liftOn s.val (fun l => l.insertionSort (· ≤ ·))
    (fun a b h => List.eq_of_perm_of_sorted
      (((List.perm_insertionSort _ a).trans h).trans (List.perm_insertionSort _ b).symm)
      (List.sorted_insertionSort _ a) (List.sorted_insertionSort _ b))

/-- The (pred, temp) insertions of the live-in merge (lines 193-207), in
the source's iteration order (ids ascending; the debug diagnostic for a
temp with an empty predecessor list changes no state and is omitted). -/
def mergeActions (rcOf : Nat → RegClass) (blk : Block) (residual : Finset Nat) :
    List (Nat × Nat) :=
  (sortFin residual).flatMap (fun t => (predsFor rcOf blk t).map (fun pr => (pr, t)))

/-- Run a sequence of live-out insertions. -/
def pushAll : List (Nat × Nat) → List (Finset Nat) → Finset Nat →
    List (Finset Nat) × Finset Nat
  | [], lvo, wl => (lvo, wl)
  | (pr, t) :: rest, lvo, wl =>
    let s := pushLive lvo wl pr t
    pushAll rest s.1 s.2.1

/-- Mutable state threaded through the phi-operand pass. -/
structure PushSt where
  live_out : List (Finset Nat)
  worklist : Finset Nat
  phiC : List Nat
  needsVcc : Bool
deriving DecidableEq

/-- The per-edge pushes of one phi instruction (lines 218-231): insert
each operand's id into the matching predecessor's live-out set and, when
the insertion is new and the phi is a logical sgpr phi, grow that
predecessor's `phi_sgpr_ops` counter. -/
def phiOpPush (isLogical : Bool) : List (Nat × Operand) → PushSt → PushSt
  | [], st => st
  | (pr, o) :: rest, st =>
    match o.temp with
    | none => phiOpPush isLogical rest st
    | some t =>
      let vc := st.needsVcc || (o.isFixed && o.physReg == vcc)
      let s := pushLive st.live_out st.worklist pr t.id
      let phiC' :=
        if s.2.2 && isLogical && (t.type == RegType.sgpr)
        then st.phiC.set pr (st.phiC.getD pr 0 + t.size)
        else st.phiC
      phiOpPush isLogical rest ⟨s.1, s.2.1, phiC', vc⟩

/-- The kill flags written by the phi-operand pass (line 233): an operand
at an edge position is killed iff its register is no longer in the
block's residual live set. -/
def phiOpFlags (residual : Finset Nat) (nPreds : Nat) (ops : List Operand) : List Operand :=
  ops.enum.map fun io =>
    match io.2.temp with
    | none => io.2
    | some t => if io.1 < nPreds then io.2.setKill (!(decide (t.id ∈ residual))) else io.2

/-- Result of the phi-operand pass. -/
structure PhiOpRes where
  insns : List Instruction
  push : PushSt
deriving DecidableEq

/-- The phi-operand pass (lines 210-236), walking `phi_idx` downward. -/
def phiOpsPhase (residual : Finset Nat) (blk : Block) :
    List Instruction → PushSt → PhiOpRes
  | [], st => ⟨[], st⟩
  | insn :: rest, st =>
    let r := phiOpsPhase residual blk rest st
    let preds := if insn.opcode = Opcode.p_phi then blk.logical_preds else blk.linear_preds
    let st' := phiOpPush (insn.opcode == Opcode.p_phi) (preds.zip insn.operands) r.push
    ⟨{ insn with operands := phiOpFlags residual preds.length insn.operands } :: r.insns, st'⟩

/-- Result of the whole per-block step. -/
structure BlockRes where
  blk : Block
  lv : live
  worklist : Finset Nat
  phiC : List Nat
  needsVcc : Bool
  assertOK : Bool
deriving DecidableEq

/-- `process_live_temps_per_block` (lines 80-239).  `assertOK` records the
entry-block consistency assert of line 238. -/
def process_live_temps_per_block (rcOf : Nat → RegClass) (beforeRA : Bool) (blk : Block)
    (lv : live) (wl : Finset Nat) (phiC : List Nat) : BlockRes :=
  let S := lv.live_out.getD blk.index ∅
  let c := phiC.getD blk.index 0
  let dem0 := demandOfSet rcOf S
  let dem1 := { dem0 with sgpr := dem0.sgpr - (c : Int) }
  let tail := scanRegion blk.instructions
  let phis := phiRegion blk.instructions
  let sc := scanRev c tail S dem1
  let blockMax := sc.blockMax.update sc.demand
  let pd := phiDefs phis sc.live
  let residual := pd.live
  let snaps := phis.map (fun _ => sc.demand) ++ sc.snaps
  let merged := pushAll (mergeActions rcOf blk residual) lv.live_out wl
  let po := phiOpsPhase residual blk pd.insns ⟨merged.1, merged.2, phiC, false⟩
  { blk := { blk with
      instructions := po.insns ++ sc.insns,
      register_demand := if beforeRA then blockMax else blk.register_demand },
    lv := { live_out := po.push.live_out,
            register_demand := lv.register_demand.set blk.index snaps },
    worklist := po.push.worklist,
    phiC := po.push.phiC,
    needsVcc := sc.needsVcc || pd.needsVcc || po.push.needsVcc,
    assertOK := (blk.index != 0) ||
      (decide (sc.demand = ({} : RegisterDemand)) && decide (residual = ∅)) }

/- ## The worklist driver (`live_var_analysis`) -/

/-- The full mutable state of the analysis loop. -/
structure AnalysisState where
  program : Program
  lv : live
  worklist : Finset Nat
  phiC : List Nat
  new_demand : RegisterDemand
  assertOK : Bool

/-- Lines 365-376: empty live-outs, empty per-block snapshot lists, zero
phi counters, every block index pending, `needs_vcc` reset. -/
def analysisInit (p : Program) : AnalysisState :=
  { program := { p with needs_vcc := false },
    lv := { live_out := List.replicate p.blocks.length ∅,
            register_demand := List.replicate p.blocks.length [] },
    worklist := p.blocks.foldl (fun s b => insert b.index s) ∅,
    phiC := List.replicate p.blocks.length 0,
    new_demand := {},
    assertOK := true }

/-- One iteration body of the worklist loop (lines 378-382) after the pop:
run the per-block step on block `x` and fold its outputs back into the
state.  A pending index with no block is out of range (UB in the source)
and skips. -/
def analysisStep (st : AnalysisState) (x : Nat) : AnalysisState :=
  match st.program.blocks.get? x with
  | none => st
  | some blk =>
    let r := process_live_temps_per_block st.program.temp_rc st.program.progress_before_ra
               blk st.lv st.worklist st.phiC
    { program := { st.program with
        blocks := st.program.blocks.set x r.blk,
        needs_vcc := st.program.needs_vcc || r.needsVcc },
      lv := r.lv,
      worklist := r.worklist,
      phiC := r.phiC,
      new_demand := st.new_demand.update r.blk.register_demand,
      assertOK := st.assertOK && r.assertOK }

/-- The worklist loop (lines 377-383): repeatedly pop the numerically
highest pending index.  The loop is fuel-bounded; `analysisFuel` below is
provably enough fuel to drain the worklist. -/
def liveLoop : Nat → AnalysisState → AnalysisState
  | 0, st => st
  | fuel + 1, st =>
    if h : st.worklist.Nonempty then
      let x := st.worklist.max' h
      liveLoop fuel (analysisStep { st with worklist := st.worklist.erase x } x)
    else st

def instrTempIds (i : Instruction) : Finset Nat :=
  (i.operands.foldr (fun o acc =>
      match o.temp with | none => acc | some t => insert t.id acc) ∅) ∪
  (i.definitions.foldr (fun d acc =>
      match d.temp with | none => acc | some t => insert t.id acc) ∅)

def blockTempIds (b : Block) : Finset Nat :=
  b.instructions.foldr (fun i acc => instrTempIds i ∪ acc) ∅

/-- Every temp id mentioned by the program. -/
def tempUniverse (p : Program) : Finset Nat :=
  p.blocks.foldr (fun b acc => blockTempIds b ∪ acc) ∅

/-- The fuel that drains the worklist: one pop per seeded block plus one
pop per possible (block, temp-id) live-out growth event — the bound the
specification states for fixpoint termination. -/
def analysisFuel (p : Program) : Nat :=
  p.blocks.length + p.blocks.length * (tempUniverse p).card

def liveVarAnalysisState (p : Program) : AnalysisState :=
  liveLoop (analysisFuel p) (analysisInit p)

/-- `live_var_analysis` (lines 363-390): run the fixpoint, then (unless
register allocation already ran) the occupancy solver on the tracked peak
demand.  Forward declaration of the solver follows below. -/
def liveVarAnalysisPeak (p : Program) : RegisterDemand :=
  (liveVarAnalysisState p).new_demand

/- ## Occupancy solver -/

def GFX8 : Nat := 8

def GFX10 : Nat := 10

def UINT_MAX : Nat := 4294967295

/-- `round_down` from the source. -/
def round_down (a b : Nat) : Nat := a - a % b

/-- The `DIV_ROUND_UP` macro. -/
def divRoundUp (a b : Nat) : Nat := (a + b - 1) / b

/-- The `align` macro, `(x + y - 1) & ~(y - 1)`, in 32-bit arithmetic
(`y` is a power of two at every use site). -/
def alignPow2 (x y : Nat) : Nat := Nat.land (x + y - 1) (4294967296 - y)

/-- The `ALIGN_NPOT` macro, `(x + y - 1) / y * y`. -/
def alignNpot (x y : Nat) : Nat := (x + y - 1) / y * y

/-- `uint16_t` subtraction (the two subtractions in the
`get_addr_*_from_waves` helpers can wrap). Both arguments are below
`65536` wherever this is used. -/
def usub16 (a b : Nat) : Nat := (a + 65536 - b) % 65536

/-- `calc_waves_per_workgroup`. -/
def calc_waves_per_workgroup (p : Program) : Nat :=
  let workgroup_size := if p.workgroup_size = UINT_MAX then p.wave_size else p.workgroup_size
  alignPow2 workgroup_size p.wave_size / p.wave_size

/-- `get_extra_sgprs`: per-generation reserved scalar registers.  The
debug-build asserts of the source (no flat-scratch/xnack on the tiers
that exclude them) are not part of the returned value and are omitted. -/
def get_extra_sgprs (p : Program) : Nat :=
  if GFX10 ≤ p.chip_class then 0
  else if GFX8 ≤ p.chip_class then
    if p.needs_flat_scr then 6
    else if p.dev.xnack_enabled then 4
    else if p.needs_vcc then 2
    else 0
  else
    if p.needs_flat_scr then 4
    else if p.needs_vcc then 2
    else 0

/-- `get_sgpr_alloc`. -/
def get_sgpr_alloc (p : Program) (addressable_sgprs : Nat) : Nat :=
  let sgprs := addressable_sgprs + get_extra_sgprs p
  let granule := p.dev.sgpr_alloc_granule
  alignNpot (max sgprs granule) granule

/-- `get_vgpr_alloc` (its assert `addressable_vgprs <= vgpr_limit` is a
debug-build precondition, not a branch). -/
def get_vgpr_alloc (p : Program) (addressable_vgprs : Nat) : Nat :=
  let granule := p.dev.vgpr_alloc_granule
  alignPow2 (max addressable_vgprs granule) granule

/-- `get_addr_sgpr_from_waves`. -/
def get_addr_sgpr_from_waves (p : Program) (waves : Nat) : Nat :=
  let sgprs := min (p.dev.physical_sgprs / waves) 128
  let sgprs := round_down sgprs p.dev.sgpr_alloc_granule
  let sgprs := usub16 sgprs (get_extra_sgprs p)
  min sgprs p.dev.sgpr_limit

/-- `get_addr_vgpr_from_waves` (`& ~(granule - 1)` is taken in 32-bit
arithmetic, hence the `2^32 - granule` mask). -/
def get_addr_vgpr_from_waves (p : Program) (waves : Nat) : Nat :=
  let vgprs := Nat.land (p.dev.physical_vgprs / waves) (4294967296 - p.dev.vgpr_alloc_granule)
  let vgprs := usub16 vgprs (p.config.num_shared_vgprs / 2)
  min vgprs p.dev.vgpr_limit

/-- `calc_min_waves`. -/
def calc_min_waves (p : Program) : Program :=
  let waves_per_workgroup := calc_waves_per_workgroup p
  let simd_per_cu_wgp := p.dev.simd_per_cu * (if p.wgp_mode then 2 else 1)
  { p with min_waves := divRoundUp waves_per_workgroup simd_per_cu_wgp }

/-- `update_vgpr_sgpr_demand`.  Negative demand components never occur on
the analysis path; the `int16_t → uint16_t` conversions are modelled by
`Int.toNat`. -/
def update_vgpr_sgpr_demand (p : Program) (new_demand : RegisterDemand) : Program :=
  let max_waves_per_simd := p.dev.max_wave64_per_simd * (64 / p.wave_size)
  let simd_per_cu_wgp := p.dev.simd_per_cu * (if p.wgp_mode then 2 else 1)
  let lds_limit := if p.wgp_mode then p.dev.lds_limit * 2 else p.dev.lds_limit
  let sgpr_limit := get_addr_sgpr_from_waves p p.min_waves
  let vgpr_limit := get_addr_vgpr_from_waves p p.min_waves
  if new_demand.vgpr > (vgpr_limit : Int) ∨ new_demand.sgpr > (sgpr_limit : Int) then
    { p with num_waves := 0, max_reg_demand := new_demand }
  else
    let nw0 := p.dev.physical_sgprs / get_sgpr_alloc p new_demand.sgpr.toNat
    let vgpr_demand := get_vgpr_alloc p new_demand.vgpr.toNat + p.config.num_shared_vgprs / 2
    let nw1 := min nw0 (p.dev.physical_vgprs / vgpr_demand)
    let waves_per_workgroup := calc_waves_per_workgroup p
    let wg0 := max_waves_per_simd * simd_per_cu_wgp / waves_per_workgroup
    let wg1 :=
      if p.config.lds_size ≠ 0 then
        let lds := p.config.lds_size * p.dev.lds_encoding_granule
        let lds := alignPow2 lds p.dev.lds_alloc_granule
        min wg0 (lds_limit / lds)
      else wg0
    let wg2 := if 1 < waves_per_workgroup ∧ p.chip_class < GFX10 then min wg1 16 else wg1
    let mw := min max_waves_per_simd (divRoundUp (wg2 * waves_per_workgroup) simd_per_cu_wgp)
    let nw2 := min nw1 mw
    { p with
      num_waves := nw2,
      max_waves := mw,
      max_reg_demand :=
        { vgpr := (get_addr_vgpr_from_waves p nw2 : Int),
          sgpr := (get_addr_sgpr_from_waves p nw2 : Int) } }

/-- `live_var_analysis` (lines 363-390): the liveness result plus the
updated program; the occupancy solver runs on the tracked peak demand
unless register allocation already ran. -/
def live_var_analysis (p : Program) : live × Program :=
  let st := liveVarAnalysisState p
  let prog := if st.program.progress_before_ra
              then update_vgpr_sgpr_demand st.program st.new_demand
              else st.program
  (st.lv, prog)

/- ## Arithmetic support lemmas -/

theorem usub16_eq {a b : Nat} (hb : b ≤ a) (ha : a < 65536) : usub16 a b = a - b := by
  unfold usub16
  omega

theorem round_down_eq_mul (a b : Nat) : round_down a b = b * (a / b) := by
  unfold round_down
  have := Nat.div_add_mod a b
  omega

theorem round_down_le (a b : Nat) : round_down a b ≤ a := by
  unfold round_down
  omega

theorem round_down_dvd (a b : Nat) : b ∣ round_down a b := by
  rw [round_down_eq_mul]
  exact Dvd.intro _ rfl

theorem le_round_down {a b m : Nat} (hm : b ∣ m) (h : m ≤ a) : m ≤ round_down a b := by
  rcases Nat.eq_zero_or_pos b with hb | hb
  · subst hb
    have hm0 : m = 0 := by simpa using hm
    simp [hm0]
  rcases hm with ⟨c, rfl⟩
  rw [round_down_eq_mul]
  refine Nat.mul_le_mul_left _ (Nat.le_div_iff_mul_le hb |>.mpr ?_)
  rw [Nat.mul_comm]
  exact h

theorem round_down_mono {a a' : Nat} (b : Nat) (h : a ≤ a') :
    round_down a b ≤ round_down a' b := by
  rw [round_down_eq_mul, round_down_eq_mul]
  exact Nat.mul_le_mul_left _ (Nat.div_le_div_right h)

theorem alignNpot_ge (x y : Nat) (hy : 1 ≤ y) : x ≤ alignNpot x y := by
  unfold alignNpot
  rw [Nat.mul_comm]
  have h1 := Nat.div_add_mod (x + y - 1) y
  have h2 : (x + y - 1) % y < y := Nat.mod_lt _ hy
  omega

theorem alignNpot_dvd (x y : Nat) : y ∣ alignNpot x y := Dvd.intro_left _ rfl

theorem alignNpot_le {x y m : Nat} (hy : 1 ≤ y) (hm : y ∣ m) (h : x ≤ m) :
    alignNpot x y ≤ m := by
  rcases hm with ⟨c, rfl⟩
  unfold alignNpot
  have hdiv : (x + y - 1) / y ≤ c := by
    have hle : x + y - 1 ≤ y * c + (y - 1) := by omega
    have h2 : (y * c + (y - 1)) / y = c + (y - 1) / y := Nat.mul_add_div hy _ _
    have h3 : (y - 1) / y = 0 := Nat.div_eq_of_lt (by omega)
    have h4 := Nat.div_le_div_right (c := y) hle
    omega
  calc (x + y - 1) / y * y ≤ c * y := Nat.mul_le_mul_right _ hdiv
  _ = y * c := Nat.mul_comm _ _

theorem divRoundUp_le_iff {a b c : Nat} (hb : 1 ≤ b) : divRoundUp a b ≤ c ↔ a ≤ c * b := by
  unfold divRoundUp
  rw [Nat.div_le_iff_le_mul_add_pred hb, Nat.mul_comm]
  omega

theorem divRoundUp_mono {a a' : Nat} (b : Nat) (h : a ≤ a') :
    divRoundUp a b ≤ divRoundUp a' b := by
  unfold divRoundUp
  exact Nat.div_le_div_right (by omega)

/-- `x &&& (2^32 - 2^k)` clears the low `k` bits: the 32-bit
`& ~(granule-1)` idiom equals `round_down` for power-of-two granules. -/
theorem land_mask (x k : Nat) (hk : k ≤ 32) (hx : x < 4294967296) :
    Nat.land x (4294967296 - 2 ^ k) = round_down x (2 ^ k) := by
  have hmask : (4294967296 : Nat) - 2 ^ k = 2 ^ k * (2 ^ (32 - k) - 1) := by
    have h1 : 2 ^ k * 2 ^ (32 - k) = 4294967296 := by
      rw [← pow_add]
      norm_num [Nat.add_sub_cancel' hk]
    have h2 : 1 ≤ 2 ^ (32 - k) := Nat.one_le_two_pow
    rw [Nat.mul_sub, Nat.mul_one, h1]
  have hrd : round_down x (2 ^ k) = 2 ^ k * (x / 2 ^ k) := round_down_eq_mul _ _
  show x &&& (4294967296 - 2 ^ k) = _
  apply Nat.eq_of_testBit_eq
  intro i
  rw [Nat.testBit_and, hmask, hrd, Nat.testBit_mul_pow_two, Nat.testBit_mul_pow_two]
  rcases Nat.lt_or_ge i k with hik | hik
  · simp [Nat.not_le.mpr hik]
  · have hdiv : x / 2 ^ k = x >>> k := (Nat.shiftRight_eq_div_pow x k).symm
    rw [hdiv, Nat.testBit_shiftRight, Nat.testBit_two_pow_sub_one]
    have hki : k + (i - k) = i := by omega
    rw [hki]
    rcases Nat.lt_or_ge i 32 with hi | hi
    · have h1 : i - k < 32 - k := by omega
      simp [hik, h1, Bool.and_comm]
    · have hxi : x.testBit i = false := by
        apply Nat.testBit_lt_two_pow
        calc x < 4294967296 := hx
        _ = 2 ^ 32 := by norm_num
        _ ≤ 2 ^ i := Nat.pow_le_pow_right (by norm_num) hi
      simp [hxi]

/-- The `align` macro agrees with `ALIGN_NPOT` for power-of-two granules
(in the 32-bit range). -/
theorem alignPow2_eq (x k : Nat) (hk : k ≤ 32) (hx : x + 2 ^ k - 1 < 4294967296) :
    alignPow2 x (2 ^ k) = alignNpot x (2 ^ k) := by
  unfold alignPow2 alignNpot
  rw [land_mask _ k hk hx, round_down_eq_mul, Nat.mul_comm]

theorem get_extra_sgprs_le (p : Program) : get_extra_sgprs p ≤ 6 := by
  unfold get_extra_sgprs
  split_ifs <;> omega

/- ## Device sanity for the occupancy theorems -/

/-- Hardware sanity facts about a program's device descriptor and solver
inputs, as they hold for every real device this pass targets: granules
are powers of two (the scalar granule, 8/16/128 on real chips, divides
the 128-register scalar encoding ceiling), half the configured
shared-vgpr count is a multiple of the vector granule (shared vgprs come
in units of 8 and only exist with the wave64 granule 4), register-file
sizes fit `uint16_t`, `min_waves` comes from `calc_min_waves` and is
achievable (at least one granule per wave at `min_waves`, a device wave
ceiling at or above `min_waves`, and any used LDS fits the device). -/
structure DevSane (p : Program) : Prop where
  sgpr_gran8 : 8 ≤ p.dev.sgpr_alloc_granule
  sgpr_gran_dvd : p.dev.sgpr_alloc_granule ∣ 128
  vgpr_gran_pow : ∃ k, k ≤ 16 ∧ p.dev.vgpr_alloc_granule = 2 ^ k
  shared_gran_dvd : p.dev.vgpr_alloc_granule ∣ p.config.num_shared_vgprs / 2
  phys_sgprs_lt : p.dev.physical_sgprs < 65536
  phys_vgprs_lt : p.dev.physical_vgprs < 65536
  min_waves_pos : 1 ≤ p.min_waves
  sgpr_fit : p.dev.sgpr_alloc_granule * p.min_waves ≤ p.dev.physical_sgprs
  vgpr_fit : p.dev.vgpr_alloc_granule + p.config.num_shared_vgprs / 2 ≤
    p.dev.physical_vgprs / p.min_waves
  max_waves_ge : p.min_waves ≤ p.dev.max_wave64_per_simd * (64 / p.wave_size)
  min_waves_eq : p.min_waves = divRoundUp (calc_waves_per_workgroup p)
    (p.dev.simd_per_cu * (if p.wgp_mode then 2 else 1))
  simd_pos : 1 ≤ p.dev.simd_per_cu
  wpw_pos : 1 ≤ calc_waves_per_workgroup p
  lds_fit : p.config.lds_size ≠ 0 →
    1 ≤ alignPow2 (p.config.lds_size * p.dev.lds_encoding_granule) p.dev.lds_alloc_granule ∧
    alignPow2 (p.config.lds_size * p.dev.lds_encoding_granule) p.dev.lds_alloc_granule ≤
      (if p.wgp_mode then p.dev.lds_limit * 2 else p.dev.lds_limit)

/-- The `max_waves` sub-computation of `update_vgpr_sgpr_demand`
(workgroup- and LDS-derived wave ceiling, lines 338-354). -/
def updMaxWaves (p : Program) : Nat :=
  let max_waves_per_simd := p.dev.max_wave64_per_simd * (64 / p.wave_size)
  let simd_per_cu_wgp := p.dev.simd_per_cu * (if p.wgp_mode then 2 else 1)
  let lds_limit := if p.wgp_mode then p.dev.lds_limit * 2 else p.dev.lds_limit
  let waves_per_workgroup := calc_waves_per_workgroup p
  let wg0 := max_waves_per_simd * simd_per_cu_wgp / waves_per_workgroup
  let wg1 :=
    if p.config.lds_size ≠ 0 then
      min wg0 (lds_limit /
        alignPow2 (p.config.lds_size * p.dev.lds_encoding_granule) p.dev.lds_alloc_granule)
    else wg0
  let wg2 := if 1 < waves_per_workgroup ∧ p.chip_class < GFX10 then min wg1 16 else wg1
  min max_waves_per_simd (divRoundUp (wg2 * waves_per_workgroup) simd_per_cu_wgp)

theorem update_feasible_proj (p : Program) (d : RegisterDemand)
    (h : ¬(d.vgpr > (get_addr_vgpr_from_waves p p.min_waves : Int) ∨
           d.sgpr > (get_addr_sgpr_from_waves p p.min_waves : Int))) :
    (update_vgpr_sgpr_demand p d).num_waves =
      min (min (p.dev.physical_sgprs / get_sgpr_alloc p d.sgpr.toNat)
               (p.dev.physical_vgprs /
                 (get_vgpr_alloc p d.vgpr.toNat + p.config.num_shared_vgprs / 2)))
          (updMaxWaves p) ∧
    (update_vgpr_sgpr_demand p d).max_reg_demand =
      { vgpr := (get_addr_vgpr_from_waves p (update_vgpr_sgpr_demand p d).num_waves : Int),
        sgpr := (get_addr_sgpr_from_waves p (update_vgpr_sgpr_demand p d).num_waves : Int) } := by
  simp only [update_vgpr_sgpr_demand, updMaxWaves]
  rw [if_neg h]
  exact ⟨rfl, rfl⟩

theorem update_infeasible_proj (p : Program) (d : RegisterDemand)
    (h : d.vgpr > (get_addr_vgpr_from_waves p p.min_waves : Int) ∨
         d.sgpr > (get_addr_sgpr_from_waves p p.min_waves : Int)) :
    (update_vgpr_sgpr_demand p d).num_waves = 0 ∧
    (update_vgpr_sgpr_demand p d).max_reg_demand = d := by
  simp only [update_vgpr_sgpr_demand]
  rw [if_pos h]
  exact ⟨rfl, rfl⟩

/-- Scalar side of the occupancy argument, over plain naturals:
`pS` physical sgprs, `g` granule, `e` extra reserved, `limit` the device
cap.  If the demand `dS` fits at `w0` waves, the sgpr-derived wave bound
(`pS / alloc`) is at least `w0`, and the addressable count recomputed at
any positive wave count up to that bound still covers the demand. -/
theorem sgpr_side_aux (pS g e limit dS w0 : Nat) (he : e ≤ 6) (hg8 : 8 ≤ g)
    (hgd : g ∣ 128) (hw0 : 1 ≤ w0) (hfit : g * w0 ≤ pS)
    (hfeas : dS ≤ min (usub16 (round_down (min (pS / w0) 128) g) e) limit) :
    w0 ≤ pS / alignNpot (max (dS + e) g) g ∧
    ∀ w, 1 ≤ w → w ≤ pS / alignNpot (max (dS + e) g) g →
      dS ≤ min (usub16 (round_down (min (pS / w) 128) g) e) limit := by
  have hg1 : 1 ≤ g := by omega
  have hgle : g ≤ min (pS / w0) 128 :=
    le_min ((Nat.le_div_iff_mul_le hw0).mpr hfit) (Nat.le_of_dvd (by norm_num) hgd)
  have hR0g : g ≤ round_down (min (pS / w0) 128) g := le_round_down dvd_rfl hgle
  have hR0le : round_down (min (pS / w0) 128) g ≤ 128 :=
    le_trans (round_down_le _ _) (min_le_right _ _)
  rw [usub16_eq (by omega) (by omega)] at hfeas
  have hfeas2 := le_min_iff.mp hfeas
  have hAmax : max (dS + e) g ≤ round_down (min (pS / w0) 128) g := max_le (by omega) hR0g
  have hA_le_R0 : alignNpot (max (dS + e) g) g ≤ round_down (min (pS / w0) 128) g :=
    alignNpot_le hg1 (round_down_dvd _ _) hAmax
  have hA_ge : max (dS + e) g ≤ alignNpot (max (dS + e) g) g := alignNpot_ge _ _ hg1
  have hAg : g ≤ alignNpot (max (dS + e) g) g := le_trans (le_max_right _ _) hA_ge
  have hAde : dS + e ≤ alignNpot (max (dS + e) g) g := le_trans (le_max_left _ _) hA_ge
  have hA128 : alignNpot (max (dS + e) g) g ≤ 128 := hA_le_R0.trans hR0le
  have hApos : 1 ≤ alignNpot (max (dS + e) g) g := by omega
  have h1 : alignNpot (max (dS + e) g) g ≤ pS / w0 :=
    hA_le_R0.trans (le_trans (round_down_le _ _) (min_le_left _ _))
  have h2 : alignNpot (max (dS + e) g) g * w0 ≤ pS := (Nat.le_div_iff_mul_le hw0).mp h1
  have h3 : w0 ≤ pS / alignNpot (max (dS + e) g) g :=
    (Nat.le_div_iff_mul_le hApos).mpr (by rw [Nat.mul_comm]; exact h2)
  refine ⟨h3, fun w hw hwle => ?_⟩
  have h4 : w * alignNpot (max (dS + e) g) g ≤ pS := (Nat.le_div_iff_mul_le hApos).mp hwle
  have h5 : alignNpot (max (dS + e) g) g ≤ pS / w :=
    (Nat.le_div_iff_mul_le hw).mpr (by rw [Nat.mul_comm]; exact h4)
  have h6 : alignNpot (max (dS + e) g) g ≤ min (pS / w) 128 := le_min h5 hA128
  have h7 : alignNpot (max (dS + e) g) g ≤ round_down (min (pS / w) 128) g :=
    le_round_down (alignNpot_dvd _ _) h6
  have hRwle : round_down (min (pS / w) 128) g ≤ 128 :=
    le_trans (round_down_le _ _) (min_le_right _ _)
  rw [usub16_eq (by omega) (by omega)]
  exact le_min (by omega) hfeas2.2

/-- Vector side of the occupancy argument, over plain naturals:
`pV` physical vgprs, granule `2^k`, `S` half the shared-vgpr count,
`vlimit` the device cap.  Requires `2^k ∣ S` (true of real devices:
shared vgprs come in units of 8 and only exist with the wave64 granule
4). -/
theorem vgpr_side_aux (pV S vlimit dV w0 k : Nat)
    (hdvd : 2 ^ k ∣ S) (hpV : pV < 65536) (hw0 : 1 ≤ w0)
    (hfit : 2 ^ k + S ≤ pV / w0)
    (hfeas : dV ≤ min (usub16 (round_down (pV / w0) (2 ^ k)) S) vlimit) :
    w0 ≤ pV / (alignNpot (max dV (2 ^ k)) (2 ^ k) + S) ∧
    ∀ w, 1 ≤ w → w ≤ pV / (alignNpot (max dV (2 ^ k)) (2 ^ k) + S) →
      dV ≤ min (usub16 (round_down (pV / w) (2 ^ k)) S) vlimit := by
  have hgv1 : (1 : Nat) ≤ 2 ^ k := Nat.one_le_two_pow
  have hQ0 : 2 ^ k + S ≤ round_down (pV / w0) (2 ^ k) :=
    le_round_down (Dvd.dvd.add dvd_rfl hdvd) hfit
  have hQ0le : round_down (pV / w0) (2 ^ k) ≤ pV / w0 := round_down_le _ _
  have hdivle : pV / w0 ≤ pV := Nat.div_le_self _ _
  rw [usub16_eq (by omega) (by omega)] at hfeas
  have hfeas2 := le_min_iff.mp hfeas
  have hB_ge : max dV (2 ^ k) ≤ alignNpot (max dV (2 ^ k)) (2 ^ k) := alignNpot_ge _ _ hgv1
  have hB_le : alignNpot (max dV (2 ^ k)) (2 ^ k) ≤ round_down (pV / w0) (2 ^ k) - S :=
    alignNpot_le hgv1 (Nat.dvd_sub' (round_down_dvd _ _) hdvd) (max_le (by omega) (by omega))
  have hBS : alignNpot (max dV (2 ^ k)) (2 ^ k) + S ≤ pV / w0 := by omega
  have hBSpos : 1 ≤ alignNpot (max dV (2 ^ k)) (2 ^ k) + S := by
    have := le_trans (le_max_right dV (2 ^ k)) hB_ge
    omega
  have h3 : w0 ≤ pV / (alignNpot (max dV (2 ^ k)) (2 ^ k) + S) :=
    (Nat.le_div_iff_mul_le hBSpos).mpr
      (by rw [Nat.mul_comm]; exact (Nat.le_div_iff_mul_le hw0).mp hBS)
  refine ⟨h3, fun w hw hwle => ?_⟩
  have h4 : alignNpot (max dV (2 ^ k)) (2 ^ k) + S ≤ pV / w :=
    (Nat.le_div_iff_mul_le hw).mpr
      (by rw [Nat.mul_comm]; exact (Nat.le_div_iff_mul_le hBSpos).mp hwle)
  have h5 : alignNpot (max dV (2 ^ k)) (2 ^ k) + S ≤ round_down (pV / w) (2 ^ k) :=
    le_round_down (Dvd.dvd.add (alignNpot_dvd _ _) hdvd) h4
  have hQw : round_down (pV / w) (2 ^ k) ≤ pV :=
    le_trans (round_down_le _ _) (Nat.div_le_self _ _)
  rw [usub16_eq (by omega) (by omega)]
  refine le_min ?_ hfeas2.2
  have := le_trans (le_max_left dV (2 ^ k)) hB_ge
  omega

/-- Unfolding of `get_addr_sgpr_from_waves` to its raw arithmetic. -/
theorem get_addr_sgpr_eq (p : Program) (w : Nat) :
    get_addr_sgpr_from_waves p w =
      min (usub16 (round_down (min (p.dev.physical_sgprs / w) 128) p.dev.sgpr_alloc_granule)
            (get_extra_sgprs p)) p.dev.sgpr_limit := rfl

/-- Unfolding of `get_sgpr_alloc` to its raw arithmetic. -/
theorem get_sgpr_alloc_eq (p : Program) (dS : Nat) :
    get_sgpr_alloc p dS =
      alignNpot (max (dS + get_extra_sgprs p) p.dev.sgpr_alloc_granule)
        p.dev.sgpr_alloc_granule := rfl

/-- Unfolding of `get_addr_vgpr_from_waves`: for a power-of-two granule
the 32-bit mask is a `round_down`. -/
theorem get_addr_vgpr_eq (p : Program) (w k : Nat) (hk : k ≤ 32)
    (hgv : p.dev.vgpr_alloc_granule = 2 ^ k)
    (hpV : p.dev.physical_vgprs < 65536) :
    get_addr_vgpr_from_waves p w =
      min (usub16 (round_down (p.dev.physical_vgprs / w) (2 ^ k))
            (p.config.num_shared_vgprs / 2)) p.dev.vgpr_limit := by
  simp only [get_addr_vgpr_from_waves, hgv]
  rw [land_mask _ k hk (by
    have := Nat.div_le_self p.dev.physical_vgprs w
    omega)]

/-- Unfolding of `get_vgpr_alloc`: for a power-of-two granule the
32-bit `align` is `alignNpot`. -/
theorem get_vgpr_alloc_eq (p : Program) (dV k : Nat) (hk : k ≤ 16)
    (hgv : p.dev.vgpr_alloc_granule = 2 ^ k) (hdV : dV < 65536) :
    get_vgpr_alloc p dV = alignNpot (max dV (2 ^ k)) (2 ^ k) := by
  simp only [get_vgpr_alloc, hgv]
  refine alignPow2_eq _ k (by omega) ?_
  have hklt : (2 : Nat) ^ k ≤ 2 ^ 16 := Nat.pow_le_pow_right (by norm_num) hk
  simp only [Nat.max_def]
  split <;> omega

/-- The workgroup/LDS wave ceiling never falls below the program's
minimum wave count on a sane device. -/
theorem updMaxWaves_ge (p : Program)
    (hmeq : p.min_waves = divRoundUp (calc_waves_per_workgroup p)
      (p.dev.simd_per_cu * (if p.wgp_mode then 2 else 1)))
    (hmle : p.min_waves ≤ p.dev.max_wave64_per_simd * (64 / p.wave_size))
    (hsimd : 1 ≤ p.dev.simd_per_cu)
    (hwpw : 1 ≤ calc_waves_per_workgroup p)
    (hlds : p.config.lds_size ≠ 0 →
      1 ≤ alignPow2 (p.config.lds_size * p.dev.lds_encoding_granule) p.dev.lds_alloc_granule ∧
      alignPow2 (p.config.lds_size * p.dev.lds_encoding_granule) p.dev.lds_alloc_granule ≤
        (if p.wgp_mode then p.dev.lds_limit * 2 else p.dev.lds_limit)) :
    p.min_waves ≤ updMaxWaves p := by
  have hsimd2 : 1 ≤ p.dev.simd_per_cu * (if p.wgp_mode then 2 else 1) := by
    split <;> omega
  set simd_cu := p.dev.simd_per_cu * (if p.wgp_mode then 2 else 1) with hscu
  set wpw := calc_waves_per_workgroup p with hwpwdef
  set mwps := p.dev.max_wave64_per_simd * (64 / p.wave_size) with hmwps
  have hle1 : wpw ≤ mwps * simd_cu := (divRoundUp_le_iff hsimd2).mp (hmeq ▸ hmle)
  have hwg0 : 1 ≤ mwps * simd_cu / wpw := (Nat.one_le_div_iff (by omega)).mpr hle1
  simp only [updMaxWaves, ← hscu, ← hwpwdef, ← hmwps]
  refine le_min hmle ?_
  have hwg1 : 1 ≤ (if p.config.lds_size ≠ 0 then
      min (mwps * simd_cu / wpw)
        ((if p.wgp_mode then p.dev.lds_limit * 2 else p.dev.lds_limit) /
          alignPow2 (p.config.lds_size * p.dev.lds_encoding_granule) p.dev.lds_alloc_granule)
    else mwps * simd_cu / wpw) := by
    split
    · next hne =>
      obtain ⟨hl1, hl2⟩ := hlds hne
      exact le_min hwg0 ((Nat.one_le_div_iff (by omega)).mpr hl2)
    · exact hwg0
  set wg1 := (if p.config.lds_size ≠ 0 then
      min (mwps * simd_cu / wpw)
        ((if p.wgp_mode then p.dev.lds_limit * 2 else p.dev.lds_limit) /
          alignPow2 (p.config.lds_size * p.dev.lds_encoding_granule) p.dev.lds_alloc_granule)
    else mwps * simd_cu / wpw) with hwg1def
  have hwg2 : 1 ≤ (if 1 < wpw ∧ p.chip_class < GFX10 then min wg1 16 else wg1) := by
    split
    · exact le_min hwg1 (by norm_num)
    · exact hwg1
  set wg2 := (if 1 < wpw ∧ p.chip_class < GFX10 then min wg1 16 else wg1) with hwg2def
  calc p.min_waves = divRoundUp wpw simd_cu := hmeq
  _ ≤ divRoundUp (wg2 * wpw) simd_cu := divRoundUp_mono _ (by
      calc wpw = 1 * wpw := (Nat.one_mul _).symm
      _ ≤ wg2 * wpw := Nat.mul_le_mul_right _ hwg2)

/-- On a sane device, a demand that fits at `min_waves` makes the solver
choose at least `min_waves` waves, and the register allotment recomputed
at the chosen wave count still covers the demand in both banks. -/
theorem update_feasible_bounds (p : Program) (d : RegisterDemand) (hs : DevSane p)
    (hfv : d.vgpr ≤ (get_addr_vgpr_from_waves p p.min_waves : Int))
    (hfs : d.sgpr ≤ (get_addr_sgpr_from_waves p p.min_waves : Int)) :
    p.min_waves ≤ (update_vgpr_sgpr_demand p d).num_waves ∧
    d.vgpr.toNat ≤ get_addr_vgpr_from_waves p (update_vgpr_sgpr_demand p d).num_waves ∧
    d.sgpr.toNat ≤ get_addr_sgpr_from_waves p (update_vgpr_sgpr_demand p d).num_waves := by
  obtain ⟨k, hk, hgv⟩ := hs.vgpr_gran_pow
  have hnot : ¬(d.vgpr > (get_addr_vgpr_from_waves p p.min_waves : Int) ∨
      d.sgpr > (get_addr_sgpr_from_waves p p.min_waves : Int)) := by
    push_neg
    exact ⟨hfv, hfs⟩
  obtain ⟨hnum, hmrd⟩ := update_feasible_proj p d hnot
  have hfs' : d.sgpr.toNat ≤ get_addr_sgpr_from_waves p p.min_waves := Int.toNat_le.mpr hfs
  rw [get_addr_sgpr_eq] at hfs'
  have hsg := sgpr_side_aux p.dev.physical_sgprs p.dev.sgpr_alloc_granule
    (get_extra_sgprs p) p.dev.sgpr_limit d.sgpr.toNat p.min_waves
    (get_extra_sgprs_le p) hs.sgpr_gran8 hs.sgpr_gran_dvd hs.min_waves_pos hs.sgpr_fit hfs'
  rw [← get_sgpr_alloc_eq] at hsg
  have hdvd' : 2 ^ k ∣ p.config.num_shared_vgprs / 2 := hgv ▸ hs.shared_gran_dvd
  have hfit' : 2 ^ k + p.config.num_shared_vgprs / 2 ≤
      p.dev.physical_vgprs / p.min_waves := hgv ▸ hs.vgpr_fit
  have hfv' : d.vgpr.toNat ≤ get_addr_vgpr_from_waves p p.min_waves := Int.toNat_le.mpr hfv
  rw [get_addr_vgpr_eq p p.min_waves k (by omega) hgv hs.phys_vgprs_lt] at hfv'
  have hvg := vgpr_side_aux p.dev.physical_vgprs (p.config.num_shared_vgprs / 2)
    p.dev.vgpr_limit d.vgpr.toNat p.min_waves k hdvd' hs.phys_vgprs_lt
    hs.min_waves_pos hfit' hfv'
  have hub : d.vgpr.toNat < 65536 := by
    have hQ0 : 2 ^ k + p.config.num_shared_vgprs / 2 ≤
        round_down (p.dev.physical_vgprs / p.min_waves) (2 ^ k) :=
      le_round_down (Dvd.dvd.add dvd_rfl hdvd') hfit'
    have h1 := round_down_le (p.dev.physical_vgprs / p.min_waves) (2 ^ k)
    have h2 := Nat.div_le_self p.dev.physical_vgprs p.min_waves
    have h3 := hs.phys_vgprs_lt
    rw [usub16_eq (by omega) (by omega)] at hfv'
    have h4 := le_min_iff.mp hfv'
    omega
  rw [← get_vgpr_alloc_eq p d.vgpr.toNat k hk hgv hub] at hvg
  have hupd := updMaxWaves_ge p hs.min_waves_eq hs.max_waves_ge hs.simd_pos
    hs.wpw_pos hs.lds_fit
  have hmin : p.min_waves ≤ (update_vgpr_sgpr_demand p d).num_waves := by
    rw [hnum]
    exact le_min (le_min hsg.1 hvg.1) hupd
  have h1 : 1 ≤ (update_vgpr_sgpr_demand p d).num_waves :=
    le_trans hs.min_waves_pos hmin
  refine ⟨hmin, ?_, ?_⟩
  · have h2 : (update_vgpr_sgpr_demand p d).num_waves ≤
        p.dev.physical_vgprs /
          (get_vgpr_alloc p d.vgpr.toNat + p.config.num_shared_vgprs / 2) := by
      rw [hnum]
      exact le_trans (min_le_left _ _) (min_le_right _ _)
    have h3 := hvg.2 _ h1 h2
    rw [get_addr_vgpr_eq p _ k (by omega) hgv hs.phys_vgprs_lt]
    exact h3
  · have h2 : (update_vgpr_sgpr_demand p d).num_waves ≤
        p.dev.physical_sgprs / get_sgpr_alloc p d.sgpr.toNat := by
      rw [hnum]
      exact le_trans (min_le_left _ _) (min_le_left _ _)
    have h3 := hsg.2 _ h1 h2
    rw [get_addr_sgpr_eq]
    exact h3

/-- C6.  `update_vgpr_sgpr_demand` reports `num_waves = 0` together with
`max_reg_demand = new_demand` exactly when the demand exceeds the
addressable vgpr or sgpr limit at the program's minimum wave count; in
every other case the reported wave count is nonzero.  (Infeasibility is
ordinary output state: the embedded solver is a total function with no
exceptional exit.) -/
theorem update_vgpr_sgpr_demand_infeasible_iff (p : Program) (d : RegisterDemand)
    (hs : DevSane p) :
    (((update_vgpr_sgpr_demand p d).num_waves = 0 ∧
      (update_vgpr_sgpr_demand p d).max_reg_demand = d) ↔
      ((get_addr_vgpr_from_waves p p.min_waves : Int) < d.vgpr ∨
       (get_addr_sgpr_from_waves p p.min_waves : Int) < d.sgpr)) ∧
    (d.vgpr ≤ (get_addr_vgpr_from_waves p p.min_waves : Int) →
     d.sgpr ≤ (get_addr_sgpr_from_waves p p.min_waves : Int) →
     (update_vgpr_sgpr_demand p d).num_waves ≠ 0) := by
  constructor
  · constructor
    · rintro ⟨h0, -⟩
      by_contra hinf
      push_neg at hinf
      obtain ⟨hfv, hfs⟩ := hinf
      have hb := (update_feasible_bounds p d hs hfv hfs).1
      have hp := hs.min_waves_pos
      omega
    · intro h
      exact update_infeasible_proj p d h
  · intro hfv hfs
    have hb := (update_feasible_bounds p d hs hfv hfs).1
    have hp := hs.min_waves_pos
    omega

/-- C5.  In the feasible branch, the chosen wave count never exceeds the
hardware maximum wavefronts per SIMD, and the register allotment
recomputed from the chosen wave count covers the peak demand in both
components. -/
theorem update_vgpr_sgpr_demand_occupancy_floor (p : Program) (d : RegisterDemand)
    (hs : DevSane p)
    (hfv : d.vgpr ≤ (get_addr_vgpr_from_waves p p.min_waves : Int))
    (hfs : d.sgpr ≤ (get_addr_sgpr_from_waves p p.min_waves : Int)) :
    (update_vgpr_sgpr_demand p d).num_waves ≤
      p.dev.max_wave64_per_simd * (64 / p.wave_size) ∧
    d.vgpr ≤ (update_vgpr_sgpr_demand p d).max_reg_demand.vgpr ∧
    d.sgpr ≤ (update_vgpr_sgpr_demand p d).max_reg_demand.sgpr := by
  have hnot : ¬(d.vgpr > (get_addr_vgpr_from_waves p p.min_waves : Int) ∨
      d.sgpr > (get_addr_sgpr_from_waves p p.min_waves : Int)) := by
    push_neg
    exact ⟨hfv, hfs⟩
  obtain ⟨hnum, hmrd⟩ := update_feasible_proj p d hnot
  obtain ⟨hmin, hv, hsg⟩ := update_feasible_bounds p d hs hfv hfs
  refine ⟨?_, ?_, ?_⟩
  · rw [hnum]
    refine le_trans (min_le_right _ _) ?_
    simp only [updMaxWaves]
    exact min_le_left _ _
  · rw [hmrd]
    calc d.vgpr ≤ (d.vgpr.toNat : Int) := Int.self_le_toNat _
    _ ≤ _ := Int.ofNat_le.mpr hv
  · rw [hmrd]
    calc d.sgpr ≤ (d.sgpr.toNat : Int) := Int.self_le_toNat _
    _ ≤ _ := Int.ofNat_le.mpr hsg

/-- A concrete GFX9-flavoured device/program used to instantiate the
occupancy theorems (the worked scenario of the specification: 800
physical sgprs, granule 16, vcc-reservation 2). -/
def progW : Program :=
  { blocks := [], temp_rc := fun _ => ⟨RegType.sgpr, 1, false⟩,
    dev := { physical_sgprs := 800, physical_vgprs := 256, sgpr_alloc_granule := 16,
             vgpr_alloc_granule := 4, sgpr_limit := 102, vgpr_limit := 256,
             max_wave64_per_simd := 10, simd_per_cu := 4, lds_limit := 65536,
             lds_encoding_granule := 256, lds_alloc_granule := 512,
             xnack_enabled := false },
    config := { num_shared_vgprs := 0, lds_size := 0 },
    chip_class := 9, wave_size := 64, workgroup_size := UINT_MAX,
    wgp_mode := false, needs_flat_scr := false, needs_vcc := true,
    min_waves := 1 }

theorem progW_sane : DevSane progW :=
  ⟨by decide, by decide, ⟨2, by decide, by decide⟩, by decide, by decide, by decide,
   by decide, by decide, by decide, by decide, by decide, by decide, by decide,
   fun h => absurd rfl h⟩

/-- Closed instantiation of C6 at the concrete device: a demand of
(24 vgprs, 100 sgprs) is feasible and yields a nonzero wave count. -/
theorem update_vgpr_sgpr_demand_infeasible_iff_witness :
    (update_vgpr_sgpr_demand progW { vgpr := 24, sgpr := 100 }).num_waves ≠ 0 :=
  (update_vgpr_sgpr_demand_infeasible_iff progW { vgpr := 24, sgpr := 100 }
    progW_sane).2 (by decide) (by decide)

/-- Closed instantiation of C5 at the concrete device (the chosen wave
count is bounded by the hardware ceiling and the allotment covers the
demand). -/
theorem update_vgpr_sgpr_demand_occupancy_floor_witness :
    (update_vgpr_sgpr_demand progW { vgpr := 24, sgpr := 100 }).num_waves ≤
      progW.dev.max_wave64_per_simd * (64 / progW.wave_size) ∧
    (24 : Int) ≤ (update_vgpr_sgpr_demand progW { vgpr := 24, sgpr := 100 }).max_reg_demand.vgpr ∧
    (100 : Int) ≤ (update_vgpr_sgpr_demand progW { vgpr := 24, sgpr := 100 }).max_reg_demand.sgpr :=
  update_vgpr_sgpr_demand_occupancy_floor progW { vgpr := 24, sgpr := 100 }
    progW_sane (by decide) (by decide)

/- ## C7: the reserved-scalar-register policy -/

/-- C7.  The extra reserved scalar registers: always one of 0, 2, 4, 6;
a function of the generation tier and the three flags alone; flat-scratch
need dominates xnack, xnack dominates the condition-code need (under the
source's own asserts that xnack only exists on GFX8-9 and flat-scratch
only below GFX10); and no applicable flag yields 0. -/
theorem get_extra_sgprs_policy (p : Program)
    (hx : p.dev.xnack_enabled = true → GFX8 ≤ p.chip_class ∧ p.chip_class < GFX10) :
    (get_extra_sgprs p = 0 ∨ get_extra_sgprs p = 2 ∨
     get_extra_sgprs p = 4 ∨ get_extra_sgprs p = 6)
    ∧ (∀ q : Program, p.chip_class = q.chip_class →
        p.needs_flat_scr = q.needs_flat_scr →
        p.dev.xnack_enabled = q.dev.xnack_enabled → p.needs_vcc = q.needs_vcc →
        get_extra_sgprs p = get_extra_sgprs q)
    ∧ (p.needs_flat_scr = true → ∀ q : Program, p.chip_class = q.chip_class →
        q.needs_flat_scr = true → get_extra_sgprs p = get_extra_sgprs q)
    ∧ (p.needs_flat_scr = false → p.dev.xnack_enabled = true →
        ∀ q : Program, p.chip_class = q.chip_class → q.needs_flat_scr = false →
        q.dev.xnack_enabled = true → get_extra_sgprs p = get_extra_sgprs q)
    ∧ (p.needs_flat_scr = false → p.dev.xnack_enabled = false → p.needs_vcc = true →
        get_extra_sgprs p = (if GFX10 ≤ p.chip_class then 0 else 2))
    ∧ (p.needs_flat_scr = false → p.dev.xnack_enabled = false → p.needs_vcc = false →
        get_extra_sgprs p = 0) := by
  unfold get_extra_sgprs
  refine ⟨?_, ?_, ?_, ?_, ?_, ?_⟩
  · split_ifs <;> simp
  · intro q h1 h2 h3 h4
    rw [h1, h2, h3, h4]
  · intro hfl q h1 h2
    rw [h1, hfl, h2]
    simp
  · intro hfl hxn q h1 h2 h3
    rcases hx hxn with ⟨hc1, hc2⟩
    rw [h1] at hc1 hc2
    rw [hfl, hxn, h2, h3, h1]
    simp [Nat.not_le.mpr hc2, hc1]
  · intro hfl hxn hv
    split_ifs with h1 h2 <;> simp_all
  · intro hfl hxn hv
    split_ifs <;> simp_all

/-- Closed instantiation of C7 discharging its hypotheses at a concrete
GFX9 program with only the condition-code flag set. -/
theorem get_extra_sgprs_policy_witness :
    get_extra_sgprs
      { blocks := [], temp_rc := fun _ => ⟨RegType.sgpr, 1, false⟩,
        dev := { physical_sgprs := 800, physical_vgprs := 256, sgpr_alloc_granule := 16,
                 vgpr_alloc_granule := 4, sgpr_limit := 102, vgpr_limit := 256,
                 max_wave64_per_simd := 10, simd_per_cu := 4, lds_limit := 65536,
                 lds_encoding_granule := 256, lds_alloc_granule := 512,
                 xnack_enabled := false },
        config := { num_shared_vgprs := 0, lds_size := 0 },
        chip_class := 9, wave_size := 64, workgroup_size := UINT_MAX,
        wgp_mode := false, needs_flat_scr := false, needs_vcc := true } = 2 := by
  have h := get_extra_sgprs_policy
      { blocks := [], temp_rc := fun _ => ⟨RegType.sgpr, 1, false⟩,
        dev := { physical_sgprs := 800, physical_vgprs := 256, sgpr_alloc_granule := 16,
                 vgpr_alloc_granule := 4, sgpr_limit := 102, vgpr_limit := 256,
                 max_wave64_per_simd := 10, simd_per_cu := 4, lds_limit := 65536,
                 lds_encoding_granule := 256, lds_alloc_granule := 512,
                 xnack_enabled := false },
        config := { num_shared_vgprs := 0, lds_size := 0 },
        chip_class := 9, wave_size := 64, workgroup_size := UINT_MAX,
        wgp_mode := false, needs_flat_scr := false, needs_vcc := true }
      (by intro h; exact absurd h (by decide))
  have h5 := h.2.2.2.2.1 rfl rfl rfl
  simpa using h5

/- ## RegisterDemand component lemmas -/

@[ext] theorem RegisterDemand.ext {a b : RegisterDemand}
    (h1 : a.vgpr = b.vgpr) (h2 : a.sgpr = b.sgpr) : a = b := by
  cases a
  cases b
  simp_all

@[simp] theorem add_vgpr (a b : RegisterDemand) : (a + b).vgpr = a.vgpr + b.vgpr := rfl

@[simp] theorem add_sgpr (a b : RegisterDemand) : (a + b).sgpr = a.sgpr + b.sgpr := rfl

@[simp] theorem sub_vgpr (a b : RegisterDemand) : (a - b).vgpr = a.vgpr - b.vgpr := rfl

@[simp] theorem sub_sgpr (a b : RegisterDemand) : (a - b).sgpr = a.sgpr - b.sgpr := rfl

@[simp] theorem addTemp_vgpr (d : RegisterDemand) (t : Temp) :
    (d.addTemp t).vgpr = d.vgpr + (if t.type = RegType.vgpr then (t.size : Int) else 0) := rfl

@[simp] theorem addTemp_sgpr (d : RegisterDemand) (t : Temp) :
    (d.addTemp t).sgpr = d.sgpr + (if t.type = RegType.vgpr then 0 else (t.size : Int)) := rfl

@[simp] theorem subTemp_vgpr (d : RegisterDemand) (t : Temp) :
    (d.subTemp t).vgpr = d.vgpr - (if t.type = RegType.vgpr then (t.size : Int) else 0) := rfl

@[simp] theorem subTemp_sgpr (d : RegisterDemand) (t : Temp) :
    (d.subTemp t).sgpr = d.sgpr - (if t.type = RegType.vgpr then 0 else (t.size : Int)) := rfl

@[simp] theorem zero_vgpr : ({} : RegisterDemand).vgpr = 0 := rfl

@[simp] theorem zero_sgpr : ({} : RegisterDemand).sgpr = 0 := rfl

@[simp] theorem update_vgpr (a b : RegisterDemand) :
    (a.update b).vgpr = max a.vgpr b.vgpr := rfl

@[simp] theorem update_sgpr (a b : RegisterDemand) :
    (a.update b).sgpr = max a.sgpr b.sgpr := rfl

theorem addTemp_comm (d : RegisterDemand) (s t : Temp) :
    (d.addTemp s).addTemp t = (d.addTemp t).addTemp s := by
  ext <;> simp <;> ring

theorem add_addTemp (a b : RegisterDemand) (t : Temp) :
    a + b.addTemp t = (a + b).addTemp t := by
  ext <;> simp <;> ring

theorem addTemp_add (a b : RegisterDemand) (t : Temp) :
    a.addTemp t + b = (a + b).addTemp t := by
  ext <;> simp <;> ring

/- ## Operand/Definition setter and shape lemmas -/

@[simp] theorem setKill_temp (o : Operand) (b : Bool) : (o.setKill b).temp = o.temp := by
  unfold Operand.setKill
  split <;> rfl

@[simp] theorem setKill_tid (o : Operand) (b : Bool) : (o.setKill b).tid = o.tid := by
  simp [Operand.tid]

@[simp] theorem setKill_lateKill (o : Operand) (b : Bool) :
    (o.setKill b).lateKill = o.lateKill := by
  unfold Operand.setKill
  split <;> rfl

@[simp] theorem setKill_fixed (o : Operand) (b : Bool) : (o.setKill b).fixed = o.fixed := by
  unfold Operand.setKill
  split <;> rfl

@[simp] theorem setKill_physReg (o : Operand) (b : Bool) :
    (o.setKill b).physReg = o.physReg := by
  unfold Operand.setKill
  split <;> rfl

@[simp] theorem setFirstKill_temp (o : Operand) (b : Bool) :
    (o.setFirstKill b).temp = o.temp := by
  unfold Operand.setFirstKill
  split <;> rfl

@[simp] theorem setFirstKill_tid (o : Operand) (b : Bool) :
    (o.setFirstKill b).tid = o.tid := by
  simp [Operand.tid]

@[simp] theorem setFirstKill_lateKill (o : Operand) (b : Bool) :
    (o.setFirstKill b).lateKill = o.lateKill := by
  unfold Operand.setFirstKill
  split <;> rfl

theorem setKill_false_eq (o : Operand) :
    o.setKill false = { o with kill := false, firstKill := false } := rfl

theorem setFirstKill_true_eq (o : Operand) :
    o.setFirstKill true = { o with kill := true, firstKill := true } := rfl

theorem mark_eq (o : Operand) :
    (o.setFirstKill false).setKill true = { o with kill := true, firstKill := false } := rfl

/-- The temp-id occurrences of an operand list (ids of the temp operands,
as used by the GEN loop). -/
def opIds (ops : List Operand) : Finset Nat :=
  ops.foldr (fun o acc => match o.temp with | none => acc | some t => insert t.id acc) ∅

/-- The temp ids of a definition list. -/
def defIds (l : List Definition) : Finset Nat :=
  l.foldr (fun d acc => match d.temp with | none => acc | some t => insert t.id acc) ∅

@[simp] theorem opIds_nil : opIds [] = ∅ := rfl

theorem opIds_cons (o : Operand) (ops : List Operand) :
    opIds (o :: ops) = (match o.temp with
      | none => opIds ops
      | some t => insert t.id (opIds ops)) := rfl

@[simp] theorem defIds_nil : defIds [] = ∅ := rfl

theorem defIds_cons (d : Definition) (l : List Definition) :
    defIds (d :: l) = (match d.temp with
      | none => defIds l
      | some t => insert t.id (defIds l)) := rfl

theorem opIds_map_temp_eq {f : Operand → Operand}
    (hf : ∀ o, (f o).temp = o.temp) (ops : List Operand) :
    opIds (ops.map f) = opIds ops := by
  induction ops with
  | nil => rfl
  | cons o rest ih =>
    simp only [List.map_cons, opIds_cons, hf, ih]

theorem markLaterKills_temp (u : Nat) (o : Operand) :
    (if o.tid = some u then (o.setFirstKill false).setKill true else o).temp = o.temp := by
  split <;> simp

theorem markLaterKills_get (u : Nat) (ops : List Operand) (j : Nat) :
    (markLaterKills u ops).get? j = (ops.get? j).map
      (fun o => if o.tid = some u then (o.setFirstKill false).setKill true else o) := by
  unfold markLaterKills
  exact List.get?_map _ _ _

theorem markLaterKills_opIds (u : Nat) (ops : List Operand) :
    opIds (markLaterKills u ops) = opIds ops :=
  opIds_map_temp_eq (markLaterKills_temp u) ops

/- ## killDefs characterization -/

theorem killDefs_live (defs : List Definition) (lv : Finset Nat) (dem : RegisterDemand) :
    (killDefs defs lv dem).live = lv \ defIds defs := by
  induction defs generalizing lv dem with
  | nil => simp [killDefs]
  | cons d rest ih =>
    cases hd : d.temp with
    | none => simp [killDefs, hd, ih, defIds_cons]
    | some t =>
      by_cases hmem : t.id ∈ lv
      · simp only [killDefs, hd, if_pos hmem, defIds_cons, ih]
        ext a
        simp only [Finset.mem_sdiff, Finset.mem_erase, Finset.mem_insert]
        tauto
      · simp only [killDefs, hd, if_neg hmem, defIds_cons, ih]
        ext a
        simp only [Finset.mem_sdiff, Finset.mem_insert]
        have hne : a ∈ lv → ¬a = t.id := fun ha he => hmem (he ▸ ha)
        tauto

theorem killDefs_length (defs : List Definition) (lv : Finset Nat) (dem : RegisterDemand) :
    (killDefs defs lv dem).defs.length = defs.length := by
  induction defs generalizing lv dem with
  | nil => rfl
  | cons d rest ih =>
    cases hd : d.temp with
    | none => simp [killDefs, hd, ih]
    | some t =>
      by_cases hmem : t.id ∈ lv
      · simp [killDefs, hd, if_pos hmem, ih]
      · simp [killDefs, hd, if_neg hmem, ih]

/-- A dead definition (register absent from the live set) is marked
kill, no matter where in the definition list it sits. -/
theorem killDefs_dead_kill (defs : List Definition) (lv : Finset Nat)
    (dem : RegisterDemand) (i : Nat) (d : Definition) (t : Temp)
    (hget : defs.get? i = some d) (ht : d.temp = some t) (hdead : t.id ∉ lv) :
    (killDefs defs lv dem).defs.get? i = some (d.setKill true) := by
  induction defs generalizing lv dem i with
  | nil => simp at hget
  | cons d0 rest ih =>
    cases hd0 : d0.temp with
    | none =>
      simp only [killDefs, hd0]
      cases i with
      | zero =>
        simp only [List.get?] at hget
        injection hget with h
        subst h
        rw [hd0] at ht
        exact absurd ht (by simp)
      | succ j =>
        simp only [List.get?] at hget ⊢
        exact ih lv dem j hget hdead
    | some t0 =>
      by_cases hmem : t0.id ∈ lv
      · simp only [killDefs, hd0, if_pos hmem]
        cases i with
        | zero =>
          simp only [List.get?] at hget
          injection hget with h
          subst h
          rw [hd0] at ht
          injection ht with h2
          subst h2
          exact absurd hmem hdead
        | succ j =>
          simp only [List.get?] at hget ⊢
          exact ih _ _ j hget (fun hin => hdead (Finset.mem_of_mem_erase hin))
      · simp only [killDefs, hd0, if_neg hmem]
        cases i with
        | zero =>
          simp only [List.get?] at hget
          injection hget with h
          subst h
          rw [hd0] at ht
          injection ht with h2
          subst h2
          rfl
        | succ j =>
          simp only [List.get?] at hget ⊢
          exact ih lv dem j hget hdead

/-- Removing a dead definition from the list changes nothing but that
one kill mark and the one transient snapshot charge: the surviving live
set and the carried demand are identical, and the snapshot gains exactly
the removed definition's size. -/
theorem killDefs_erase_dead (defs : List Definition) (lv : Finset Nat)
    (dem : RegisterDemand) (k : Nat) (d : Definition) (t : Temp)
    (hget : defs.get? k = some d) (ht : d.temp = some t) (hdead : t.id ∉ lv) :
    (killDefs defs lv dem).live = (killDefs (defs.eraseIdx k) lv dem).live ∧
    (killDefs defs lv dem).demand = (killDefs (defs.eraseIdx k) lv dem).demand ∧
    (killDefs defs lv dem).snapAdd =
      ((killDefs (defs.eraseIdx k) lv dem).snapAdd).addTemp t := by
  induction defs generalizing lv dem k with
  | nil => simp at hget
  | cons d0 rest ih =>
    cases k with
    | zero =>
      simp only [List.get?] at hget
      injection hget with h
      subst h
      simp [List.eraseIdx, killDefs, ht, if_neg hdead]
    | succ j =>
      simp only [List.get?] at hget
      simp only [List.eraseIdx]
      cases hd0 : d0.temp with
      | none =>
        simp only [killDefs, hd0]
        obtain ⟨h1, h2, h3⟩ := ih lv dem j hget hdead
        exact ⟨h1, h2, h3⟩
      | some t0 =>
        by_cases hmem : t0.id ∈ lv
        · simp only [killDefs, hd0, if_pos hmem]
          obtain ⟨h1, h2, h3⟩ :=
            ih (lv.erase t0.id) (dem.subTemp t0) j hget
              (fun hin => hdead (Finset.mem_of_mem_erase hin))
          exact ⟨h1, h2, h3⟩
        · simp only [killDefs, hd0, if_neg hmem]
          obtain ⟨h1, h2, h3⟩ := ih lv dem j hget hdead
          refine ⟨h1, h2, ?_⟩
          rw [h3]
          exact addTemp_comm _ _ _

/- ## genOps characterization -/

/-- No operand before index `i` references temp id `u`. -/
def noEarlier (ops : List Operand) (i : Nat) (u : Nat) : Prop :=
  ∀ j, j < i → ∀ o, ops.get? j = some o → o.tid ≠ some u

theorem noEarlier_zero (ops : List Operand) (u : Nat) : noEarlier ops 0 u :=
  fun j hj => absurd hj (Nat.not_lt_zero j)

theorem noEarlier_cons_succ (o0 : Operand) (rest : List Operand) (j u : Nat) :
    noEarlier (o0 :: rest) (j + 1) u ↔ o0.tid ≠ some u ∧ noEarlier rest j u := by
  constructor
  · intro h
    exact ⟨h 0 (Nat.succ_pos j) o0 rfl, fun j' hj' o ho => h (j' + 1) (by omega) o ho⟩
  · rintro ⟨h0, h⟩ j' hj' o ho
    cases j' with
    | zero =>
      simp only [List.get?] at ho
      injection ho with he
      subst he
      exact h0
    | succ j2 => exact h j2 (by omega) o ho

theorem noEarlier_map_tid {f : Operand → Operand} (hf : ∀ o, (f o).tid = o.tid)
    (ops : List Operand) (i u : Nat) :
    noEarlier (ops.map f) i u ↔ noEarlier ops i u := by
  constructor
  · intro h j hj o ho
    have h2 := h j hj (f o) (by rw [List.get?_map, ho]; rfl)
    rw [hf] at h2
    exact h2
  · intro h j hj o ho
    rw [List.get?_map] at ho
    cases hoo : ops.get? j with
    | none =>
      rw [hoo] at ho
      simp at ho
    | some o2 =>
      rw [hoo] at ho
      simp only [Option.map_some'] at ho
      injection ho with he
      subst he
      rw [hf]
      exact h j hj o2 hoo

theorem mark_tid (u : Nat) (o : Operand) :
    (if o.tid = some u then (o.setFirstKill false).setKill true else o).tid = o.tid := by
  split <;> simp

/-- The GEN loop's final operand flags: an operand whose register is
already live is untouched; one whose register is dead after the
instruction is marked kill, and first-kill exactly when no earlier
operand reads the same register. -/
theorem genOps_flags (ops : List Operand) (lv : Finset Nat) (dem : RegisterDemand) :
    ∀ i o, ops.get? i = some o →
      (∀ t, o.temp = some t → t.id ∉ lv →
        ((noEarlier ops i t.id →
            (genOps ops lv dem).ops.get? i =
              some { o with kill := true, firstKill := true }) ∧
         (¬ noEarlier ops i t.id →
            (genOps ops lv dem).ops.get? i =
              some { o with kill := true, firstKill := false }))) ∧
      ((o.temp = none ∨ ∃ t, o.temp = some t ∧ t.id ∈ lv) →
        (genOps ops lv dem).ops.get? i = some o) := by
  induction ops, lv, dem using genOps.induct with
  | case1 lv dem =>
    intro i o h
    simp at h
  | case2 o0 rest lv dem ho0 ih =>
    intro i o hget
    have ho0tid : o0.tid = none := by simp [Operand.tid, ho0]
    cases i with
    | zero =>
      simp only [List.get?] at hget
      injection hget with he
      subst he
      constructor
      · intro t htt
        rw [ho0] at htt
        exact absurd htt (by simp)
      · intro _
        simp only [genOps, ho0]
        rfl
    | succ j =>
      simp only [List.get?] at hget
      have hred : (genOps (o0 :: rest) lv dem).ops = o0 :: (genOps rest lv dem).ops := by
        simp only [genOps, ho0]
      rw [hred]
      simp only [List.get?]
      obtain ⟨ih1, ih2⟩ := ih j o hget
      constructor
      · intro t htt hdead
        obtain ⟨ihT, ihF⟩ := ih1 t htt hdead
        have hiff : noEarlier (o0 :: rest) (j + 1) t.id ↔ noEarlier rest j t.id := by
          rw [noEarlier_cons_succ]
          simp [ho0tid]
        exact ⟨fun hne => ihT (hiff.mp hne), fun hne => ihF (fun h => hne (hiff.mpr h))⟩
      · exact ih2
  | case3 o0 rest lv dem t0 ho0 hmem ih =>
    intro i o hget
    have ho0tid : o0.tid = some t0.id := by simp [Operand.tid, ho0]
    have hred : (genOps (o0 :: rest) lv dem).ops = o0 :: (genOps rest lv dem).ops := by
      simp only [genOps, ho0, if_pos hmem]
    cases i with
    | zero =>
      simp only [List.get?] at hget
      injection hget with he
      subst he
      constructor
      · intro t htt hdead
        rw [ho0] at htt
        injection htt with he2
        subst he2
        exact absurd hmem hdead
      · intro _
        rw [hred]
        rfl
    | succ j =>
      simp only [List.get?] at hget
      rw [hred]
      simp only [List.get?]
      obtain ⟨ih1, ih2⟩ := ih j o hget
      constructor
      · intro t htt hdead
        obtain ⟨ihT, ihF⟩ := ih1 t htt hdead
        have hne0 : o0.tid ≠ some t.id := by
          rw [ho0tid]
          intro hc
          injection hc with he3
          exact hdead (he3 ▸ hmem)
        have hiff : noEarlier (o0 :: rest) (j + 1) t.id ↔ noEarlier rest j t.id := by
          rw [noEarlier_cons_succ]
          simp [hne0]
        exact ⟨fun hne => ihT (hiff.mp hne), fun hne => ihF (fun h => hne (hiff.mpr h))⟩
      · exact ih2
  | case4 o0 rest lv dem t0 ho0 hmem ih =>
    intro i o hget
    have ho0tid : o0.tid = some t0.id := by simp [Operand.tid, ho0]
    have hred : (genOps (o0 :: rest) lv dem).ops =
        o0.setFirstKill true ::
          (genOps (markLaterKills t0.id rest) (insert t0.id lv) (dem.addTemp t0)).ops := by
      simp only [genOps, ho0, if_neg hmem]
    cases i with
    | zero =>
      simp only [List.get?] at hget
      injection hget with he
      subst he
      constructor
      · intro t htt hdead
        rw [ho0] at htt
        injection htt with he2
        subst he2
        constructor
        · intro _
          rw [hred]
          simp only [List.get?]
          rw [setFirstKill_true_eq]
        · intro hne
          exact absurd (noEarlier_zero (o0 :: rest) t0.id) hne
      · rintro (hnone | ⟨t, htt, hmem2⟩)
        · rw [ho0] at hnone
          exact absurd hnone (by simp)
        · rw [ho0] at htt
          injection htt with he2
          subst he2
          exact absurd hmem2 hmem
    | succ j =>
      simp only [List.get?] at hget
      rw [hred]
      simp only [List.get?]
      have hget' : (markLaterKills t0.id rest).get? j =
          some (if o.tid = some t0.id then (o.setFirstKill false).setKill true else o) := by
        rw [markLaterKills_get, hget]
        rfl
      by_cases hto : o.tid = some t0.id
      · obtain ⟨t, htt⟩ : ∃ t, o.temp = some t := by
          cases hot : o.temp with
          | none =>
            rw [Operand.tid, hot] at hto
            simp at hto
          | some t => exact ⟨t, rfl⟩
        have htid : t.id = t0.id := by
          rw [Operand.tid, htt] at hto
          simpa using hto
        rw [if_pos hto] at hget'
        rw [mark_eq] at hget'
        have htemp : ({ o with kill := true, firstKill := false } : Operand).temp = some t := htt
        have hin' : t.id ∈ insert t0.id lv := by
          rw [htid]
          exact Finset.mem_insert_self _ _
        have ih2 := (ih j _ hget').2 (Or.inr ⟨t, htemp, hin'⟩)
        constructor
        · intro t' htt' hdead'
          have ht'eq : t' = t := by
            rw [htt] at htt'
            injection htt' with hv
            exact hv.symm
          constructor
          · intro hne
            exfalso
            have hh := (noEarlier_cons_succ o0 rest j t'.id).mp hne
            apply hh.1
            rw [ho0tid, ht'eq, htid]
          · intro _
            exact ih2
        · rintro (hnone | ⟨t2, htt2, hmem2⟩)
          · rw [htt] at hnone
            exact absurd hnone (by simp)
          · rw [htt] at htt2
            injection htt2 with he4
            subst he4
            exact absurd (htid ▸ hmem2) hmem
      · rw [if_neg hto] at hget'
        obtain ⟨ih1, ih2⟩ := ih j o hget'
        constructor
        · intro t htt hdead
          have htne : t.id ≠ t0.id := by
            intro he
            apply hto
            rw [Operand.tid, htt]
            simp [he]
          have hdead' : t.id ∉ insert t0.id lv := by
            simp [Finset.mem_insert, htne, hdead]
          obtain ⟨ihT, ihF⟩ := ih1 t htt hdead'
          have hne0 : o0.tid ≠ some t.id := by
            rw [ho0tid]
            intro hc
            injection hc with he5
            exact htne he5.symm
          have hmap : noEarlier (markLaterKills t0.id rest) j t.id ↔ noEarlier rest j t.id := by
            unfold markLaterKills
            exact noEarlier_map_tid (mark_tid t0.id) rest j t.id
          have hiff : noEarlier (o0 :: rest) (j + 1) t.id ↔
              noEarlier (markLaterKills t0.id rest) j t.id := by
            rw [noEarlier_cons_succ, hmap]
            simp [hne0]
          exact ⟨fun hne => ihT (hiff.mp hne), fun hne => ihF (fun h => hne (hiff.mpr h))⟩
        · rintro (hnone | ⟨t2, htt2, hmem2⟩)
          · exact ih2 (Or.inl hnone)
          · exact ih2 (Or.inr ⟨t2, htt2, Finset.mem_insert_of_mem hmem2⟩)

theorem genOps_length (ops : List Operand) (lv : Finset Nat) (dem : RegisterDemand) :
    (genOps ops lv dem).ops.length = ops.length := by
  induction ops, lv, dem using genOps.induct with
  | case1 lv dem => simp [genOps]
  | case2 o0 rest lv dem ho0 ih =>
    simp only [genOps, ho0, List.length_cons, ih]
  | case3 o0 rest lv dem t0 ho0 hmem ih =>
    simp only [genOps, ho0, if_pos hmem, List.length_cons, ih]
  | case4 o0 rest lv dem t0 ho0 hmem ih =>
    simp only [genOps, ho0, if_neg hmem, List.length_cons, ih]
    simp [markLaterKills]

theorem genOps_live (ops : List Operand) (lv : Finset Nat) (dem : RegisterDemand) :
    (genOps ops lv dem).live = lv ∪ opIds ops := by
  induction ops, lv, dem using genOps.induct with
  | case1 lv dem => simp [genOps]
  | case2 o0 rest lv dem ho0 ih =>
    simp only [genOps, ho0, ih, opIds_cons]
  | case3 o0 rest lv dem t0 ho0 hmem ih =>
    simp only [genOps, ho0, if_pos hmem, ih, opIds_cons]
    ext a
    simp only [Finset.mem_union, Finset.mem_insert]
    constructor
    · rintro (h | h)
      · exact Or.inl h
      · exact Or.inr (Or.inr h)
    · rintro (h | rfl | h)
      · exact Or.inl h
      · exact Or.inl hmem
      · exact Or.inr h
  | case4 o0 rest lv dem t0 ho0 hmem ih =>
    simp only [genOps, ho0, if_neg hmem, ih, opIds_cons, markLaterKills_opIds]
    ext a
    simp only [Finset.mem_union, Finset.mem_insert]
    tauto

/-- The pure live-set transfer of one scanned instruction:
erase the defined ids, then (except for `p_logical_end`, whose operands
are skipped) insert the read ids. -/
def stepLive (insn : Instruction) (lv : Finset Nat) : Finset Nat :=
  if insn.opcode = Opcode.p_logical_end then lv \ defIds insn.definitions
  else (lv \ defIds insn.definitions) ∪ opIds insn.operands

theorem stepInstr_live (phiC : Nat) (insn : Instruction) (lv : Finset Nat)
    (dem : RegisterDemand) : (stepInstr phiC insn lv dem).live = stepLive insn lv := by
  by_cases hop : insn.opcode = Opcode.p_logical_end
  · simp only [stepInstr, stepLive, if_pos hop]
    exact killDefs_live _ _ _
  · simp only [stepInstr, stepLive, if_neg hop, genOpsF_len]
    show (genOps (insn.operands.map fun o => o.setKill false)
      (killDefs insn.definitions lv dem).live
      (killDefs insn.definitions lv dem).demand).live = _
    rw [genOps_live, killDefs_live, opIds_map_temp_eq (fun o => setKill_temp o false)]

/-- The pure live-set sweep of the scanned region (last instruction
first). -/
def scanLive : List Instruction → Finset Nat → Finset Nat
  | [], lv => lv
  | insn :: rest, lv => stepLive insn (scanLive rest lv)

theorem scanRev_live (phiC : Nat) (l : List Instruction) (lv : Finset Nat)
    (dem : RegisterDemand) : (scanRev phiC l lv dem).live = scanLive l lv := by
  induction l with
  | nil => rfl
  | cons insn rest ih =>
    simp only [scanRev]
    rw [stepInstr_live, ih]
    rfl

theorem scanRev_insns_length (phiC : Nat) (l : List Instruction) (lv : Finset Nat)
    (dem : RegisterDemand) : (scanRev phiC l lv dem).insns.length = l.length := by
  induction l with
  | nil => rfl
  | cons insn rest ih => simp only [scanRev, List.length_cons, ih]

theorem scanRev_snaps_length (phiC : Nat) (l : List Instruction) (lv : Finset Nat)
    (dem : RegisterDemand) : (scanRev phiC l lv dem).snaps.length = l.length := by
  induction l with
  | nil => rfl
  | cons insn rest ih => simp only [scanRev, List.length_cons, ih]

/-- Every output instruction of the scan is the per-instruction step of
the corresponding input, run at the live set reached by scanning the
later instructions (at some demand value). -/
theorem scanRev_insns_get (phiC : Nat) (l : List Instruction) (lv : Finset Nat)
    (dem : RegisterDemand) (i : Nat) (insn : Instruction) (hget : l.get? i = some insn) :
    ∃ dem', (scanRev phiC l lv dem).insns.get? i =
      some ((stepInstr phiC insn (scanLive (l.drop (i + 1)) lv) dem').insn) := by
  induction l generalizing i with
  | nil => simp at hget
  | cons insn0 rest ih =>
    cases i with
    | zero =>
      simp only [List.get?] at hget
      injection hget with he
      subst he
      refine ⟨(scanRev phiC rest lv dem).demand, ?_⟩
      simp only [scanRev, List.get?, List.drop]
      rw [scanRev_live]
    | succ j =>
      simp only [List.get?] at hget
      obtain ⟨dem', h⟩ := ih j hget
      refine ⟨dem', ?_⟩
      simp only [scanRev, List.get?, List.drop]
      exact h

/-- Per-instruction kill-flag result for a register dead after the
instruction: marked kill at every occurrence, first-kill exactly at the
earliest occurrence. -/
theorem stepInstr_flags (phiC : Nat) (insn : Instruction) (lv : Finset Nat)
    (dem : RegisterDemand) (hop : insn.opcode ≠ Opcode.p_logical_end)
    (j : Nat) (o : Operand) (t : Temp)
    (hget : insn.operands.get? j = some o) (ht : o.temp = some t) (hdead : t.id ∉ lv) :
    (noEarlier insn.operands j t.id →
      (stepInstr phiC insn lv dem).insn.operands.get? j =
        some { o with kill := true, firstKill := true }) ∧
    (¬ noEarlier insn.operands j t.id →
      (stepInstr phiC insn lv dem).insn.operands.get? j =
        some { o with kill := true, firstKill := false }) := by
  have hops : (stepInstr phiC insn lv dem).insn.operands =
      (genOps (insn.operands.map fun o => o.setKill false)
        (killDefs insn.definitions lv dem).live
        (killDefs insn.definitions lv dem).demand).ops := by
    simp only [stepInstr, if_neg hop, genOpsF_len]
  have hget' : (insn.operands.map fun o => o.setKill false).get? j =
      some (o.setKill false) := by
    rw [List.get?_map, hget]
    rfl
  have hdead' : t.id ∉ (killDefs insn.definitions lv dem).live := by
    rw [killDefs_live]
    intro hin
    exact hdead (Finset.mem_sdiff.mp hin).1
  have hflags := (genOps_flags (insn.operands.map fun o => o.setKill false)
      (killDefs insn.definitions lv dem).live (killDefs insn.definitions lv dem).demand
      j (o.setKill false) hget').1 t
    (by rw [setKill_temp]; exact ht) hdead'
  have hiff : noEarlier (insn.operands.map fun o => o.setKill false) j t.id ↔
      noEarlier insn.operands j t.id :=
    noEarlier_map_tid (fun o => setKill_tid o false) insn.operands j t.id
  have hrec1 : ({ o.setKill false with kill := true, firstKill := true } : Operand) =
      { o with kill := true, firstKill := true } := by
    rw [setKill_false_eq]
  have hrec2 : ({ o.setKill false with kill := true, firstKill := false } : Operand) =
      { o with kill := true, firstKill := false } := by
    rw [setKill_false_eq]
  constructor
  · intro hne
    rw [hops]
    rw [← hrec1]
    exact hflags.1 (hiff.mpr hne)
  · intro hne
    rw [hops]
    rw [← hrec2]
    exact hflags.2 (fun h => hne (hiff.mp h))

theorem phiDefs_length (l : List Instruction) (lv : Finset Nat) :
    (phiDefs l lv).insns.length = l.length := by
  induction l generalizing lv with
  | nil => rfl
  | cons insn rest ih =>
    cases hd : insn.definitions with
    | nil => simp [phiDefs, hd, ih]
    | cons d tail =>
      cases tail with
      | nil =>
        cases hdt : d.temp with
        | none => simp [phiDefs, hd, hdt, ih]
        | some t =>
          by_cases hmem : t.id ∈ (phiDefs rest lv).live
          · simp [phiDefs, hd, hdt, if_pos hmem, ih]
          · simp [phiDefs, hd, hdt, if_neg hmem, ih]
      | cons e tail2 => simp [phiDefs, hd, ih]

theorem phiOpsPhase_length (residual : Finset Nat) (blk : Block)
    (l : List Instruction) (st : PushSt) :
    (phiOpsPhase residual blk l st).insns.length = l.length := by
  induction l generalizing st with
  | nil => rfl
  | cons insn rest ih =>
    simp only [phiOpsPhase, List.length_cons, ih]

theorem get?_append_skip {α : Type _} (l1 l2 : List α) (n i : Nat) (h : l1.length = n) :
    (l1 ++ l2).get? (n + i) = l2.get? i := by
  subst h
  rw [List.get?_append_right (by omega)]
  congr 1
  omega

/-- C1 (amended).  After the per-block step, for every instruction of the
scanned (post-phi) region other than the `p_logical_end` marker, and
every register it reads that is not in the running live set when the
backward scan reaches it: every operand occurrence of that register is
marked `isKill`, and `isFirstKill` is set exactly at the lowest-index
occurrence (so exactly one occurrence carries it). -/
theorem process_block_kill_flags (rcOf : Nat → RegClass) (beforeRA : Bool) (blk : Block)
    (lv : live) (wl : Finset Nat) (phiC : List Nat) (i : Nat) (insn : Instruction)
    (hi : (scanRegion blk.instructions).get? i = some insn)
    (hop : insn.opcode ≠ Opcode.p_logical_end) (t : Temp) (j : Nat) (o : Operand)
    (hj : insn.operands.get? j = some o) (ht : o.temp = some t)
    (hdead : t.id ∉ scanLive ((scanRegion blk.instructions).drop (i + 1))
      (lv.live_out.getD blk.index ∅)) :
    ∃ out,
      (process_live_temps_per_block rcOf beforeRA blk lv wl phiC).blk.instructions.get?
        ((phiRegion blk.instructions).length + i) = some out ∧
      (noEarlier insn.operands j t.id →
        out.operands.get? j = some { o with kill := true, firstKill := true }) ∧
      (¬ noEarlier insn.operands j t.id →
        out.operands.get? j = some { o with kill := true, firstKill := false }) := by
  simp only [process_live_temps_per_block]
  rw [get?_append_skip _ _ _ i (by rw [phiOpsPhase_length, phiDefs_length])]
  obtain ⟨dem', hscan⟩ := scanRev_insns_get (phiC.getD blk.index 0)
    (scanRegion blk.instructions) (lv.live_out.getD blk.index ∅)
    { demandOfSet rcOf (lv.live_out.getD blk.index ∅) with
      sgpr := (demandOfSet rcOf (lv.live_out.getD blk.index ∅)).sgpr -
        (phiC.getD blk.index 0 : Int) } i insn hi
  rw [hscan]
  have hflags := stepInstr_flags (phiC.getD blk.index 0) insn
    (scanLive ((scanRegion blk.instructions).drop (i + 1)) (lv.live_out.getD blk.index ∅))
    dem' hop j o t hj ht hdead
  exact ⟨_, rfl, hflags.1, hflags.2⟩

/-- A scalar size-1 register class used by the concrete programs. -/
def rc1 : RegClass := ⟨RegType.sgpr, 1, false⟩

/-- An unannotated read of temp 1. -/
def op1 : Operand := { temp := some ⟨1, rc1⟩ }

/-- An instruction reading temp 1 twice. -/
def insnTwice : Instruction :=
  { opcode := Opcode.other, operands := [op1, op1], definitions := [] }

/-- A one-instruction block around `insnTwice`. -/
def blkTwice : Block :=
  { index := 0, instructions := [insnTwice], logical_preds := [], linear_preds := [] }

/-- An empty one-block liveness record. -/
def lv1 : live := { live_out := [∅], register_demand := [[]] }

/-- Closed instantiation of C1's amended theorem: an instruction reading
the same dead register twice gets first-kill exactly on the first
occurrence. -/
theorem process_block_kill_flags_witness :
    ∃ out,
      (BlockRes.blk
          (process_live_temps_per_block (fun _ => rc1) true blkTwice lv1 ∅ [0])).instructions.get?
        ((phiRegion blkTwice.instructions).length + 0) = some out ∧
      (noEarlier insnTwice.operands 0 (1 : Nat) →
        out.operands.get? 0 = some { op1 with kill := true, firstKill := true }) ∧
      (¬ noEarlier insnTwice.operands 0 (1 : Nat) →
        out.operands.get? 0 = some { op1 with kill := true, firstKill := false }) :=
  process_block_kill_flags (fun _ => rc1) true blkTwice lv1 ∅ [0] 0 insnTwice
    (by decide) (by decide) ⟨1, rc1⟩ 0 op1 (by decide) (by decide) (by decide)

/-- The single `p_logical_end` marker instruction reading temp 1. -/
def insnLE : Instruction :=
  { opcode := Opcode.p_logical_end, operands := [op1], definitions := [] }

/-- The one-block program whose single instruction is a `p_logical_end`
marker reading temp 1 (a non-phi instruction with a dead read whose
operands the scan never processes). -/
def pC1 : Program :=
  { blocks := [{ index := 0, instructions := [insnLE],
                 logical_preds := [], linear_preds := [] }],
    temp_rc := fun _ => rc1,
    dev := progW.dev, config := progW.config,
    chip_class := 9, wave_size := 64, workgroup_size := UINT_MAX,
    wgp_mode := false, needs_flat_scr := false, min_waves := 1 }

/-- C1 counterexample: after `live_var_analysis` on `pC1`, the non-phi
`p_logical_end` instruction reads temp 1, temp 1 is absent from the
(empty) running live set, yet no operand occurrence is marked
`isFirstKill` or `isKill` (`op1` carries `kill := false`,
`firstKill := false`) — the claim as stated fails for the
end-of-logical-region marker opcode. -/
theorem live_var_analysis_logical_end_counterexample :
    (liveVarAnalysisState pC1).program.blocks.map Block.instructions = [[insnLE]] ∧
    op1.kill = false ∧ op1.firstKill = false ∧ insnLE.operands = [op1] ∧
    is_phi insnLE = false ∧
    (liveVarAnalysisState pC1).lv.live_out = [∅] := by
  decide

/- ## C3: dead definitions are transient pressure only -/

/-- C3.  For a (non-phi) instruction processed by the backward scan with
a definition of a register absent from the running live set: the
definition is marked `isKill`, and — compared with the same instruction
with that definition removed — the snapshot charged to this instruction
grows by exactly the definition's register-class size while the running
live set and running demand carried backward to earlier instructions are
unchanged. -/
theorem stepInstr_dead_def_transient (phiC : Nat) (insn : Instruction)
    (lv : Finset Nat) (dem : RegisterDemand) (k : Nat) (d : Definition) (t : Temp)
    (hget : insn.definitions.get? k = some d) (ht : d.temp = some t)
    (hdead : t.id ∉ lv) :
    (stepInstr phiC insn lv dem).insn.definitions.get? k = some (d.setKill true) ∧
    (stepInstr phiC insn lv dem).live =
      (stepInstr phiC { insn with definitions := insn.definitions.eraseIdx k } lv dem).live ∧
    (stepInstr phiC insn lv dem).demand =
      (stepInstr phiC { insn with definitions := insn.definitions.eraseIdx k } lv dem).demand ∧
    (stepInstr phiC insn lv dem).snap =
      ((stepInstr phiC { insn with definitions := insn.definitions.eraseIdx k } lv dem).snap).addTemp t := by
  obtain ⟨hL, hD, hS⟩ := killDefs_erase_dead insn.definitions lv dem k d t hget ht hdead
  have hkill := killDefs_dead_kill insn.definitions lv dem k d t hget ht hdead
  by_cases hop : insn.opcode = Opcode.p_logical_end
  · simp only [stepInstr]
    rw [if_pos hop,
        if_pos (show ({ insn with definitions := insn.definitions.eraseIdx k } :
          Instruction).opcode = Opcode.p_logical_end from hop)]
    refine ⟨hkill, hL, ?_, ?_⟩
    · show ({ (killDefs insn.definitions lv dem).demand with
          sgpr := (killDefs insn.definitions lv dem).demand.sgpr + (phiC : Int) } :
            RegisterDemand) = _
      rw [hD]
    · rw [hS, add_addTemp]
  · simp only [stepInstr, genOpsF_len]
    rw [if_neg hop,
        if_neg (show ¬({ insn with definitions := insn.definitions.eraseIdx k } :
          Instruction).opcode = Opcode.p_logical_end from hop)]
    show _ ∧
      (genOps (insn.operands.map (fun o => o.setKill false))
        (killDefs insn.definitions lv dem).live
        (killDefs insn.definitions lv dem).demand).live = _ ∧ _ ∧ _
    rw [hL, hD]
    refine ⟨hkill, rfl, rfl, ?_⟩
    rw [hS, add_addTemp, addTemp_add]

/-- Closed instantiation of C3: a scalar definition of size 2 that is
dead on write is marked kill, adds two scalar units to its own snapshot
only, and leaves the carried demand untouched. -/
theorem stepInstr_dead_def_transient_witness :
    (stepInstr 0
      { opcode := Opcode.other, operands := [],
        definitions := [{ temp := some ⟨7, ⟨RegType.sgpr, 2, false⟩⟩ }] }
      ∅ {}).insn.definitions.get? 0 =
        some (Definition.setKill { temp := some ⟨7, ⟨RegType.sgpr, 2, false⟩⟩ } true) ∧
    (stepInstr 0
      { opcode := Opcode.other, operands := [],
        definitions := [{ temp := some ⟨7, ⟨RegType.sgpr, 2, false⟩⟩ }] }
      ∅ {}).demand =
    (stepInstr 0
      { opcode := Opcode.other, operands := [], definitions := [] }
      ∅ {}).demand ∧
    (stepInstr 0
      { opcode := Opcode.other, operands := [],
        definitions := [{ temp := some ⟨7, ⟨RegType.sgpr, 2, false⟩⟩ }] }
      ∅ {}).snap =
    ((stepInstr 0
      { opcode := Opcode.other, operands := [], definitions := [] }
      ∅ {}).snap).addTemp ⟨7, ⟨RegType.sgpr, 2, false⟩⟩ := by
  have h := stepInstr_dead_def_transient 0
    { opcode := Opcode.other, operands := [],
      definitions := [{ temp := some ⟨7, ⟨RegType.sgpr, 2, false⟩⟩ }] }
    ∅ {} 0 { temp := some ⟨7, ⟨RegType.sgpr, 2, false⟩⟩ } ⟨7, ⟨RegType.sgpr, 2, false⟩⟩
    rfl rfl (by decide)
  exact ⟨h.1, h.2.2.1, h.2.2.2⟩

/- ## Characterizing the live-out writes of the merge and phi-operand
passes (shared by the frame and monotonicity results) -/

theorem mem_sortFin (x : Nat) (s : Finset Nat) : x ∈ sortFin s ↔ x ∈ s := by
  rcases s with ⟨val, nd⟩
  induction val using Quot.ind with
  | mk l =>
    show x ∈ l.insertionSort (· ≤ ·) ↔ _
    rw [(List.perm_insertionSort _ l).mem_iff]
    rfl

theorem getD_set_self {α : Type _} (l : List α) (i : Nat) (a d : α)
    (h : i < l.length) : (l.set i a).getD i d = a := by
  induction l generalizing i with
  | nil => simp at h
  | cons hd tl ih =>
    cases i with
    | zero => rfl
    | succ j => exact ih j (by simpa using h)

theorem getD_set_ne {α : Type _} (l : List α) (i j : Nat) (a d : α)
    (h : i ≠ j) : (l.set i a).getD j d = l.getD j d := by
  induction l generalizing i j with
  | nil => simp
  | cons hd tl ih =>
    cases i with
    | zero =>
      cases j with
      | zero => exact absurd rfl h
      | succ k => rfl
    | succ m =>
      cases j with
      | zero => rfl
      | succ k => exact ih m k (fun he => h (by rw [he]))

theorem get?_set_ne {α : Type _} (l : List α) (i j : Nat) (a : α)
    (h : i ≠ j) : (l.set i a).get? j = l.get? j := by
  induction l generalizing i j with
  | nil => simp
  | cons hd tl ih =>
    cases i with
    | zero =>
      cases j with
      | zero => exact absurd rfl h
      | succ k => rfl
    | succ m =>
      cases j with
      | zero => rfl
      | succ k => exact ih m k (fun he => h (by rw [he]))

theorem pushLive_length (lvo : List (Finset Nat)) (wl : Finset Nat) (pred t : Nat) :
    (pushLive lvo wl pred t).1.length = lvo.length := by
  by_cases hp : pred < lvo.length
  · by_cases ht : t ∈ lvo.getD pred ∅
    · simp only [pushLive, if_pos hp, if_pos ht]
    · simp only [pushLive, if_pos hp, if_neg ht]
      exact List.length_set lvo pred _
  · simp only [pushLive, if_neg hp]

theorem pushLive_getD (lvo : List (Finset Nat)) (wl : Finset Nat) (pred t q : Nat)
    (hq : q < lvo.length) :
    (pushLive lvo wl pred t).1.getD q ∅ =
      if pred = q then insert t (lvo.getD q ∅) else lvo.getD q ∅ := by
  by_cases hp : pred < lvo.length
  · by_cases ht : t ∈ lvo.getD pred ∅
    · simp only [pushLive, if_pos hp, if_pos ht]
      by_cases hpq : pred = q
      · subst hpq
        rw [if_pos rfl, Finset.insert_eq_self.mpr ht]
      · rw [if_neg hpq]
    · simp only [pushLive, if_pos hp, if_neg ht]
      by_cases hpq : pred = q
      · subst hpq
        rw [if_pos rfl, getD_set_self _ _ _ _ hp]
      · rw [if_neg hpq, getD_set_ne _ _ _ _ _ hpq]
  · have hpq : pred ≠ q := fun h => hp (h ▸ hq)
    simp only [pushLive, if_neg hp, if_neg hpq]

theorem pushLive_frame (lvo : List (Finset Nat)) (wl : Finset Nat) (pred t q : Nat)
    (hpq : pred ≠ q) : (pushLive lvo wl pred t).1.get? q = lvo.get? q := by
  by_cases hp : pred < lvo.length
  · by_cases ht : t ∈ lvo.getD pred ∅
    · simp only [pushLive, if_pos hp, if_pos ht]
    · simp only [pushLive, if_pos hp, if_neg ht]
      exact get?_set_ne _ _ _ _ hpq
  · simp only [pushLive, if_neg hp]

/-- The ids a list of (predecessor, id) merge insertions pushes into the
stored live-out set of block `q`. -/
def pushSet (acts : List (Nat × Nat)) (q : Nat) : Finset Nat :=
  acts.foldr (fun a s => if a.1 = q then insert a.2 s else s) ∅

theorem mem_pushSet (acts : List (Nat × Nat)) (q x : Nat) :
    x ∈ pushSet acts q ↔ (q, x) ∈ acts := by
  induction acts with
  | nil => simp [pushSet]
  | cons a rest ih =>
    obtain ⟨a1, a2⟩ := a
    show x ∈ (if a1 = q then insert a2 (pushSet rest q) else pushSet rest q) ↔ _
    by_cases h : a1 = q
    · subst h
      rw [if_pos rfl]
      simp only [Finset.mem_insert, ih, List.mem_cons, Prod.mk.injEq,
        eq_self_iff_true, true_and]
    · rw [if_neg h]
      rw [ih, List.mem_cons]
      constructor
      · exact Or.inr
      · rintro (he | hm)
        · simp only [Prod.mk.injEq] at he
          exact absurd he.1.symm h
        · exact hm

theorem pushAll_length (acts : List (Nat × Nat)) (lvo : List (Finset Nat))
    (wl : Finset Nat) : (pushAll acts lvo wl).1.length = lvo.length := by
  induction acts generalizing lvo wl with
  | nil => rfl
  | cons a rest ih =>
    show (pushAll rest _ _).1.length = _
    rw [ih, pushLive_length]

theorem pushAll_frame (acts : List (Nat × Nat)) (lvo : List (Finset Nat))
    (wl : Finset Nat) (q : Nat) (h : ∀ a ∈ acts, a.1 ≠ q) :
    (pushAll acts lvo wl).1.get? q = lvo.get? q := by
  induction acts generalizing lvo wl with
  | nil => rfl
  | cons a rest ih =>
    show (pushAll rest _ _).1.get? q = _
    rw [ih _ _ (fun b hb => h b (List.mem_cons_of_mem a hb)),
        pushLive_frame _ _ _ _ _ (h a (List.mem_cons_self a rest))]

theorem pushAll_getD (acts : List (Nat × Nat)) (lvo : List (Finset Nat))
    (wl : Finset Nat) (q : Nat) (hq : q < lvo.length) :
    (pushAll acts lvo wl).1.getD q ∅ = lvo.getD q ∅ ∪ pushSet acts q := by
  induction acts generalizing lvo wl with
  | nil => simp [pushAll, pushSet]
  | cons a rest ih =>
    show (pushAll rest _ _).1.getD q ∅ = _
    rw [ih _ _ (by rw [pushLive_length]; exact hq),
        pushLive_getD _ _ _ _ _ hq]
    show _ = lvo.getD q ∅ ∪ (if a.1 = q then insert a.2 (pushSet rest q) else pushSet rest q)
    by_cases h : a.1 = q
    · rw [if_pos h, if_pos h, Finset.insert_union, Finset.union_insert]
    · rw [if_neg h, if_neg h]

theorem mem_mergeActions (rcOf : Nat → RegClass) (blk : Block) (residual : Finset Nat)
    (pr x : Nat) :
    (pr, x) ∈ mergeActions rcOf blk residual ↔
      x ∈ residual ∧ pr ∈ predsFor rcOf blk x := by
  simp only [mergeActions, List.mem_flatMap, List.mem_map]
  constructor
  · rintro ⟨t, htm, pr', hpr, heq⟩
    simp only [Prod.mk.injEq] at heq
    obtain ⟨h1, h2⟩ := heq
    subst h1
    subst h2
    exact ⟨(mem_sortFin _ residual).mp htm, hpr⟩
  · rintro ⟨hx, hp⟩
    exact ⟨x, (mem_sortFin x residual).mpr hx, pr, hp, rfl⟩

theorem mergeActions_pred (rcOf : Nat → RegClass) (blk : Block) (residual : Finset Nat)
    (a : Nat × Nat) (h : a ∈ mergeActions rcOf blk residual) :
    a.1 ∈ blk.logical_preds ∨ a.1 ∈ blk.linear_preds := by
  have := (mem_mergeActions rcOf blk residual a.1 a.2).mp h
  unfold predsFor at this
  by_cases hl : (rcOf a.2).is_linear
  · rw [if_pos hl] at this
    exact Or.inr this.2
  · rw [if_neg hl] at this
    exact Or.inl this.2

/-- The ids a phi-operand pair list pushes into the stored live-out set
of block `q`. -/
def phiPushSet (pairs : List (Nat × Operand)) (q : Nat) : Finset Nat :=
  pairs.foldr (fun po s =>
    match po.2.temp with
    | none => s
    | some t => if po.1 = q then insert t.id s else s) ∅

theorem phiOpPush_length (b : Bool) (pairs : List (Nat × Operand)) (st : PushSt) :
    (phiOpPush b pairs st).live_out.length = st.live_out.length := by
  induction pairs generalizing st with
  | nil => rfl
  | cons po rest ih =>
    obtain ⟨pr, o⟩ := po
    cases ho : o.temp with
    | none => simp only [phiOpPush, ho]; exact ih st
    | some t =>
      simp only [phiOpPush, ho]
      rw [ih]
      exact pushLive_length _ _ _ _

theorem phiOpPush_frame (b : Bool) (pairs : List (Nat × Operand)) (st : PushSt)
    (q : Nat) (h : ∀ po ∈ pairs, po.1 ≠ q) :
    (phiOpPush b pairs st).live_out.get? q = st.live_out.get? q := by
  induction pairs generalizing st with
  | nil => rfl
  | cons po rest ih =>
    obtain ⟨pr, o⟩ := po
    cases ho : o.temp with
    | none =>
      simp only [phiOpPush, ho]
      exact ih st (fun b hb => h b (List.mem_cons_of_mem _ hb))
    | some t =>
      simp only [phiOpPush, ho]
      rw [ih _ (fun b hb => h b (List.mem_cons_of_mem _ hb))]
      exact pushLive_frame _ _ _ _ _ (h (pr, o) (List.mem_cons_self _ _))

theorem phiOpPush_getD (b : Bool) (pairs : List (Nat × Operand)) (st : PushSt)
    (q : Nat) (hq : q < st.live_out.length) :
    (phiOpPush b pairs st).live_out.getD q ∅ =
      st.live_out.getD q ∅ ∪ phiPushSet pairs q := by
  induction pairs generalizing st with
  | nil => simp [phiOpPush, phiPushSet]
  | cons po rest ih =>
    obtain ⟨pr, o⟩ := po
    cases ho : o.temp with
    | none =>
      simp only [phiOpPush, ho]
      rw [ih st hq]
      show _ = _ ∪ phiPushSet ((pr, o) :: rest) q
      simp only [phiPushSet, List.foldr, ho]
    | some t =>
      simp only [phiOpPush, ho]
      rw [ih _ (by rw [pushLive_length]; exact hq),
          pushLive_getD _ _ _ _ _ hq]
      show _ = _ ∪ phiPushSet ((pr, o) :: rest) q
      have hps : phiPushSet ((pr, o) :: rest) q =
          if pr = q then insert t.id (phiPushSet rest q) else phiPushSet rest q := by
        simp only [phiPushSet, List.foldr, ho]
      rw [hps]
      by_cases h : pr = q
      · rw [if_pos h, if_pos h, Finset.insert_union, Finset.union_insert]
      · rw [if_neg h, if_neg h]

/-- The ids the whole phi-operand pass pushes into the stored live-out
set of block `q`. -/
def phiPhaseSet (blk : Block) : List Instruction → Nat → Finset Nat
  | [], _ => ∅
  | insn :: rest, q =>
    phiPhaseSet blk rest q ∪
    phiPushSet ((if insn.opcode = Opcode.p_phi then blk.logical_preds
                 else blk.linear_preds).zip insn.operands) q

theorem phiOpsPhase_push_length (residual : Finset Nat) (blk : Block)
    (l : List Instruction) (st : PushSt) :
    (phiOpsPhase residual blk l st).push.live_out.length = st.live_out.length := by
  induction l generalizing st with
  | nil => rfl
  | cons insn rest ih =>
    simp only [phiOpsPhase]
    rw [phiOpPush_length, ih]

theorem phiOpsPhase_frame (residual : Finset Nat) (blk : Block)
    (l : List Instruction) (st : PushSt) (q : Nat)
    (hq1 : q ∉ blk.logical_preds) (hq2 : q ∉ blk.linear_preds) :
    (phiOpsPhase residual blk l st).push.live_out.get? q = st.live_out.get? q := by
  induction l generalizing st with
  | nil => rfl
  | cons insn rest ih =>
    simp only [phiOpsPhase]
    rw [phiOpPush_frame, ih]
    intro po hpo
    have hmem := List.of_mem_zip hpo
    by_cases hc : insn.opcode = Opcode.p_phi
    · rw [if_pos hc] at hmem
      exact fun he => hq1 (he ▸ hmem.1)
    · rw [if_neg hc] at hmem
      exact fun he => hq2 (he ▸ hmem.1)

theorem phiOpsPhase_getD (residual : Finset Nat) (blk : Block)
    (l : List Instruction) (st : PushSt) (q : Nat) (hq : q < st.live_out.length) :
    (phiOpsPhase residual blk l st).push.live_out.getD q ∅ =
      st.live_out.getD q ∅ ∪ phiPhaseSet blk l q := by
  induction l generalizing st with
  | nil => simp [phiOpsPhase, phiPhaseSet]
  | cons insn rest ih =>
    simp only [phiOpsPhase]
    rw [phiOpPush_getD _ _ _ _ (by rw [phiOpsPhase_push_length]; exact hq), ih st hq]
    show _ = _ ∪ phiPhaseSet blk (insn :: rest) q
    simp only [phiPhaseSet]
    rw [Finset.union_assoc]

/-- C10.  The per-block step works on a copy of the block's live-out set:
the only stored live-out sets it writes are those of the block's logical
and linear predecessors, and only by insertion.  Hence (a) every stored
live-out set only grows across the step, and (b) the stored set at any
index that is neither a logical nor a linear predecessor — in particular
the block's own set whenever the block does not list itself as a
predecessor — is left exactly unchanged. -/
theorem process_block_live_out_frame (rcOf : Nat → RegClass) (beforeRA : Bool)
    (blk : Block) (lv : live) (wl : Finset Nat) (phiC : List Nat) (q : Nat)
    (hq : q < lv.live_out.length) :
    lv.live_out.getD q ∅ ⊆
      (process_live_temps_per_block rcOf beforeRA blk lv wl phiC).lv.live_out.getD q ∅ ∧
    (q ∉ blk.logical_preds → q ∉ blk.linear_preds →
      (process_live_temps_per_block rcOf beforeRA blk lv wl phiC).lv.live_out.get? q =
        lv.live_out.get? q) := by
  simp only [process_live_temps_per_block]
  constructor
  · rw [phiOpsPhase_getD _ _ _ _ _ (by rw [pushAll_length]; exact hq)]
    rw [pushAll_getD _ _ _ _ hq]
    intro x hx
    exact Finset.mem_union_left _ (Finset.mem_union_left _ hx)
  · intro h1 h2
    rw [phiOpsPhase_frame _ _ _ _ _ h1 h2]
    apply pushAll_frame
    intro a ha
    rcases mergeActions_pred rcOf blk _ a ha with h | h
    · exact fun he => h1 (he ▸ h)
    · exact fun he => h2 (he ▸ h)

/-- Closed instantiation of C10: on a one-block program whose block has
no predecessors, the step leaves the stored live-out entry untouched. -/
theorem process_block_live_out_frame_witness :
    lv1.live_out.getD 0 ∅ ⊆
      (process_live_temps_per_block (fun _ => rc1) true blkTwice lv1 ∅ [0]).lv.live_out.getD 0 ∅ ∧
    (process_live_temps_per_block (fun _ => rc1) true blkTwice lv1 ∅ [0]).lv.live_out.get? 0 =
      lv1.live_out.get? 0 :=
  ⟨(process_block_live_out_frame (fun _ => rc1) true blkTwice lv1 ∅ [0] 0 (by decide)).1,
   (process_block_live_out_frame (fun _ => rc1) true blkTwice lv1 ∅ [0] 0 (by decide)).2
     (by decide) (by decide)⟩

/- ## Monotonicity of the per-block transfer (C8) -/

theorem stepLive_mono (insn : Instruction) (L L' : Finset Nat) (h : L ⊆ L') :
    stepLive insn L ⊆ stepLive insn L' := by
  unfold stepLive
  by_cases hop : insn.opcode = Opcode.p_logical_end
  · rw [if_pos hop, if_pos hop]
    exact Finset.sdiff_subset_sdiff h (Finset.Subset.refl _)
  · rw [if_neg hop, if_neg hop]
    exact Finset.union_subset_union (Finset.sdiff_subset_sdiff h (Finset.Subset.refl _))
      (Finset.Subset.refl _)

theorem scanLive_mono (l : List Instruction) (L L' : Finset Nat) (h : L ⊆ L') :
    scanLive l L ⊆ scanLive l L' := by
  induction l with
  | nil => exact h
  | cons insn rest ih => exact stepLive_mono insn _ _ ih

/-- The pure live-set effect of the phi-definition pass. -/
def phiDefsLive : List Instruction → Finset Nat → Finset Nat
  | [], lv => lv
  | insn :: rest, lv =>
    let L := phiDefsLive rest lv
    match insn.definitions with
    | [d] =>
      match d.temp with
      | none => L
      | some t => if t.id ∈ L then L.erase t.id else L
    | _ => L

theorem phiDefs_live (l : List Instruction) (lv : Finset Nat) :
    (phiDefs l lv).live = phiDefsLive l lv := by
  induction l with
  | nil => rfl
  | cons insn rest ih =>
    cases hd : insn.definitions with
    | nil => simp only [phiDefs, phiDefsLive, hd, ih]
    | cons d tail =>
      cases tail with
      | nil =>
        cases hdt : d.temp with
        | none => simp only [phiDefs, phiDefsLive, hd, hdt, ih]
        | some t =>
          by_cases hmem : t.id ∈ (phiDefs rest lv).live
          · simp only [phiDefs, phiDefsLive, hd, hdt, if_pos hmem, ih,
              if_pos (ih ▸ hmem)]
          · simp only [phiDefs, phiDefsLive, hd, hdt, if_neg hmem, ih,
              if_neg (ih ▸ hmem)]
      | cons e tail2 => simp only [phiDefs, phiDefsLive, hd, ih]

theorem phiDefsLive_mono (l : List Instruction) (L L' : Finset Nat) (h : L ⊆ L') :
    phiDefsLive l L ⊆ phiDefsLive l L' := by
  induction l with
  | nil => exact h
  | cons insn rest ih =>
    cases hd : insn.definitions with
    | nil =>
      simp only [phiDefsLive, hd]
      exact ih
    | cons d tail =>
      cases tail with
      | nil =>
        cases hdt : d.temp with
        | none =>
          simp only [phiDefsLive, hd, hdt]
          exact ih
        | some t =>
          simp only [phiDefsLive, hd, hdt]
          by_cases hm : t.id ∈ phiDefsLive rest L
          · rw [if_pos hm]
            have hm' : t.id ∈ phiDefsLive rest L' := ih hm
            rw [if_pos hm']
            exact Finset.erase_subset_erase _ ih
          · rw [if_neg hm]
            by_cases hm' : t.id ∈ phiDefsLive rest L'
            · rw [if_pos hm']
              exact (Finset.subset_erase).mpr ⟨ih, hm⟩
            · rw [if_neg hm']
              exact ih
      | cons e tail2 =>
        simp only [phiDefsLive, hd]
        exact ih

theorem phiDefsLive_subset (l : List Instruction) (L : Finset Nat) :
    phiDefsLive l L ⊆ L := by
  induction l with
  | nil => exact Finset.Subset.refl L
  | cons insn rest ih =>
    cases hd : insn.definitions with
    | nil =>
      simp only [phiDefsLive, hd]
      exact ih
    | cons d tail =>
      cases tail with
      | nil =>
        cases hdt : d.temp with
        | none =>
          simp only [phiDefsLive, hd, hdt]
          exact ih
        | some t =>
          simp only [phiDefsLive, hd, hdt]
          by_cases hm : t.id ∈ phiDefsLive rest L
          · rw [if_pos hm]
            exact (Finset.erase_subset _ _).trans ih
          · rw [if_neg hm]
            exact ih
      | cons e tail2 =>
        simp only [phiDefsLive, hd]
        exact ih

/-- The phi-definition pass never changes an instruction's opcode or
operands, so the phi-operand pass pushes the same ids whether it walks
the original or the rewritten phi instructions. -/
theorem phiPhaseSet_phiDefs (blk : Block) (l : List Instruction) (lv : Finset Nat)
    (q : Nat) : phiPhaseSet blk (phiDefs l lv).insns q = phiPhaseSet blk l q := by
  induction l with
  | nil => rfl
  | cons insn rest ih =>
    cases hd : insn.definitions with
    | nil => simp only [phiDefs, hd, phiPhaseSet, ih]
    | cons d tail =>
      cases tail with
      | nil =>
        cases hdt : d.temp with
        | none => simp only [phiDefs, hd, hdt, phiPhaseSet, ih]
        | some t =>
          by_cases hmem : t.id ∈ (phiDefs rest lv).live
          · simp only [phiDefs, hd, hdt, if_pos hmem, phiPhaseSet, ih]
          · simp only [phiDefs, hd, hdt, if_neg hmem, phiPhaseSet, ih]
      | cons e tail2 => simp only [phiDefs, hd, phiPhaseSet, ih]

theorem pushSet_mergeActions_mono (rcOf : Nat → RegClass) (blk : Block)
    (R R' : Finset Nat) (h : R ⊆ R') (q : Nat) :
    pushSet (mergeActions rcOf blk R) q ⊆ pushSet (mergeActions rcOf blk R') q := by
  intro x hx
  rw [mem_pushSet] at hx ⊢
  rw [mem_mergeActions] at hx ⊢
  exact ⟨h hx.1, hx.2⟩

/-- C8.  Monotonicity of the per-block transfer: growing the live-out
input sets pointwise (in particular the block's own live-out input) can
only grow every stored live-out set that the step leaves behind — the
ids propagated into the predecessors never shrink. -/
theorem process_block_monotone (rcOf : Nat → RegClass) (beforeRA : Bool)
    (blk : Block) (lv lv' : live) (wl wl' : Finset Nat) (phiC phiC' : List Nat)
    (hlen : lv.live_out.length = lv'.live_out.length)
    (hsub : ∀ r, lv.live_out.getD r ∅ ⊆ lv'.live_out.getD r ∅) (q : Nat) :
    (process_live_temps_per_block rcOf beforeRA blk lv wl phiC).lv.live_out.getD q ∅ ⊆
      (process_live_temps_per_block rcOf beforeRA blk lv' wl' phiC').lv.live_out.getD q ∅ := by
  by_cases hq : q < lv.live_out.length
  · have hq' : q < lv'.live_out.length := hlen ▸ hq
    simp only [process_live_temps_per_block]
    rw [phiOpsPhase_getD _ _ _ _ _ (by rw [pushAll_length]; exact hq),
        pushAll_getD _ _ _ _ hq,
        phiOpsPhase_getD _ _ _ _ _ (by rw [pushAll_length]; exact hq'),
        pushAll_getD _ _ _ _ hq']
    rw [phiPhaseSet_phiDefs, phiPhaseSet_phiDefs]
    refine Finset.union_subset_union ?_ (Finset.Subset.refl _)
    apply Finset.union_subset_union (hsub q)
    rw [scanRev_live, scanRev_live, phiDefs_live, phiDefs_live]
    apply pushSet_mergeActions_mono
    apply phiDefsLive_mono
    apply scanLive_mono
    exact hsub blk.index
  · have hout : lv.live_out.length ≤ q := Nat.le_of_not_lt hq
    have hlen2 : (process_live_temps_per_block rcOf beforeRA blk lv wl
        phiC).lv.live_out.length = lv.live_out.length := by
      simp only [process_live_temps_per_block]
      rw [phiOpsPhase_push_length, pushAll_length]
    rw [List.getD_eq_default _ _ (by rw [hlen2]; exact hout)]
    exact Finset.empty_subset _

/-- Closed instantiation of C8 at the one-block program. -/
theorem process_block_monotone_witness :
    (process_live_temps_per_block (fun _ => rc1) true blkTwice lv1 ∅ [0]).lv.live_out.getD 0 ∅ ⊆
      (process_live_temps_per_block (fun _ => rc1) true blkTwice
        { live_out := [{1}], register_demand := [[]] } ∅ [0]).lv.live_out.getD 0 ∅ :=
  process_block_monotone (fun _ => rc1) true blkTwice lv1
    { live_out := [{1}], register_demand := [[]] } ∅ ∅ [0] [0] (by decide)
    (fun r => by cases r with
      | zero => simp [lv1]
      | succ n => simp [lv1, List.getD]) 0

/- ## Demand bookkeeping across one instruction (C2) -/

/-- The demand of a single temp, in its bank. -/
def tD (t : Temp) : RegisterDemand := ({} : RegisterDemand).addTemp t

theorem addTemp_eq_add (c : RegisterDemand) (t : Temp) : c.addTemp t = c + tD t := by
  ext <;> simp [tD]

theorem subTemp_eq_sub (c : RegisterDemand) (t : Temp) : c.subTemp t = c - tD t := by
  ext <;> simp [tD]

/-- Demand summed over a list. -/
def Dsum {α : Type _} (δ : α → RegisterDemand) : List α → RegisterDemand
  | [] => {}
  | x :: l => δ x + Dsum δ l

theorem foldl_add_Dsum {α : Type _} (δ : α → RegisterDemand) (l : List α)
    (init : RegisterDemand) :
    l.foldl (fun c x => c + δ x) init = init + Dsum δ l := by
  induction l generalizing init with
  | nil =>
    show init = init + Dsum δ []
    show init = init + ({} : RegisterDemand)
    ext <;> simp
  | cons x rest ih =>
    show rest.foldl _ (init + δ x) = _
    rw [ih]
    show init + δ x + Dsum δ rest = init + (δ x + Dsum δ rest)
    ext <;> simp <;> ring

theorem foldl_sub_Dsum {α : Type _} (δ : α → RegisterDemand) (l : List α)
    (init : RegisterDemand) :
    l.foldl (fun c x => c - δ x) init = init - Dsum δ l := by
  induction l generalizing init with
  | nil =>
    show init = init - Dsum δ []
    show init = init - ({} : RegisterDemand)
    ext <;> simp
  | cons x rest ih =>
    show rest.foldl _ (init - δ x) = _
    rw [ih]
    show init - δ x - Dsum δ rest = init - (δ x + Dsum δ rest)
    ext <;> simp <;> ring

/-- A definition's contribution to `get_live_changes` (live writes). -/
def dLive (d : Definition) : RegisterDemand :=
  match d.temp with
  | none => {}
  | some t => if d.isKill then {} else tD t

/-- A definition's contribution to `get_temp_registers` (dead writes). -/
def dDead (d : Definition) : RegisterDemand :=
  match d.temp with
  | none => {}
  | some t => if d.isKill then tD t else {}

/-- An operand's contribution to `get_live_changes` (first kills). -/
def oFK (o : Operand) : RegisterDemand :=
  match o.temp with
  | none => {}
  | some t => if o.isFirstKill then tD t else {}

/-- An operand's contribution to `get_temp_registers` (late first kills). -/
def oLK (o : Operand) : RegisterDemand :=
  match o.temp with
  | none => {}
  | some t => if o.isLateKill && o.isFirstKill then tD t else {}

theorem get_live_changes_eq (insn : Instruction) :
    get_live_changes insn = Dsum dLive insn.definitions - Dsum oFK insn.operands := by
  unfold get_live_changes
  have h1 : insn.definitions.foldl
      (fun changes d =>
        match d.temp with
        | none => changes
        | some t => if d.isKill then changes else changes.addTemp t)
      ({} : RegisterDemand) =
      insn.definitions.foldl (fun c d => c + dLive d) ({} : RegisterDemand) := by
    apply List.foldl_ext
    intro c d _
    cases hd : d.temp with
    | none =>
      show c = c + dLive d
      simp only [dLive, hd]
      ext <;> simp
    | some t =>
      by_cases hk : d.isKill
      · simp only [dLive, hd, if_pos hk]
        ext <;> simp
      · simp only [dLive, hd, if_neg hk]
        exact addTemp_eq_add c t
  have h2 : ∀ init : RegisterDemand, insn.operands.foldl
      (fun changes o =>
        match o.temp with
        | none => changes
        | some t => if o.isFirstKill then changes.subTemp t else changes)
      init =
      insn.operands.foldl (fun c o => c - oFK o) init := by
    intro init
    apply List.foldl_ext
    intro c o _
    cases ho : o.temp with
    | none =>
      show c = c - oFK o
      simp only [oFK, ho]
      ext <;> simp
    | some t =>
      by_cases hk : o.isFirstKill
      · simp only [oFK, ho, if_pos hk]
        exact subTemp_eq_sub c t
      · simp only [oFK, ho, if_neg hk]
        ext <;> simp
  rw [h1, h2, foldl_add_Dsum, foldl_sub_Dsum]
  ext <;> simp

theorem get_temp_registers_eq (insn : Instruction) :
    get_temp_registers insn = Dsum dDead insn.definitions + Dsum oLK insn.operands := by
  unfold get_temp_registers
  have h1 : insn.definitions.foldl
      (fun acc d =>
        match d.temp with
        | none => acc
        | some t => if d.isKill then acc.addTemp t else acc)
      ({} : RegisterDemand) =
      insn.definitions.foldl (fun c d => c + dDead d) ({} : RegisterDemand) := by
    apply List.foldl_ext
    intro c d _
    cases hd : d.temp with
    | none =>
      show c = c + dDead d
      simp only [dDead, hd]
      ext <;> simp
    | some t =>
      by_cases hk : d.isKill
      · simp only [dDead, hd, if_pos hk]
        exact addTemp_eq_add c t
      · simp only [dDead, hd, if_neg hk]
        ext <;> simp
  have h2 : ∀ init : RegisterDemand, insn.operands.foldl
      (fun acc o =>
        match o.temp with
        | none => acc
        | some t => if o.isLateKill && o.isFirstKill then acc.addTemp t else acc)
      init =
      insn.operands.foldl (fun c o => c + oLK o) init := by
    intro init
    apply List.foldl_ext
    intro c o _
    cases ho : o.temp with
    | none =>
      show c = c + oLK o
      simp only [oLK, ho]
      ext <;> simp
    | some t =>
      by_cases hk : o.isLateKill && o.isFirstKill
      · simp only [oLK, ho, if_pos hk]
        exact addTemp_eq_add c t
      · simp only [oLK, ho, if_neg hk]
        ext <;> simp
  rw [h1, h2, foldl_add_Dsum, foldl_add_Dsum]
  ext <;> simp

@[simp] theorem defSetKill_temp (d : Definition) (b : Bool) :
    (Definition.setKill d b).temp = d.temp := rfl

@[simp] theorem defSetKill_isKill (d : Definition) (b : Bool) :
    (Definition.setKill d b).isKill = b := rfl

@[simp] theorem setFirstKill_fk (o : Operand) (b : Bool) :
    (o.setFirstKill b).firstKill = b := by
  unfold Operand.setFirstKill
  cases b <;> rfl

/-- The KILL pass consumes exactly the live-write demand it records in
the output flags. -/
theorem killDefs_demand_eq (defs : List Definition) (lv : Finset Nat)
    (dem : RegisterDemand) :
    (killDefs defs lv dem).demand + Dsum dLive (killDefs defs lv dem).defs = dem := by
  induction defs generalizing lv dem with
  | nil =>
    show dem + Dsum dLive [] = dem
    show dem + ({} : RegisterDemand) = dem
    ext <;> simp
  | cons d rest ih =>
    cases hd : d.temp with
    | none =>
      simp only [killDefs, hd]
      show (killDefs rest lv dem).demand +
        (dLive d + Dsum dLive (killDefs rest lv dem).defs) = dem
      have hz : dLive d = {} := by simp only [dLive, hd]
      have h := ih lv dem
      have hv := congrArg RegisterDemand.vgpr h
      have hs := congrArg RegisterDemand.sgpr h
      simp only [add_vgpr, add_sgpr] at hv hs
      rw [hz]
      ext <;> simp <;> omega
    | some t =>
      by_cases hmem : t.id ∈ lv
      · simp only [killDefs, hd, if_pos hmem]
        show (killDefs rest (lv.erase t.id) (dem.subTemp t)).demand +
          (dLive (d.setKill false) +
            Dsum dLive (killDefs rest (lv.erase t.id) (dem.subTemp t)).defs) = dem
        have hval : dLive (d.setKill false) = tD t := by
          simp only [dLive, defSetKill_temp, hd, defSetKill_isKill]
          rfl
        have h := ih (lv.erase t.id) (dem.subTemp t)
        have hv := congrArg RegisterDemand.vgpr h
        have hs := congrArg RegisterDemand.sgpr h
        simp only [add_vgpr, add_sgpr, subTemp_vgpr, subTemp_sgpr] at hv hs
        rw [hval]
        ext <;> simp [tD] <;> omega
      · simp only [killDefs, hd, if_neg hmem]
        show (killDefs rest lv dem).demand +
          (dLive (d.setKill true) + Dsum dLive (killDefs rest lv dem).defs) = dem
        have hval : dLive (d.setKill true) = {} := by
          simp only [dLive, defSetKill_temp, hd, defSetKill_isKill]
          rfl
        have h := ih lv dem
        have hv := congrArg RegisterDemand.vgpr h
        have hs := congrArg RegisterDemand.sgpr h
        simp only [add_vgpr, add_sgpr] at hv hs
        rw [hval]
        ext <;> simp <;> omega

/-- The KILL pass's transient charge is exactly the dead-write demand it
records in the output flags. -/
theorem killDefs_snapAdd_eq (defs : List Definition) (lv : Finset Nat)
    (dem : RegisterDemand) :
    (killDefs defs lv dem).snapAdd = Dsum dDead (killDefs defs lv dem).defs := by
  induction defs generalizing lv dem with
  | nil => rfl
  | cons d rest ih =>
    cases hd : d.temp with
    | none =>
      simp only [killDefs, hd]
      show (killDefs rest lv dem).snapAdd =
        dDead d + Dsum dDead (killDefs rest lv dem).defs
      have hz : dDead d = {} := by simp only [dDead, hd]
      rw [hz, ih lv dem]
      ext <;> simp
    | some t =>
      by_cases hmem : t.id ∈ lv
      · simp only [killDefs, hd, if_pos hmem]
        show (killDefs rest (lv.erase t.id) (dem.subTemp t)).snapAdd =
          dDead (d.setKill false) +
            Dsum dDead (killDefs rest (lv.erase t.id) (dem.subTemp t)).defs
        have hval : dDead (d.setKill false) = {} := by
          simp only [dDead, defSetKill_temp, hd, defSetKill_isKill]
          rfl
        rw [hval, ih]
        ext <;> simp
      · simp only [killDefs, hd, if_neg hmem]
        show ((killDefs rest lv dem).snapAdd).addTemp t =
          dDead (d.setKill true) + Dsum dDead (killDefs rest lv dem).defs
        have hval : dDead (d.setKill true) = tD t := by
          simp only [dDead, defSetKill_temp, hd, defSetKill_isKill]
          rfl
        rw [hval, ih]
        ext <;> simp [tD] <;> ring

theorem markLaterKills_fk (u : Nat) (ops : List Operand)
    (h : ∀ o ∈ ops, o.firstKill = false) :
    ∀ o' ∈ markLaterKills u ops, o'.firstKill = false := by
  intro o' ho'
  simp only [markLaterKills, List.mem_map] at ho'
  obtain ⟨o, ho, he⟩ := ho'
  by_cases ht : o.tid = some u
  · rw [if_pos ht] at he
    rw [← he, mark_eq]
  · rw [if_neg ht] at he
    rw [← he]
    exact h o ho

theorem cleared_fk (ops : List Operand) :
    ∀ o ∈ ops.map (fun o => o.setKill false), o.firstKill = false := by
  intro o ho
  simp only [List.mem_map] at ho
  obtain ⟨o0, _, he⟩ := ho
  rw [← he]
  rfl

/-- The GEN pass adds exactly the first-kill demand it records in the
output flags (given flag-clean input, as after the clearing pass). -/
theorem genOps_demand_eq (ops : List Operand) (lv : Finset Nat) (dem : RegisterDemand)
    (hfk : ∀ o ∈ ops, o.firstKill = false) :
    (genOps ops lv dem).demand = dem + Dsum oFK (genOps ops lv dem).ops := by
  induction ops, lv, dem using genOps.induct with
  | case1 lv dem =>
    simp only [genOps]
    show dem = dem + Dsum oFK []
    show dem = dem + ({} : RegisterDemand)
    ext <;> simp
  | case2 o0 rest lv dem ho0 ih =>
    simp only [genOps, ho0]
    show (genOps rest lv dem).demand = dem + (oFK o0 + Dsum oFK (genOps rest lv dem).ops)
    have hz : oFK o0 = {} := by simp only [oFK, ho0]
    have h := ih (fun o ho => hfk o (List.mem_cons_of_mem _ ho))
    have hv := congrArg RegisterDemand.vgpr h
    have hs := congrArg RegisterDemand.sgpr h
    simp only [add_vgpr, add_sgpr] at hv hs
    rw [hz]
    ext <;> simp <;> omega
  | case3 o0 rest lv dem t0 ho0 hmem ih =>
    simp only [genOps, ho0, if_pos hmem]
    show (genOps rest lv dem).demand = dem + (oFK o0 + Dsum oFK (genOps rest lv dem).ops)
    have hz : oFK o0 = {} := by
      simp only [oFK, ho0, Operand.isFirstKill, hfk o0 (List.mem_cons_self _ _)]
      rfl
    have h := ih (fun o ho => hfk o (List.mem_cons_of_mem _ ho))
    have hv := congrArg RegisterDemand.vgpr h
    have hs := congrArg RegisterDemand.sgpr h
    simp only [add_vgpr, add_sgpr] at hv hs
    rw [hz]
    ext <;> simp <;> omega
  | case4 o0 rest lv dem t0 ho0 hmem ih =>
    simp only [genOps, ho0, if_neg hmem]
    show (genOps (markLaterKills t0.id rest) (insert t0.id lv) (dem.addTemp t0)).demand =
      dem + (oFK (o0.setFirstKill true) +
        Dsum oFK (genOps (markLaterKills t0.id rest) (insert t0.id lv) (dem.addTemp t0)).ops)
    have hval : oFK (o0.setFirstKill true) = tD t0 := by
      simp only [oFK, setFirstKill_temp, ho0, Operand.isFirstKill, setFirstKill_fk]
      rfl
    have h := ih (markLaterKills_fk t0.id rest
      (fun o ho => hfk o (List.mem_cons_of_mem _ ho)))
    have hv := congrArg RegisterDemand.vgpr h
    have hs := congrArg RegisterDemand.sgpr h
    simp only [add_vgpr, add_sgpr, addTemp_vgpr, addTemp_sgpr] at hv hs
    rw [hval]
    ext <;> simp [tD] <;> omega

/-- The GEN pass's transient charge is exactly the late-first-kill demand
it records in the output flags (given flag-clean input). -/
theorem genOps_snapAdd_eq (ops : List Operand) (lv : Finset Nat) (dem : RegisterDemand)
    (hfk : ∀ o ∈ ops, o.firstKill = false) :
    (genOps ops lv dem).snapAdd = Dsum oLK (genOps ops lv dem).ops := by
  induction ops, lv, dem using genOps.induct with
  | case1 lv dem =>
    simp only [genOps]
    rfl
  | case2 o0 rest lv dem ho0 ih =>
    simp only [genOps, ho0]
    show (genOps rest lv dem).snapAdd = oLK o0 + Dsum oLK (genOps rest lv dem).ops
    have hz : oLK o0 = {} := by simp only [oLK, ho0]
    rw [hz, ih (fun o ho => hfk o (List.mem_cons_of_mem _ ho))]
    ext <;> simp
  | case3 o0 rest lv dem t0 ho0 hmem ih =>
    simp only [genOps, ho0, if_pos hmem]
    show (genOps rest lv dem).snapAdd = oLK o0 + Dsum oLK (genOps rest lv dem).ops
    have hz : oLK o0 = {} := by
      simp only [oLK, ho0, Operand.isFirstKill, hfk o0 (List.mem_cons_self _ _),
        Bool.and_false]
      rfl
    rw [hz, ih (fun o ho => hfk o (List.mem_cons_of_mem _ ho))]
    ext <;> simp
  | case4 o0 rest lv dem t0 ho0 hmem ih =>
    simp only [genOps, ho0, if_neg hmem]
    show (if o0.isLateKill
        then ((genOps (markLaterKills t0.id rest) (insert t0.id lv)
          (dem.addTemp t0)).snapAdd).addTemp t0
        else (genOps (markLaterKills t0.id rest) (insert t0.id lv)
          (dem.addTemp t0)).snapAdd) =
      oLK (o0.setFirstKill true) +
        Dsum oLK (genOps (markLaterKills t0.id rest) (insert t0.id lv) (dem.addTemp t0)).ops
    have hrec := ih (markLaterKills_fk t0.id rest
      (fun o ho => hfk o (List.mem_cons_of_mem _ ho)))
    by_cases hlk : o0.isLateKill
    · have hval : oLK (o0.setFirstKill true) = tD t0 := by
        simp only [oLK, setFirstKill_temp, ho0, Operand.isLateKill, Operand.isFirstKill,
          setFirstKill_lateKill, setFirstKill_fk]
        simp only [Operand.isLateKill] at hlk
        rw [hlk]
        rfl
      rw [if_pos hlk, hval, hrec]
      ext <;> simp [tD] <;> ring
    · have hval : oLK (o0.setFirstKill true) = {} := by
        simp only [oLK, setFirstKill_temp, ho0, Operand.isLateKill, Operand.isFirstKill,
          setFirstKill_lateKill, setFirstKill_fk]
        simp only [Operand.isLateKill, Bool.not_eq_true] at hlk
        rw [hlk]
        rfl
      rw [if_neg hlk, hval, hrec]
      ext <;> simp

/-- The running demand after one scanned (non-`p_logical_end`)
instruction is the incoming demand minus the output's
`get_live_changes`. -/
theorem stepInstr_demand_eq (c : Nat) (insn : Instruction) (lv : Finset Nat)
    (dem : RegisterDemand) (hop : insn.opcode ≠ Opcode.p_logical_end) :
    (stepInstr c insn lv dem).demand =
      dem - get_live_changes (stepInstr c insn lv dem).insn := by
  simp only [stepInstr, if_neg hop, genOpsF_len]
  rw [get_live_changes_eq]
  show (genOps (insn.operands.map fun o => o.setKill false)
      (killDefs insn.definitions lv dem).live
      (killDefs insn.definitions lv dem).demand).demand =
    dem - (Dsum dLive (killDefs insn.definitions lv dem).defs -
      Dsum oFK (genOps (insn.operands.map fun o => o.setKill false)
        (killDefs insn.definitions lv dem).live
        (killDefs insn.definitions lv dem).demand).ops)
  have hG := genOps_demand_eq (insn.operands.map fun o => o.setKill false)
    (killDefs insn.definitions lv dem).live (killDefs insn.definitions lv dem).demand
    (cleared_fk insn.operands)
  have hK := killDefs_demand_eq insn.definitions lv dem
  have hGv := congrArg RegisterDemand.vgpr hG
  have hGs := congrArg RegisterDemand.sgpr hG
  have hKv := congrArg RegisterDemand.vgpr hK
  have hKs := congrArg RegisterDemand.sgpr hK
  simp only [add_vgpr, add_sgpr] at hGv hGs hKv hKs
  ext <;> simp <;> omega

/-- The snapshot of one scanned (non-`p_logical_end`) instruction is the
incoming demand plus the output's `get_temp_registers`. -/
theorem stepInstr_snap_eq (c : Nat) (insn : Instruction) (lv : Finset Nat)
    (dem : RegisterDemand) (hop : insn.opcode ≠ Opcode.p_logical_end) :
    (stepInstr c insn lv dem).snap =
      dem + get_temp_registers (stepInstr c insn lv dem).insn := by
  simp only [stepInstr, if_neg hop, genOpsF_len]
  rw [get_temp_registers_eq]
  show dem + (killDefs insn.definitions lv dem).snapAdd +
      (genOps (insn.operands.map fun o => o.setKill false)
        (killDefs insn.definitions lv dem).live
        (killDefs insn.definitions lv dem).demand).snapAdd =
    dem + (Dsum dDead (killDefs insn.definitions lv dem).defs +
      Dsum oLK (genOps (insn.operands.map fun o => o.setKill false)
        (killDefs insn.definitions lv dem).live
        (killDefs insn.definitions lv dem).demand).ops)
  rw [killDefs_snapAdd_eq, genOps_snapAdd_eq _ _ _ (cleared_fk insn.operands)]
  ext <;> simp <;> ring

/-- Round trip across two chained scan steps: the earlier instruction's
snapshot is `get_demand_before` of the later one's. -/
theorem stepInstr_roundtrip (c : Nat) (insn insn' : Instruction) (lv : Finset Nat)
    (dem : RegisterDemand) (hop1 : insn.opcode ≠ Opcode.p_logical_end)
    (hop2 : insn'.opcode ≠ Opcode.p_logical_end) :
    (stepInstr c insn (stepInstr c insn' lv dem).live (stepInstr c insn' lv dem).demand).snap =
      get_demand_before (stepInstr c insn' lv dem).snap (stepInstr c insn' lv dem).insn
        (some ((stepInstr c insn (stepInstr c insn' lv dem).live
          (stepInstr c insn' lv dem).demand).insn)) := by
  have h1 := stepInstr_snap_eq c insn' lv dem hop2
  have h2 := stepInstr_demand_eq c insn' lv dem hop2
  have h3 := stepInstr_snap_eq c insn (stepInstr c insn' lv dem).live
    (stepInstr c insn' lv dem).demand hop1
  simp only [get_demand_before]
  have h1v := congrArg RegisterDemand.vgpr h1
  have h1s := congrArg RegisterDemand.sgpr h1
  have h2v := congrArg RegisterDemand.vgpr h2
  have h2s := congrArg RegisterDemand.sgpr h2
  have h3v := congrArg RegisterDemand.vgpr h3
  have h3s := congrArg RegisterDemand.sgpr h3
  simp only [add_vgpr, add_sgpr, sub_vgpr, sub_sgpr] at h1v h1s h2v h2s h3v h3s
  ext <;> simp <;> omega

/-- Adjacent snapshots of the backward scan satisfy the
`get_demand_before` round trip. -/
theorem scanRev_adjacent (c : Nat) (l : List Instruction) (lv : Finset Nat)
    (dem : RegisterDemand) (i : Nat) (insn insn' : Instruction)
    (h1 : l.get? i = some insn) (h2 : l.get? (i + 1) = some insn')
    (hop1 : insn.opcode ≠ Opcode.p_logical_end)
    (hop2 : insn'.opcode ≠ Opcode.p_logical_end) :
    ∃ out out' snap snap',
      (scanRev c l lv dem).insns.get? i = some out ∧
      (scanRev c l lv dem).insns.get? (i + 1) = some out' ∧
      (scanRev c l lv dem).snaps.get? i = some snap ∧
      (scanRev c l lv dem).snaps.get? (i + 1) = some snap' ∧
      snap = get_demand_before snap' out' (some out) := by
  induction l generalizing i with
  | nil => simp at h1
  | cons insn0 rest ih =>
    cases i with
    | zero =>
      simp only [List.get?] at h1 h2
      injection h1 with he
      subst he
      cases rest with
      | nil => simp at h2
      | cons insn1 rest2 =>
        simp only [List.get?] at h2
        injection h2 with he'
        subst he'
        refine ⟨_, _, _, _, rfl, rfl, rfl, rfl, ?_⟩
        exact stepInstr_roundtrip c insn0 insn1 (scanRev c rest2 lv dem).live
          (scanRev c rest2 lv dem).demand hop1 hop2
    | succ j =>
      simp only [List.get?] at h1 h2
      obtain ⟨out, out', snap, snap', ho, ho', hs, hs', hid⟩ := ih j h1 h2
      exact ⟨out, out', snap, snap', ho, ho', hs, hs', hid⟩

/-- C2 (amended).  For two consecutive instructions of the scanned
(post-phi) region, neither of them the `p_logical_end` marker, the
recorded snapshot of the earlier one equals `get_demand_before` applied
to the later one's snapshot and the two output instructions — i.e. the
recorded snapshots round-trip through `get_live_changes` *and* the
`get_temp_registers` transient corrections, not through
`get_live_changes` alone. -/
theorem process_block_demand_roundtrip (rcOf : Nat → RegClass) (beforeRA : Bool)
    (blk : Block) (lv : live) (wl : Finset Nat) (phiC : List Nat) (i : Nat)
    (insn insn' : Instruction)
    (h1 : (scanRegion blk.instructions).get? i = some insn)
    (h2 : (scanRegion blk.instructions).get? (i + 1) = some insn')
    (hop1 : insn.opcode ≠ Opcode.p_logical_end)
    (hop2 : insn'.opcode ≠ Opcode.p_logical_end)
    (hidx : blk.index < lv.register_demand.length) :
    ∃ out out' snap snap',
      (process_live_temps_per_block rcOf beforeRA blk lv wl phiC).blk.instructions.get?
        ((phiRegion blk.instructions).length + i) = some out ∧
      (process_live_temps_per_block rcOf beforeRA blk lv wl phiC).blk.instructions.get?
        ((phiRegion blk.instructions).length + (i + 1)) = some out' ∧
      ((process_live_temps_per_block rcOf beforeRA blk lv wl
        phiC).lv.register_demand.getD blk.index []).get?
        ((phiRegion blk.instructions).length + i) = some snap ∧
      ((process_live_temps_per_block rcOf beforeRA blk lv wl
        phiC).lv.register_demand.getD blk.index []).get?
        ((phiRegion blk.instructions).length + (i + 1)) = some snap' ∧
      snap = get_demand_before snap' out' (some out) := by
  simp only [process_live_temps_per_block]
  rw [get?_append_skip _ _ _ i (by rw [phiOpsPhase_length, phiDefs_length]),
      get?_append_skip _ _ _ (i + 1) (by rw [phiOpsPhase_length, phiDefs_length]),
      getD_set_self _ _ _ _ hidx,
      get?_append_skip _ _ _ i (by rw [List.length_map]),
      get?_append_skip _ _ _ (i + 1) (by rw [List.length_map])]
  exact scanRev_adjacent _ _ _ _ i insn insn' h1 h2 hop1 hop2

/-- A write of temp 1 with no reads. -/
def insnDefC2 : Instruction :=
  { opcode := Opcode.other, operands := [], definitions := [{ temp := some ⟨1, rc1⟩ }] }

/-- A read of temp 1 with no writes. -/
def insnReadC2 : Instruction :=
  { opcode := Opcode.other, operands := [op1], definitions := [] }

/-- A block writing temp 1 and then reading it. -/
def blkC2 : Block :=
  { index := 0, instructions := [insnDefC2, insnReadC2],
    logical_preds := [], linear_preds := [] }

/-- Closed instantiation of C2's amended theorem on `blkC2`. -/
theorem process_block_demand_roundtrip_witness :
    ∃ out out' snap snap',
      (process_live_temps_per_block (fun _ => rc1) true blkC2 lv1 ∅ [0]).blk.instructions.get?
        ((phiRegion blkC2.instructions).length + 0) = some out ∧
      (process_live_temps_per_block (fun _ => rc1) true blkC2 lv1 ∅ [0]).blk.instructions.get?
        ((phiRegion blkC2.instructions).length + (0 + 1)) = some out' ∧
      ((process_live_temps_per_block (fun _ => rc1) true blkC2 lv1 ∅
        [0]).lv.register_demand.getD blkC2.index []).get?
        ((phiRegion blkC2.instructions).length + 0) = some snap ∧
      ((process_live_temps_per_block (fun _ => rc1) true blkC2 lv1 ∅
        [0]).lv.register_demand.getD blkC2.index []).get?
        ((phiRegion blkC2.instructions).length + (0 + 1)) = some snap' ∧
      snap = get_demand_before snap' out' (some out) :=
  process_block_demand_roundtrip (fun _ => rc1) true blkC2 lv1 ∅ [0] 0
    insnDefC2 insnReadC2 (by decide) (by decide) (by decide) (by decide) (by decide)

/-- The one-block program around `blkC2`. -/
def pC2 : Program :=
  { blocks := [blkC2], temp_rc := fun _ => rc1,
    dev := progW.dev, config := progW.config,
    chip_class := 9, wave_size := 64, workgroup_size := UINT_MAX,
    wgp_mode := false, needs_flat_scr := false, min_waves := 1 }

/-- The read of temp 1 as the analysis returns it (first kill marked). -/
def outReadC2 : Instruction :=
  { opcode := Opcode.other, operands := [{ op1 with kill := true, firstKill := true }],
    definitions := [] }

/-- C2 counterexample: on `pC2` (write temp 1, then read it) the recorded
snapshots are `[⟨0,1⟩, ⟨0,0⟩]` and `get_live_changes` of the first output
instruction is `⟨0,1⟩`: the recorded snapshot before the write plus the
write's `get_live_changes` is `⟨0,2⟩`, not the snapshot recorded for the
following instruction — the claimed identity fails without the
`get_temp_registers` corrections, even with no transient pressure. -/
theorem live_var_analysis_snapshot_delta_counterexample :
    (liveVarAnalysisState pC2).lv.register_demand =
      [[{ vgpr := 0, sgpr := 1 }, { vgpr := 0, sgpr := 0 }]] ∧
    (liveVarAnalysisState pC2).program.blocks.map Block.instructions =
      [[insnDefC2, outReadC2]] ∧
    get_live_changes insnDefC2 = { vgpr := 0, sgpr := 1 } ∧
    ¬(({ vgpr := 0, sgpr := 1 } : RegisterDemand) + get_live_changes insnDefC2 =
      ({ vgpr := 0, sgpr := 0 } : RegisterDemand)) := by
  decide

/- ## Temp-id bookkeeping (towards the termination bound, C9) -/

/-- The temp ids mentioned by a list of instructions. -/
def listTempIds (l : List Instruction) : Finset Nat :=
  l.foldr (fun i acc => instrTempIds i ∪ acc) ∅

theorem instrTempIds_eq (i : Instruction) :
    instrTempIds i = opIds i.operands ∪ defIds i.definitions := rfl

theorem blockTempIds_eq (b : Block) : blockTempIds b = listTempIds b.instructions := rfl

@[simp] theorem listTempIds_nil : listTempIds [] = ∅ := rfl

theorem listTempIds_cons (i : Instruction) (l : List Instruction) :
    listTempIds (i :: l) = instrTempIds i ∪ listTempIds l := rfl

theorem listTempIds_append (a b : List Instruction) :
    listTempIds (a ++ b) = listTempIds a ∪ listTempIds b := by
  induction a with
  | nil => simp
  | cons i rest ih =>
    simp only [List.cons_append, listTempIds_cons, ih, Finset.union_assoc]

theorem mem_opIds (ops : List Operand) (x : Nat) :
    x ∈ opIds ops ↔ ∃ o ∈ ops, ∃ t, o.temp = some t ∧ t.id = x := by
  induction ops with
  | nil => simp [opIds]
  | cons o rest ih =>
    rw [opIds_cons]
    cases ho : o.temp with
    | none =>
      rw [ih]
      constructor
      · rintro ⟨o', ho', t, ht, hx⟩
        exact ⟨o', List.mem_cons_of_mem _ ho', t, ht, hx⟩
      · rintro ⟨o', ho', t, ht, hx⟩
        rcases List.mem_cons.mp ho' with he | hm
        · rw [he] at ht
          rw [ho] at ht
          cases ht
        · exact ⟨o', hm, t, ht, hx⟩
    | some t0 =>
      rw [Finset.mem_insert, ih]
      constructor
      · rintro (he | ⟨o', ho', t, ht, hx⟩)
        · exact ⟨o, List.mem_cons_self _ _, t0, ho, he.symm⟩
        · exact ⟨o', List.mem_cons_of_mem _ ho', t, ht, hx⟩
      · rintro ⟨o', ho', t, ht, hx⟩
        rcases List.mem_cons.mp ho' with he | hm
        · rw [he, ho] at ht
          injection ht with ht'
          exact Or.inl (by rw [← hx, ← ht'])
        · exact Or.inr ⟨o', hm, t, ht, hx⟩

theorem opIds_subset_of_mem (ops' ops : List Operand)
    (h : ∀ o ∈ ops', o ∈ ops) : opIds ops' ⊆ opIds ops := by
  intro x hx
  rw [mem_opIds] at hx ⊢
  obtain ⟨o, ho, t, ht, hx'⟩ := hx
  exact ⟨o, h o ho, t, ht, hx'⟩

/- ### The per-block step only mentions the block's own temp ids -/

theorem killDefs_defIds (defs : List Definition) (lv : Finset Nat)
    (dem : RegisterDemand) : defIds (killDefs defs lv dem).defs = defIds defs := by
  induction defs generalizing lv dem with
  | nil => rfl
  | cons d rest ih =>
    cases hd : d.temp with
    | none =>
      simp only [killDefs, hd]
      rw [defIds_cons, defIds_cons, hd]
      show defIds (killDefs rest lv dem).defs = _
      rw [ih]
    | some t =>
      by_cases hmem : t.id ∈ lv
      · simp only [killDefs, hd, if_pos hmem]
        rw [defIds_cons, defIds_cons, defSetKill_temp, hd, ih]
      · simp only [killDefs, hd, if_neg hmem]
        rw [defIds_cons, defIds_cons, defSetKill_temp, hd, ih]

theorem genOps_opIds (ops : List Operand) (lv : Finset Nat) (dem : RegisterDemand) :
    opIds (genOps ops lv dem).ops = opIds ops := by
  induction ops, lv, dem using genOps.induct with
  | case1 lv dem => simp only [genOps]
  | case2 o0 rest lv dem ho0 ih =>
    simp only [genOps, ho0]
    show opIds (o0 :: (genOps rest lv dem).ops) = _
    rw [opIds_cons, opIds_cons, ho0, ih]
  | case3 o0 rest lv dem t0 ho0 hmem ih =>
    simp only [genOps, ho0, if_pos hmem]
    show opIds (o0 :: (genOps rest lv dem).ops) = _
    rw [opIds_cons, opIds_cons, ho0, ih]
  | case4 o0 rest lv dem t0 ho0 hmem ih =>
    simp only [genOps, ho0, if_neg hmem]
    show opIds (o0.setFirstKill true ::
      (genOps (markLaterKills t0.id rest) (insert t0.id lv) (dem.addTemp t0)).ops) = _
    rw [opIds_cons, opIds_cons, setFirstKill_temp, ho0, ih, markLaterKills_opIds]

theorem stepInstr_tempIds (c : Nat) (insn : Instruction) (lv : Finset Nat)
    (dem : RegisterDemand) :
    instrTempIds (stepInstr c insn lv dem).insn = instrTempIds insn := by
  by_cases hop : insn.opcode = Opcode.p_logical_end
  · simp only [stepInstr, if_pos hop]
    show instrTempIds { insn with definitions := (killDefs insn.definitions lv dem).defs } = _
    rw [instrTempIds_eq, instrTempIds_eq]
    show opIds insn.operands ∪ defIds (killDefs insn.definitions lv dem).defs = _
    rw [killDefs_defIds]
  · simp only [stepInstr, if_neg hop, genOpsF_len]
    rw [instrTempIds_eq, instrTempIds_eq]
    show opIds (genOps (insn.operands.map fun o => o.setKill false)
        (killDefs insn.definitions lv dem).live
        (killDefs insn.definitions lv dem).demand).ops ∪
      defIds (killDefs insn.definitions lv dem).defs = _
    rw [genOps_opIds, killDefs_defIds,
        opIds_map_temp_eq (fun o => setKill_temp o false)]

theorem scanRev_tempIds (c : Nat) (l : List Instruction) (lv : Finset Nat)
    (dem : RegisterDemand) :
    listTempIds (scanRev c l lv dem).insns = listTempIds l := by
  induction l with
  | nil => rfl
  | cons insn rest ih =>
    simp only [scanRev]
    rw [listTempIds_cons, listTempIds_cons, stepInstr_tempIds, ih]

theorem phiDefs_tempIds (l : List Instruction) (lv : Finset Nat) :
    listTempIds (phiDefs l lv).insns = listTempIds l := by
  induction l with
  | nil => rfl
  | cons insn rest ih =>
    cases hd : insn.definitions with
    | nil =>
      simp only [phiDefs, hd]
      rw [listTempIds_cons, listTempIds_cons, ih]
    | cons d tail =>
      cases tail with
      | nil =>
        cases hdt : d.temp with
        | none =>
          simp only [phiDefs, hd, hdt]
          rw [listTempIds_cons, listTempIds_cons, ih]
        | some t =>
          by_cases hmem : t.id ∈ (phiDefs rest lv).live
          · simp only [phiDefs, hd, hdt, if_pos hmem]
            rw [listTempIds_cons, listTempIds_cons, ih, instrTempIds_eq, instrTempIds_eq]
            show opIds insn.operands ∪ defIds [d.setKill false] ∪ _ = _
            rw [show defIds [d.setKill false] = defIds insn.definitions by
              rw [hd, defIds_cons, defIds_cons, defSetKill_temp]]
          · simp only [phiDefs, hd, hdt, if_neg hmem]
            rw [listTempIds_cons, listTempIds_cons, ih, instrTempIds_eq, instrTempIds_eq]
            show opIds insn.operands ∪ defIds [d.setKill true] ∪ _ = _
            rw [show defIds [d.setKill true] = defIds insn.definitions by
              rw [hd, defIds_cons, defIds_cons, defSetKill_temp]]
      | cons e tail2 =>
        simp only [phiDefs, hd]
        rw [listTempIds_cons, listTempIds_cons, ih]

theorem opIds_enumFrom_map (residual : Finset Nat) (n : Nat) (ops : List Operand) :
    ∀ k, opIds ((List.enumFrom k ops).map fun io =>
      match io.2.temp with
      | none => io.2
      | some t => if io.1 < n then io.2.setKill (!(decide (t.id ∈ residual))) else io.2) =
      opIds ops := by
  induction ops with
  | nil => intro k; rfl
  | cons o rest ih =>
    intro k
    show opIds ((match o.temp with
      | none => o
      | some t => if k < n then o.setKill (!(decide (t.id ∈ residual))) else o) ::
        (List.enumFrom (k + 1) rest).map (fun io =>
          match io.2.temp with
          | none => io.2
          | some t => if io.1 < n then io.2.setKill (!(decide (t.id ∈ residual))) else io.2)) =
      opIds (o :: rest)
    cases ho : o.temp with
    | none =>
      show opIds (o :: (List.enumFrom (k + 1) rest).map (fun io =>
        match io.2.temp with
        | none => io.2
        | some t => if io.1 < n then io.2.setKill (!(decide (t.id ∈ residual))) else io.2)) =
        opIds (o :: rest)
      rw [opIds_cons, opIds_cons, ho, ih (k + 1)]
    | some t =>
      show opIds ((if k < n then o.setKill (!(decide (t.id ∈ residual))) else o) ::
        (List.enumFrom (k + 1) rest).map (fun io =>
          match io.2.temp with
          | none => io.2
          | some t => if io.1 < n then io.2.setKill (!(decide (t.id ∈ residual))) else io.2)) =
        opIds (o :: rest)
      by_cases hk : k < n
      · rw [if_pos hk, opIds_cons, opIds_cons, setKill_temp, ho, ih (k + 1)]
      · rw [if_neg hk, opIds_cons, opIds_cons, ho, ih (k + 1)]

theorem phiOpFlags_opIds (residual : Finset Nat) (n : Nat) (ops : List Operand) :
    opIds (phiOpFlags residual n ops) = opIds ops := by
  unfold phiOpFlags
  exact opIds_enumFrom_map residual n ops 0

theorem phiOpsPhase_tempIds (residual : Finset Nat) (blk : Block)
    (l : List Instruction) (st : PushSt) :
    listTempIds (phiOpsPhase residual blk l st).insns = listTempIds l := by
  induction l generalizing st with
  | nil => rfl
  | cons insn rest ih =>
    simp only [phiOpsPhase]
    rw [listTempIds_cons, listTempIds_cons, ih, instrTempIds_eq, instrTempIds_eq]
    show opIds (phiOpFlags residual _ insn.operands) ∪ defIds insn.definitions ∪ _ = _
    rw [phiOpFlags_opIds]

theorem phiRegion_append_scanRegion (l : List Instruction) :
    phiRegion l ++ scanRegion l = l := by
  obtain ⟨t, ht⟩ := (List.takeWhile_prefix (fun i => !is_phi i) (l := l.reverse))
  have hl : l = t.reverse ++ scanRegion l := by
    have h2 := congrArg List.reverse ht
    rw [List.reverse_append] at h2
    rw [show scanRegion l = (l.reverse.takeWhile fun i => !is_phi i).reverse from rfl]
    rw [h2, List.reverse_reverse]
  have hlen2 : l.length = t.reverse.length + (scanRegion l).length := by
    conv_lhs => rw [hl]
    rw [List.length_append]
  have hlen : l.length - (scanRegion l).length = t.reverse.length := by omega
  have htake : l.take t.reverse.length = t.reverse := by
    conv_lhs => rw [hl]
    rw [List.take_left]
  show l.take (l.length - (scanRegion l).length) ++ scanRegion l = l
  rw [hlen, htake]
  exact hl.symm

theorem process_block_tempIds (rcOf : Nat → RegClass) (beforeRA : Bool) (blk : Block)
    (lv : live) (wl : Finset Nat) (phiC : List Nat) :
    blockTempIds (process_live_temps_per_block rcOf beforeRA blk lv wl phiC).blk =
      blockTempIds blk := by
  simp only [process_live_temps_per_block]
  rw [blockTempIds_eq, blockTempIds_eq]
  show listTempIds (_ ++ _) = _
  rw [listTempIds_append, phiOpsPhase_tempIds, phiDefs_tempIds, scanRev_tempIds,
      ← listTempIds_append, phiRegion_append_scanRegion]

/- ## The worklist potential (C9) -/

theorem scanLive_subset (l : List Instruction) (S : Finset Nat) :
    scanLive l S ⊆ S ∪ listTempIds l := by
  induction l with
  | nil =>
    intro x hx
    exact Finset.mem_union_left _ hx
  | cons insn rest ih =>
    show stepLive insn (scanLive rest S) ⊆ _
    intro x hx
    unfold stepLive at hx
    rw [listTempIds_cons]
    by_cases hop : insn.opcode = Opcode.p_logical_end
    · rw [if_pos hop] at hx
      have hx2 := Finset.mem_sdiff.mp hx
      rcases Finset.mem_union.mp (ih hx2.1) with h | h
      · exact Finset.mem_union_left _ h
      · exact Finset.mem_union_right _ (Finset.mem_union_right _ h)
    · rw [if_neg hop] at hx
      rcases Finset.mem_union.mp hx with h | h
      · have hx2 := Finset.mem_sdiff.mp h
        rcases Finset.mem_union.mp (ih hx2.1) with h2 | h2
        · exact Finset.mem_union_left _ h2
        · exact Finset.mem_union_right _ (Finset.mem_union_right _ h2)
      · have hti : x ∈ instrTempIds insn := by
          rw [instrTempIds_eq]
          exact Finset.mem_union_left _ h
        exact Finset.mem_union_right _ (Finset.mem_union_left _ hti)

theorem phiPushSet_subset (pairs : List (Nat × Operand)) (q : Nat) :
    phiPushSet pairs q ⊆ opIds (pairs.map Prod.snd) := by
  induction pairs with
  | nil =>
    intro x hx
    simp [phiPushSet] at hx
  | cons po rest ih =>
    obtain ⟨pr, o⟩ := po
    show (match o.temp with
      | none => phiPushSet rest q
      | some t => if pr = q then insert t.id (phiPushSet rest q) else phiPushSet rest q) ⊆
      opIds (o :: rest.map Prod.snd)
    cases ho : o.temp with
    | none =>
      show phiPushSet rest q ⊆ opIds (o :: rest.map Prod.snd)
      rw [opIds_cons, ho]
      exact ih
    | some t =>
      show (if pr = q then insert t.id (phiPushSet rest q) else phiPushSet rest q) ⊆
        opIds (o :: rest.map Prod.snd)
      rw [opIds_cons, ho]
      by_cases hpq : pr = q
      · rw [if_pos hpq]
        exact Finset.insert_subset_insert _ ih
      · rw [if_neg hpq]
        exact ih.trans (Finset.subset_insert _ _)

theorem phiPhaseSet_subset (blk : Block) (l : List Instruction) (q : Nat) :
    phiPhaseSet blk l q ⊆ listTempIds l := by
  induction l with
  | nil =>
    intro x hx
    simp [phiPhaseSet] at hx
  | cons insn rest ih =>
    show phiPhaseSet blk rest q ∪ phiPushSet _ q ⊆ _
    rw [listTempIds_cons]
    apply Finset.union_subset
    · exact ih.trans Finset.subset_union_right
    · refine (phiPushSet_subset _ _).trans ((opIds_subset_of_mem _ insn.operands ?_).trans ?_)
      · intro o ho
        simp only [List.mem_map] at ho
        obtain ⟨po, hpo, he⟩ := ho
        rw [← he]
        exact (List.of_mem_zip hpo).2
      · intro x hx
        apply Finset.mem_union_left
        rw [instrTempIds_eq]
        exact Finset.mem_union_left _ hx

/-- Total size of the stored live-out sets. -/
def liveMass (lvo : List (Finset Nat)) : Nat := (lvo.map Finset.card).sum

theorem liveMass_cons (S : Finset Nat) (rest : List (Finset Nat)) :
    liveMass (S :: rest) = S.card + liveMass rest := by
  simp [liveMass]

theorem liveMass_set (lvo : List (Finset Nat)) (i : Nat) (X : Finset Nat)
    (h : i < lvo.length) :
    liveMass (lvo.set i X) + (lvo.getD i ∅).card = liveMass lvo + X.card := by
  induction lvo generalizing i with
  | nil => simp at h
  | cons S rest ih =>
    cases i with
    | zero =>
      show liveMass (X :: rest) + S.card = liveMass (S :: rest) + X.card
      rw [liveMass_cons, liveMass_cons]
      omega
    | succ j =>
      show liveMass (S :: rest.set j X) + (rest.getD j ∅).card = _
      rw [liveMass_cons, liveMass_cons]
      have := ih j (by simpa using h)
      omega

theorem pushLive_mass (lvo : List (Finset Nat)) (wl : Finset Nat) (pred t : Nat) :
    (pushLive lvo wl pred t).2.1.card + liveMass lvo ≤
      wl.card + liveMass (pushLive lvo wl pred t).1 := by
  by_cases hp : pred < lvo.length
  · by_cases ht : t ∈ lvo.getD pred ∅
    · simp only [pushLive, if_pos hp, if_pos ht]
      exact Nat.le_refl _
    · simp only [pushLive, if_pos hp, if_neg ht]
      have h1 := Finset.card_insert_le pred wl
      have h2 := liveMass_set lvo pred (insert t (lvo.getD pred ∅)) hp
      have h3 : (insert t (lvo.getD pred ∅)).card = (lvo.getD pred ∅).card + 1 :=
        Finset.card_insert_of_not_mem ht
      omega
  · simp only [pushLive, if_neg hp]
    exact Nat.le_refl _

theorem pushAll_mass (acts : List (Nat × Nat)) (lvo : List (Finset Nat)) (wl : Finset Nat) :
    (pushAll acts lvo wl).2.card + liveMass lvo ≤
      wl.card + liveMass (pushAll acts lvo wl).1 := by
  induction acts generalizing lvo wl with
  | nil => exact Nat.le_refl _
  | cons a rest ih =>
    obtain ⟨pr, u⟩ := a
    show (pushAll rest (pushLive lvo wl pr u).1 (pushLive lvo wl pr u).2.1).2.card +
        liveMass lvo ≤
      wl.card + liveMass (pushAll rest (pushLive lvo wl pr u).1 (pushLive lvo wl pr u).2.1).1
    have h1 := ih (pushLive lvo wl pr u).1 (pushLive lvo wl pr u).2.1
    have h2 := pushLive_mass lvo wl pr u
    omega

theorem phiOpPush_mass (b : Bool) (pairs : List (Nat × Operand)) (st : PushSt) :
    (phiOpPush b pairs st).worklist.card + liveMass st.live_out ≤
      st.worklist.card + liveMass (phiOpPush b pairs st).live_out := by
  induction pairs generalizing st with
  | nil => exact Nat.le_refl _
  | cons po rest ih =>
    obtain ⟨pr, o⟩ := po
    cases ho : o.temp with
    | none =>
      simp only [phiOpPush, ho]
      exact ih st
    | some t =>
      simp only [phiOpPush, ho]
      have h1 := ih ⟨(pushLive st.live_out st.worklist pr t.id).1,
        (pushLive st.live_out st.worklist pr t.id).2.1,
        (if (pushLive st.live_out st.worklist pr t.id).2.2 && b && (t.type == RegType.sgpr)
         then st.phiC.set pr (st.phiC.getD pr 0 + t.size)
         else st.phiC),
        st.needsVcc || (o.isFixed && o.physReg == vcc)⟩
      have h2 := pushLive_mass st.live_out st.worklist pr t.id
      dsimp only at h1
      omega

theorem phiOpsPhase_mass (residual : Finset Nat) (blk : Block) (l : List Instruction)
    (st : PushSt) :
    (phiOpsPhase residual blk l st).push.worklist.card + liveMass st.live_out ≤
      st.worklist.card + liveMass (phiOpsPhase residual blk l st).push.live_out := by
  induction l generalizing st with
  | nil => exact Nat.le_refl _
  | cons insn rest ih =>
    simp only [phiOpsPhase]
    have h1 := ih st
    have h2 := phiOpPush_mass (insn.opcode == Opcode.p_phi)
      ((if insn.opcode = Opcode.p_phi then blk.logical_preds else blk.linear_preds).zip
        insn.operands)
      (phiOpsPhase residual blk rest st).push
    omega

theorem process_block_mass (rcOf : Nat → RegClass) (beforeRA : Bool) (blk : Block)
    (lv : live) (wl : Finset Nat) (phiC : List Nat) :
    (process_live_temps_per_block rcOf beforeRA blk lv wl phiC).worklist.card +
        liveMass lv.live_out ≤
      wl.card +
        liveMass (process_live_temps_per_block rcOf beforeRA blk lv wl phiC).lv.live_out := by
  simp only [process_live_temps_per_block]
  have h1 := pushAll_mass
    (mergeActions rcOf blk
      (phiDefs (phiRegion blk.instructions)
        (scanRev (phiC.getD blk.index 0) (scanRegion blk.instructions)
          (lv.live_out.getD blk.index ∅)
          { demandOfSet rcOf (lv.live_out.getD blk.index ∅) with
            sgpr := (demandOfSet rcOf (lv.live_out.getD blk.index ∅)).sgpr -
              (phiC.getD blk.index 0 : Int) }).live).live)
    lv.live_out wl
  have h2 := phiOpsPhase_mass
    (phiDefs (phiRegion blk.instructions)
      (scanRev (phiC.getD blk.index 0) (scanRegion blk.instructions)
        (lv.live_out.getD blk.index ∅)
        { demandOfSet rcOf (lv.live_out.getD blk.index ∅) with
          sgpr := (demandOfSet rcOf (lv.live_out.getD blk.index ∅)).sgpr -
            (phiC.getD blk.index 0 : Int) }).live).live
    blk
    (phiDefs (phiRegion blk.instructions)
      (scanRev (phiC.getD blk.index 0) (scanRegion blk.instructions)
        (lv.live_out.getD blk.index ∅)
        { demandOfSet rcOf (lv.live_out.getD blk.index ∅) with
          sgpr := (demandOfSet rcOf (lv.live_out.getD blk.index ∅)).sgpr -
            (phiC.getD blk.index 0 : Int) }).live).insns
    ⟨(pushAll
        (mergeActions rcOf blk
          (phiDefs (phiRegion blk.instructions)
            (scanRev (phiC.getD blk.index 0) (scanRegion blk.instructions)
              (lv.live_out.getD blk.index ∅)
              { demandOfSet rcOf (lv.live_out.getD blk.index ∅) with
                sgpr := (demandOfSet rcOf (lv.live_out.getD blk.index ∅)).sgpr -
                  (phiC.getD blk.index 0 : Int) }).live).live)
        lv.live_out wl).1,
      (pushAll
        (mergeActions rcOf blk
          (phiDefs (phiRegion blk.instructions)
            (scanRev (phiC.getD blk.index 0) (scanRegion blk.instructions)
              (lv.live_out.getD blk.index ∅)
              { demandOfSet rcOf (lv.live_out.getD blk.index ∅) with
                sgpr := (demandOfSet rcOf (lv.live_out.getD blk.index ∅)).sgpr -
                  (phiC.getD blk.index 0 : Int) }).live).live)
        lv.live_out wl).2,
      phiC, false⟩
  dsimp only at h1 h2
  omega

theorem process_block_live_out_length (rcOf : Nat → RegClass) (beforeRA : Bool)
    (blk : Block) (lv : live) (wl : Finset Nat) (phiC : List Nat) :
    (process_live_temps_per_block rcOf beforeRA blk lv wl phiC).lv.live_out.length =
      lv.live_out.length := by
  simp only [process_live_temps_per_block]
  rw [phiOpsPhase_push_length, pushAll_length]

theorem process_block_live_out_getD (rcOf : Nat → RegClass) (beforeRA : Bool)
    (blk : Block) (lv : live) (wl : Finset Nat) (phiC : List Nat) (q : Nat)
    (hq : q < lv.live_out.length) :
    (process_live_temps_per_block rcOf beforeRA blk lv wl phiC).lv.live_out.getD q ∅ =
      lv.live_out.getD q ∅ ∪
      pushSet (mergeActions rcOf blk (phiDefsLive (phiRegion blk.instructions)
        (scanLive (scanRegion blk.instructions) (lv.live_out.getD blk.index ∅)))) q ∪
      phiPhaseSet blk (phiRegion blk.instructions) q := by
  simp only [process_live_temps_per_block]
  rw [phiOpsPhase_getD _ _ _ _ _ (by rw [pushAll_length]; exact hq),
      pushAll_getD _ _ _ _ hq, phiPhaseSet_phiDefs, scanRev_live, phiDefs_live]

/-- The loop invariant behind the termination bound: the stored live-out
list keeps its length, every block of the evolving program only mentions
temp ids of the original program, and every stored live-out set stays
inside the program's temp-id universe. -/
def LoopInv (p : Program) (st : AnalysisState) : Prop :=
  st.lv.live_out.length = p.blocks.length ∧
  (∀ b ∈ st.program.blocks, blockTempIds b ⊆ tempUniverse p) ∧
  (∀ q, st.lv.live_out.getD q ∅ ⊆ tempUniverse p)

theorem analysisStep_inv (p : Program) (st : AnalysisState) (x : Nat)
    (h : LoopInv p st) : LoopInv p (analysisStep st x) := by
  obtain ⟨hlen, hblocks, hsub⟩ := h
  unfold analysisStep
  cases hx : st.program.blocks.get? x with
  | none => exact ⟨hlen, hblocks, hsub⟩
  | some blk =>
    have hblk : blk ∈ st.program.blocks := List.get?_mem hx
    refine ⟨?_, ?_, ?_⟩
    · show (process_live_temps_per_block st.program.temp_rc st.program.progress_before_ra
        blk st.lv st.worklist st.phiC).lv.live_out.length = _
      rw [process_block_live_out_length]
      exact hlen
    · intro b hb
      rcases List.mem_or_eq_of_mem_set hb with h1 | h2
      · exact hblocks b h1
      · rw [h2, process_block_tempIds]
        exact hblocks blk hblk
    · intro q
      show (process_live_temps_per_block st.program.temp_rc st.program.progress_before_ra
        blk st.lv st.worklist st.phiC).lv.live_out.getD q ∅ ⊆ _
      by_cases hq : q < st.lv.live_out.length
      · rw [process_block_live_out_getD _ _ _ _ _ _ _ hq]
        apply Finset.union_subset
        apply Finset.union_subset
        · exact hsub q
        · intro y hy
          have hyr := ((mem_mergeActions _ _ _ _ _).mp ((mem_pushSet _ _ _).mp hy)).1
          have hy2 := phiDefsLive_subset _ _ hyr
          have hy3 := scanLive_subset _ _ hy2
          rcases Finset.mem_union.mp hy3 with h1 | h1
          · exact hsub blk.index h1
          · apply hblocks blk hblk
            rw [blockTempIds_eq, ← phiRegion_append_scanRegion blk.instructions,
              listTempIds_append]
            exact Finset.mem_union_right _ h1
        · intro y hy
          have hy2 := phiPhaseSet_subset blk (phiRegion blk.instructions) q hy
          apply hblocks blk hblk
          rw [blockTempIds_eq, ← phiRegion_append_scanRegion blk.instructions,
            listTempIds_append]
          exact Finset.mem_union_left _ hy2
      · have hout : (process_live_temps_per_block st.program.temp_rc
            st.program.progress_before_ra blk st.lv st.worklist
            st.phiC).lv.live_out.length ≤ q := by
          rw [process_block_live_out_length]
          omega
        rw [List.getD_eq_default _ _ hout]
        exact Finset.empty_subset _

theorem analysisStep_mass (st : AnalysisState) (x : Nat) :
    (analysisStep st x).worklist.card + liveMass st.lv.live_out ≤
      st.worklist.card + liveMass (analysisStep st x).lv.live_out := by
  unfold analysisStep
  cases hx : st.program.blocks.get? x with
  | none => exact Nat.le_refl _
  | some blk =>
    exact process_block_mass st.program.temp_rc st.program.progress_before_ra blk
      st.lv st.worklist st.phiC

theorem liveMass_le (lvo : List (Finset Nat)) (U : Finset Nat)
    (h : ∀ q, lvo.getD q ∅ ⊆ U) : liveMass lvo ≤ lvo.length * U.card := by
  induction lvo with
  | nil => simp [liveMass]
  | cons S rest ih =>
    rw [liveMass_cons]
    have h0 : S ⊆ U := h 0
    have hS : S.card ≤ U.card := Finset.card_le_card h0
    have hr : liveMass rest ≤ rest.length * U.card := ih (fun q => h (q + 1))
    show S.card + liveMass rest ≤ (S :: rest).length * U.card
    rw [List.length_cons, Nat.succ_mul]
    omega

theorem liveLoop_drains (p : Program) :
    ∀ fuel st, LoopInv p st →
      st.worklist.card + p.blocks.length * (tempUniverse p).card ≤
        fuel + liveMass st.lv.live_out →
      (liveLoop fuel st).worklist = ∅ := by
  intro fuel
  induction fuel with
  | zero =>
    intro st hInv hb
    obtain ⟨hlen, _, hsub⟩ := hInv
    have hm : liveMass st.lv.live_out ≤ p.blocks.length * (tempUniverse p).card := by
      have := liveMass_le st.lv.live_out (tempUniverse p) hsub
      rw [hlen] at this
      exact this
    show (liveLoop 0 st).worklist = ∅
    simp only [liveLoop]
    have hc : st.worklist.card = 0 := by omega
    exact Finset.card_eq_zero.mp hc
  | succ f ih =>
    intro st hInv hb
    simp only [liveLoop]
    by_cases h : st.worklist.Nonempty
    · rw [dif_pos h]
      apply ih
      · exact analysisStep_inv p
          { st with worklist := st.worklist.erase (st.worklist.max' h) }
          (st.worklist.max' h) hInv
      · have hstep := analysisStep_mass
          { st with worklist := st.worklist.erase (st.worklist.max' h) }
          (st.worklist.max' h)
        have hx : st.worklist.max' h ∈ st.worklist := Finset.max'_mem _ h
        have hcard : (st.worklist.erase (st.worklist.max' h)).card + 1 =
            st.worklist.card := Finset.card_erase_add_one hx
        dsimp only at hstep
        omega
    · rw [dif_neg h]
      exact Finset.not_nonempty_iff_eq_empty.mp h

theorem foldl_insert_card (l : List Block) (init : Finset Nat) :
    (l.foldl (fun s b => insert b.index s) init).card ≤ init.card + l.length := by
  induction l generalizing init with
  | nil => simp
  | cons b rest ih =>
    show (rest.foldl _ (insert b.index init)).card ≤ _
    have h1 := ih (insert b.index init)
    have h2 := Finset.card_insert_le b.index init
    simp only [List.length_cons]
    omega

theorem liveMass_replicate (n : Nat) : liveMass (List.replicate n (∅ : Finset Nat)) = 0 := by
  induction n with
  | zero => rfl
  | succ m ih =>
    rw [List.replicate_succ, liveMass_cons, ih]
    simp

theorem getD_replicate_empty (n q : Nat) :
    (List.replicate n (∅ : Finset Nat)).getD q ∅ = ∅ := by
  induction n generalizing q with
  | zero => cases q <;> rfl
  | succ m ih =>
    cases q with
    | zero => rfl
    | succ j => exact ih j

theorem blockTempIds_subset_fold (l : List Block) (b : Block) (hb : b ∈ l) :
    blockTempIds b ⊆ l.foldr (fun b acc => blockTempIds b ∪ acc) ∅ := by
  induction l with
  | nil => cases hb
  | cons hd tl ih =>
    rcases List.mem_cons.mp hb with he | hm
    · rw [he]
      exact Finset.subset_union_left
    · exact (ih hm).trans Finset.subset_union_right

/-- C9.  Fixpoint termination: the worklist loop, run with the fuel
`analysisFuel p` = (number of blocks) + (number of blocks) × (number of
distinct temp ids), always drains the worklist completely — each pop
either leaves every stored live-out set unchanged or grows the total
live-out mass, which is bounded by blocks × temp ids. -/
theorem live_var_analysis_terminates (p : Program) :
    (liveVarAnalysisState p).worklist = ∅ := by
  show (liveLoop (analysisFuel p) (analysisInit p)).worklist = ∅
  apply liveLoop_drains p (analysisFuel p) (analysisInit p)
  · refine ⟨?_, ?_, ?_⟩
    · show (List.replicate p.blocks.length (∅ : Finset Nat)).length = p.blocks.length
      exact List.length_replicate _ _
    · intro b hb
      exact blockTempIds_subset_fold p.blocks b hb
    · intro q
      show (List.replicate p.blocks.length (∅ : Finset Nat)).getD q ∅ ⊆ _
      rw [getD_replicate_empty]
      exact Finset.empty_subset _
  · show (p.blocks.foldl (fun (s : Finset Nat) (b : Block) => insert b.index s) ∅).card +
        p.blocks.length * (tempUniverse p).card ≤
      analysisFuel p + liveMass (List.replicate p.blocks.length (∅ : Finset Nat))
    rw [liveMass_replicate]
    have h1 := foldl_insert_card p.blocks ∅
    rw [Finset.card_empty] at h1
    unfold analysisFuel
    omega

/- ## The entry-block check (C4) -/

@[simp] theorem demandOfSet_vgpr (rcOf : Nat → RegClass) (S : Finset Nat) :
    (demandOfSet rcOf S).vgpr =
      S.sum (fun t => if (rcOf t).type = RegType.vgpr then ((rcOf t).size : Int) else 0) := rfl

@[simp] theorem demandOfSet_sgpr (rcOf : Nat → RegClass) (S : Finset Nat) :
    (demandOfSet rcOf S).sgpr =
      S.sum (fun t => if (rcOf t).type = RegType.vgpr then 0 else ((rcOf t).size : Int)) := rfl

theorem demandOfSet_erase (rcOf : Nat → RegClass) (S : Finset Nat) (x : Nat)
    (hx : x ∈ S) :
    demandOfSet rcOf (S.erase x) = (demandOfSet rcOf S).subTemp ⟨x, rcOf x⟩ := by
  ext
  · show (S.erase x).sum _ = S.sum _ - _
    rw [← Finset.sum_erase_add S _ hx]
    show _ = _ + _ - _
    simp [Temp.type, Temp.size]
  · show (S.erase x).sum _ = S.sum _ - _
    rw [← Finset.sum_erase_add S _ hx]
    show _ = _ + _ - _
    simp [Temp.type, Temp.size]

theorem demandOfSet_insert (rcOf : Nat → RegClass) (S : Finset Nat) (x : Nat)
    (hx : x ∉ S) :
    demandOfSet rcOf (insert x S) = (demandOfSet rcOf S).addTemp ⟨x, rcOf x⟩ := by
  ext
  · show (insert x S).sum _ = S.sum _ + _
    rw [Finset.sum_insert hx]
    simp [Temp.type, Temp.size]
    ring
  · show (insert x S).sum _ = S.sum _ + _
    rw [Finset.sum_insert hx]
    simp [Temp.type, Temp.size]
    ring

/-- The embedded register classes agree with the program's per-id map
(`Temp` carries its own `RegClass` in the IR; a well-formed program has
`t.rc == program->temp_rc[t.id]`). -/
def tempOK (rcOf : Nat → RegClass) : Option Temp → Prop
  | none => True
  | some t => t.rc = rcOf t.id

instance (rcOf : Nat → RegClass) : ∀ ot, Decidable (tempOK rcOf ot)
  | none => Decidable.isTrue trivial
  | some t => inferInstanceAs (Decidable (t.rc = rcOf t.id))

/-- Every temp mentioned in the region carries its program register
class. -/
def scanCoherent (rcOf : Nat → RegClass) (l : List Instruction) : Prop :=
  ∀ i ∈ l, (∀ o ∈ i.operands, tempOK rcOf o.temp) ∧ (∀ d ∈ i.definitions, tempOK rcOf d.temp)

instance (rcOf : Nat → RegClass) (l : List Instruction) :
    Decidable (scanCoherent rcOf l) :=
  inferInstanceAs (Decidable (∀ i ∈ l, (∀ o ∈ i.operands, tempOK rcOf o.temp) ∧
    (∀ d ∈ i.definitions, tempOK rcOf d.temp)))

theorem killDefs_coherent (rcOf : Nat → RegClass) (defs : List Definition)
    (lv : Finset Nat) (dem : RegisterDemand)
    (hco : ∀ d ∈ defs, tempOK rcOf d.temp) (hdem : dem = demandOfSet rcOf lv) :
    (killDefs defs lv dem).demand = demandOfSet rcOf (killDefs defs lv dem).live := by
  induction defs generalizing lv dem with
  | nil => exact hdem
  | cons d rest ih =>
    cases hd : d.temp with
    | none =>
      simp only [killDefs, hd]
      exact ih lv dem (fun e he => hco e (List.mem_cons_of_mem _ he)) hdem
    | some t =>
      have hrc : t.rc = rcOf t.id := by
        have := hco d (List.mem_cons_self _ _)
        rw [hd] at this
        exact this
      by_cases hmem : t.id ∈ lv
      · simp only [killDefs, hd, if_pos hmem]
        apply ih
        · exact fun e he => hco e (List.mem_cons_of_mem _ he)
        · rw [hdem, demandOfSet_erase rcOf lv t.id hmem]
          obtain ⟨tid, trc⟩ := t
          simp only at hrc
          rw [hrc]
      · simp only [killDefs, hd, if_neg hmem]
        exact ih lv dem (fun e he => hco e (List.mem_cons_of_mem _ he)) hdem

theorem genOps_coherent (rcOf : Nat → RegClass) (ops : List Operand)
    (lv : Finset Nat) (dem : RegisterDemand)
    (hco : ∀ o ∈ ops, tempOK rcOf o.temp) (hdem : dem = demandOfSet rcOf lv) :
    (genOps ops lv dem).demand = demandOfSet rcOf (genOps ops lv dem).live := by
  induction ops, lv, dem using genOps.induct with
  | case1 lv dem =>
    simp only [genOps]
    exact hdem
  | case2 o0 rest lv dem ho0 ih =>
    simp only [genOps, ho0]
    exact ih (fun o ho => hco o (List.mem_cons_of_mem _ ho)) hdem
  | case3 o0 rest lv dem t0 ho0 hmem ih =>
    simp only [genOps, ho0, if_pos hmem]
    exact ih (fun o ho => hco o (List.mem_cons_of_mem _ ho)) hdem
  | case4 o0 rest lv dem t0 ho0 hmem ih =>
    simp only [genOps, ho0, if_neg hmem]
    have hrc : t0.rc = rcOf t0.id := by
      have := hco o0 (List.mem_cons_self _ _)
      rw [ho0] at this
      exact this
    apply ih
    · intro o ho
      simp only [markLaterKills, List.mem_map] at ho
      obtain ⟨o1, ho1, he⟩ := ho
      have h1 := hco o1 (List.mem_cons_of_mem _ ho1)
      rw [← he]
      by_cases ht : o1.tid = some t0.id
      · rw [if_pos ht]
        show tempOK rcOf ((o1.setFirstKill false).setKill true).temp
        rw [setKill_temp, setFirstKill_temp]
        exact h1
      · rw [if_neg ht]
        exact h1
    · rw [hdem, demandOfSet_insert rcOf lv t0.id hmem]
      obtain ⟨tid, trc⟩ := t0
      simp only at hrc
      rw [hrc]

theorem stepInstr_coherent (rcOf : Nat → RegClass) (c : Nat) (insn : Instruction)
    (lv : Finset Nat) (dem : RegisterDemand)
    (hop : insn.opcode ≠ Opcode.p_logical_end)
    (hco1 : ∀ o ∈ insn.operands, tempOK rcOf o.temp)
    (hco2 : ∀ d ∈ insn.definitions, tempOK rcOf d.temp)
    (hdem : dem = demandOfSet rcOf lv) :
    (stepInstr c insn lv dem).demand =
      demandOfSet rcOf (stepInstr c insn lv dem).live := by
  simp only [stepInstr, if_neg hop, genOpsF_len]
  apply genOps_coherent
  · intro o ho
    simp only [List.mem_map] at ho
    obtain ⟨o1, ho1, he⟩ := ho
    rw [← he]
    show tempOK rcOf (o1.setKill false).temp
    rw [setKill_temp]
    exact hco1 o1 ho1
  · exact killDefs_coherent rcOf insn.definitions lv dem hco2 hdem

theorem scanRev_coherent (rcOf : Nat → RegClass) (c : Nat) (l : List Instruction)
    (lv : Finset Nat) (dem : RegisterDemand)
    (hco : scanCoherent rcOf l)
    (hle : ∀ i ∈ l, i.opcode ≠ Opcode.p_logical_end)
    (hdem : dem = demandOfSet rcOf lv) :
    (scanRev c l lv dem).demand = demandOfSet rcOf (scanRev c l lv dem).live := by
  induction l with
  | nil => exact hdem
  | cons insn rest ih =>
    simp only [scanRev]
    have hr := ih (fun i hi => hco i (List.mem_cons_of_mem _ hi))
      (fun i hi => hle i (List.mem_cons_of_mem _ hi))
    have hci := hco insn (List.mem_cons_self _ _)
    exact stepInstr_coherent rcOf c insn (scanRev c rest lv dem).live
      (scanRev c rest lv dem).demand (hle insn (List.mem_cons_self _ _))
      hci.1 hci.2 hr

theorem demandOfSet_eq_zero_iff (rcOf : Nat → RegClass)
    (hsz : ∀ n, 0 < (rcOf n).size) (S : Finset Nat) :
    demandOfSet rcOf S = ({} : RegisterDemand) ↔ S = ∅ := by
  constructor
  · intro h
    by_contra hne
    obtain ⟨x, hx⟩ := Finset.nonempty_iff_ne_empty.mpr hne
    have hv := congrArg RegisterDemand.vgpr h
    have hs := congrArg RegisterDemand.sgpr h
    simp only [demandOfSet_vgpr, demandOfSet_sgpr, zero_vgpr, zero_sgpr] at hv hs
    by_cases ht : (rcOf x).type = RegType.vgpr
    · have hle : ((rcOf x).size : Int) ≤ S.sum
          (fun t => if (rcOf t).type = RegType.vgpr then ((rcOf t).size : Int) else 0) := by
        have := Finset.single_le_sum (f := fun t =>
          if (rcOf t).type = RegType.vgpr then ((rcOf t).size : Int) else 0)
          (fun i _ => by positivity) hx
        simpa only [if_pos ht] using this
      have := hsz x
      omega
    · have hle : ((rcOf x).size : Int) ≤ S.sum
          (fun t => if (rcOf t).type = RegType.vgpr then 0 else ((rcOf t).size : Int)) := by
        have := Finset.single_le_sum (f := fun t =>
          if (rcOf t).type = RegType.vgpr then 0 else ((rcOf t).size : Int))
          (fun i _ => by positivity) hx
        simpa only [if_neg ht] using this
      have := hsz x
      omega
  · intro h
    rw [h]
    rfl

/-- C4 (amended).  The line-238 entry check tests the block's *residual
live-in* and end-of-scan demand — not its live-out set (which the
counterexample below shows can be nonempty on a well-formed program).
For block index 0 with a zero phi-operand counter, positive register
sizes, class-coherent temps and no `p_logical_end` in the scanned
region, the check passes exactly when no register is live at the top of
the scanned region — every surviving read is matched by a definition
below the phis. -/
theorem process_block_entry_check (rcOf : Nat → RegClass) (beforeRA : Bool)
    (blk : Block) (lv : live) (wl : Finset Nat) (phiC : List Nat)
    (hidx : blk.index = 0)
    (hphi : phiC.getD 0 0 = 0)
    (hsz : ∀ n, 0 < (rcOf n).size)
    (hco : scanCoherent rcOf (scanRegion blk.instructions))
    (hle : ∀ i ∈ scanRegion blk.instructions, i.opcode ≠ Opcode.p_logical_end) :
    ((process_live_temps_per_block rcOf beforeRA blk lv wl phiC).assertOK = true ↔
      scanLive (scanRegion blk.instructions) (lv.live_out.getD blk.index ∅) = ∅) := by
  simp only [process_live_temps_per_block, hidx, hphi]
  have hdem1 : ({ demandOfSet rcOf (lv.live_out.getD 0 ∅) with
      sgpr := (demandOfSet rcOf (lv.live_out.getD 0 ∅)).sgpr - ((0 : Nat) : Int) } :
        RegisterDemand) = demandOfSet rcOf (lv.live_out.getD 0 ∅) := by
    ext <;> simp
  rw [hdem1]
  have hsc := scanRev_coherent rcOf 0 (scanRegion blk.instructions)
    (lv.live_out.getD 0 ∅) (demandOfSet rcOf (lv.live_out.getD 0 ∅)) hco hle rfl
  simp only [bne_self_eq_false, Bool.false_or, Bool.and_eq_true, decide_eq_true_eq]
  rw [hsc, scanRev_live, phiDefs_live,
      demandOfSet_eq_zero_iff rcOf hsz]
  constructor
  · intro h
    exact h.1
  · intro h
    refine ⟨h, ?_⟩
    have h2 : scanLive (scanRegion blk.instructions) (lv.live_out.getD 0 ∅) ⊆ ∅ := by
      rw [h]
    exact Finset.subset_empty.mp ((phiDefsLive_subset _ _).trans h2)

/-- Closed instantiation of C4's amended theorem on `blkC2`: the check
passes, and indeed nothing is live at the top of the block. -/
theorem process_block_entry_check_witness :
    ((process_live_temps_per_block (fun _ => rc1) true blkC2 lv1 ∅ [0]).assertOK = true ↔
      scanLive (scanRegion blkC2.instructions) (lv1.live_out.getD blkC2.index ∅) = ∅) :=
  process_block_entry_check (fun _ => rc1) true blkC2 lv1 ∅ [0]
    (by decide) (by decide) (fun _ => Nat.one_pos) (by decide) (by decide)

/-- Two blocks: block 0 defines temp 1, block 1 (predecessor: block 0)
reads it. -/
def pC4 : Program :=
  { blocks := [{ index := 0, instructions := [insnDefC2],
                 logical_preds := [], linear_preds := [] },
               { index := 1, instructions := [insnReadC2],
                 logical_preds := [0], linear_preds := [0] }],
    temp_rc := fun _ => rc1,
    dev := progW.dev, config := progW.config,
    chip_class := 9, wave_size := 64, workgroup_size := UINT_MAX,
    wgp_mode := false, needs_flat_scr := false, min_waves := 1 }

/-- C4 counterexample: `pC4` is well formed (temp 1 is defined in block 0
and only read in its successor block 1; block 0 has no predecessors of
either kind), the line-238 check passes on every processed block — yet
after `live_var_analysis` the live-out set computed for block 0 is
`{1}`, not the empty set: the merge of block 1's live-in stores temp 1
into its predecessor's live-out.  The claim conflates live-out with the
(residual) live-in that the assertion actually tests. -/
theorem live_var_analysis_entry_live_out_counterexample :
    (liveVarAnalysisState pC4).lv.live_out = [{1}, ∅] ∧
    (liveVarAnalysisState pC4).assertOK = true ∧
    (pC4.blocks.map Block.logical_preds = [[], [0]] ∧
      pC4.blocks.map Block.linear_preds = [[], [0]]) ∧
    ¬(({1} : Finset Nat) = ∅) := by
  decide

end Aco
